import Mathlib

/-!
# SocketUtils: framed, chunked, optionally encrypted transport

A shallow embedding of `socketutils.cpp`.

* Bytes are `Fin 256`; byte arrays (`QByteArray`) are `List Byte`.
* C `int`/`qint64` counters are `Int`, sizes of byte arrays are natural numbers cast to `Int`.
  Counters stay far below `2^31` for arrays that fit in memory, so wraparound of counters is not
  modelled; the conversions between `int` and `unsigned int` around the length header are.
* Code that talks to the socket, to `EncryptUtils`, to the event loop or to the sleep primitive
  is a *process* (`Proc`): a tree of calls to these collaborators with the code's own
  computation between them.  A process is run either against one `Device` (one peer, any channel
  behaviour) or, for two peers, by a lockstep scheduler over a shared loopback channel.
* The globals `sessionIV`, `sessionPasswordHash` and `socketIsBluetooth` are a `Session` value
  that is passed in and returned; the global `socket` is the device a process runs against.
* Loops are structural recursions on a fuel argument that counts loop iterations; running out of
  fuel is the distinguished outcome `Proc.outOfFuel`, never a made-up result.
* Time is discrete: a stopwatch reads the sum of the sleeps made since it was started.
* Logging (`qInfo`) and the counter `iter`, which only feeds the log, are left out, and so are
  `writeString` and `readString`, which add the UTF-8 conversion of `QString`.
-/

namespace SocketUtils

/-! ## Bytes and the length header -/

/-- One `char` of a `QByteArray`, as its unsigned value. -/
abbrev Byte := Fin 256

/-- The macro `IO_MAX_CHUNK`. -/
def IO_MAX_CHUNK : Int := 100

/-- The helper `MIN` on `qint64`. -/
def MIN (a b : Int) : Int := if a < b then a else b

/-- The helper `MAX` on `qint64`. -/
def MAX (a b : Int) : Int := if a > b then a else b

/-- The byte `0xFF & x`. -/
def lowByte (x : Nat) : Byte := ⟨x &&& 0xFF, Nat.lt_succ_of_le Nat.and_le_right⟩

/-- Conversion of an `int` or `qint64` value to `unsigned int`. -/
def toUnsigned (n : Int) : Nat := (n % 2 ^ 32).toNat

/-- Conversion of an `unsigned int` value to `int` (two's complement). -/
def toSigned (n : Nat) : Int := if n % 2 ^ 32 < 2 ^ 31 then (n % 2 ^ 32 : Nat) else (n % 2 ^ 32 : Nat) - 2 ^ 32

/-- The conversion of a `qint64` to `int`, as in `int wroteThisTime = socket->write(...)`: the
low 32 bits, read as a signed number. -/
def narrowToInt (n : Int) : Int := toSigned (toUnsigned n)

/-- The function `intToBytes(unsigned int n)`: byte `i` is `0xFF & (n >> 8*i)` for `i = 0..3`. -/
def intToBytes (n : Nat) : List Byte :=
  (List.range 4).map fun i => lowByte (n >>> (8 * i))

/-- The function `bytesToInt(QByteArray bytes)`; the result is an `unsigned int`. -/
def bytesToInt (bytes : List Byte) : Nat :=
  match bytes with
  | b0 :: b1 :: b2 :: b3 :: _ =>
    ((b0.val <<< 0) ||| (b1.val <<< 8) ||| (b2.val <<< 16) ||| (b3.val <<< 24)) % 2 ^ 32
  | _ => 0

/-- The constructor `QByteArray(size, ch)`: empty when `size <= 0`. -/
def byteArray (size : Int) (ch : Byte) : List Byte := List.replicate size.toNat ch

/-- The bytes `ptr[0 .. len)` of the memory that starts `off` bytes into `data`. -/
def slice (data : List Byte) (off len : Int) : List Byte :=
  (data.drop off.toNat).take len.toNat

/-- Storing `bytes` into the buffer `data` at offset `off` (what `read(data + off, ...)` does);
the buffer keeps its size. -/
def store (data : List Byte) (off : Int) (bytes : List Byte) : List Byte :=
  (data.take off.toNat ++ bytes ++ data.drop (off.toNat + bytes.length)).take data.length

/-- The method `QByteArray::resize(size)`: a longer array gets new bytes at the end, and these are
uninitialised; `fill i` is the value that happens to be at index `i`. -/
def resize (data : List Byte) (size : Nat) (fill : Nat → Byte) : List Byte :=
  (List.range size).map fun i => (data.get? i).getD (fill i)

/-- The text `QString::number(n).toUtf8()`: the decimal digits of `n`, with a leading minus sign
for a negative number. -/
def numberToUtf8 (n : Int) : List Byte :=
  let digits : List Byte := (Nat.toDigits 10 n.natAbs).map fun c => lowByte c.toNat
  if n < 0 then (45 : Byte) :: digits else digits

/-! ## Processes: the code between its calls to the socket and the other collaborators -/

/-- Observation points that are not calls: the value a wait helper is about to return. -/
inductive Note where
  | waitForBytesWritten (msecs : Int) (result : Bool)
  | waitForReadyRead (msecs : Int) (result : Bool)
deriving DecidableEq, Repr

/-- A process: what the code does, as a tree of calls to its collaborators. Each call node holds
the arguments of the call and the rest of the code as a function of what the call returns.

* `write buf len` is `socket->write(ptr, len)` where `buf` is the memory `ptr[0 .. len)`; it
  returns the number of bytes accepted, or a value `<= 0`.
* `read maxLen` is `socket->read(ptr, maxLen)`; `none` is a negative return value, `some bs` is
  the return value `bs.length` with `bs` stored at `ptr`.
* `bytesAvailable`, `bytesToWrite`, `isOpen`, `close` are the methods of `QIODevice`.
* `processEvents` is `QEventLoop::processEvents`, `sleepMs` is
  `FakeInput::platformIndependentSleepMs`.
* `makeHash16`, `encryptBytes`, `decryptBytes` are the functions of `EncryptUtils`.
* `outOfFuel` is a loop that used up its iteration budget. -/
inductive Proc (α : Type) : Type where
  | ret (a : α)
  | outOfFuel
  | write (buf : List Byte) (len : Int) (k : Int → Proc α)
  | read (maxLen : Int) (k : Option (List Byte) → Proc α)
  | bytesAvailable (k : Int → Proc α)
  | bytesToWrite (k : Int → Proc α)
  | isOpen (k : Bool → Proc α)
  | close (k : Proc α)
  | processEvents (k : Proc α)
  | sleepMs (ms : Int) (k : Proc α)
  | makeHash16 (seed : List Byte) (k : List Byte → Proc α)
  | encryptBytes (data key iv : List Byte) (k : List Byte → Proc α)
  | decryptBytes (data key iv : List Byte) (k : List Byte → Proc α)
  | note (n : Note) (k : Proc α)

/-- Sequencing: run `p`, then the code `f` on its value. -/
def Proc.bind {α β : Type} : Proc α → (α → Proc β) → Proc β
  | .ret a, f => f a
  | .outOfFuel, _ => .outOfFuel
  | .write buf len k, f => .write buf len fun r => (k r).bind f
  | .read maxLen k, f => .read maxLen fun r => (k r).bind f
  | .bytesAvailable k, f => .bytesAvailable fun r => (k r).bind f
  | .bytesToWrite k, f => .bytesToWrite fun r => (k r).bind f
  | .isOpen k, f => .isOpen fun r => (k r).bind f
  | .close k, f => .close (k.bind f)
  | .processEvents k, f => .processEvents (k.bind f)
  | .sleepMs ms k, f => .sleepMs ms (k.bind f)
  | .makeHash16 seed k, f => .makeHash16 seed fun r => (k r).bind f
  | .encryptBytes data key iv k, f => .encryptBytes data key iv fun r => (k r).bind f
  | .decryptBytes data key iv k, f => .decryptBytes data key iv fun r => (k r).bind f
  | .note n k, f => .note n (k.bind f)

instance : Monad Proc where
  pure := Proc.ret
  bind := Proc.bind

/-- The call `socket->write(ptr, len)`. -/
def socket.write (buf : List Byte) (len : Int) : Proc Int := .write buf len .ret

/-- The call `socket->read(ptr, maxLen)`. -/
def socket.read (maxLen : Int) : Proc (Option (List Byte)) := .read maxLen .ret

/-- The call `socket->read(maxLen)` that returns a `QByteArray`: the bytes read, none on error. -/
def socket.readArray (maxLen : Int) : Proc (List Byte) := .read maxLen fun r => .ret (r.getD [])

/-- The call `socket->bytesAvailable()`. -/
def socket.bytesAvailable : Proc Int := .bytesAvailable .ret

/-- The call `socket->bytesToWrite()`. -/
def socket.bytesToWrite : Proc Int := .bytesToWrite .ret

/-- The call `socket->isOpen()`. -/
def socket.isOpen : Proc Bool := .isOpen .ret

/-- The call `socket->close()`. -/
def socket.close : Proc Unit := .close (.ret ())

/-- The call `eventLoop.processEvents()`. -/
def eventLoop.processEvents : Proc Unit := .processEvents (.ret ())

/-- The call `FakeInput::platformIndependentSleepMs(ms)`. -/
def FakeInput.platformIndependentSleepMs (ms : Int) : Proc Unit := .sleepMs ms (.ret ())

/-- The call `EncryptUtils::makeHash16(seed)`. -/
def EncryptUtils.makeHash16 (seed : List Byte) : Proc (List Byte) := .makeHash16 seed .ret

/-- The call `EncryptUtils::encryptBytes(data, key, iv)`. -/
def EncryptUtils.encryptBytes (data key iv : List Byte) : Proc (List Byte) :=
  .encryptBytes data key iv .ret

/-- The call `EncryptUtils::decryptBytes(data, key, iv)`. -/
def EncryptUtils.decryptBytes (data key iv : List Byte) : Proc (List Byte) :=
  .decryptBytes data key iv .ret

/-- Record the value a wait helper returns. -/
def observe (n : Note) : Proc Unit := .note n (.ret ())

/-! ## The code of `socketutils.cpp` -/

/-- The globals `socketIsBluetooth`, `sessionIV`, `sessionPasswordHash`. -/
structure Session where
  socketIsBluetooth : Bool
  sessionIV : Int
  sessionPasswordHash : List Byte
deriving DecidableEq, Repr

/-- The function `setGlobalSocket(socket, bluetooth)`, on the globals other than the socket. -/
def setGlobalSocket (sess : Session) (bluetooth : Bool) : Session :=
  { sess with socketIsBluetooth := bluetooth }

/-- The function `initSession(sessionIV, sessionPasswordHash)`. -/
def initSession (sess : Session) (sessionIV : Int) (sessionPasswordHash : List Byte) : Session :=
  { sess with sessionIV := sessionIV, sessionPasswordHash := sessionPasswordHash }

/-- The function `getSessionHash()`. -/
def getSessionHash (sess : Session) : List Byte := sess.sessionPasswordHash

/-- The function `bytesAvailable()`: `socket->bytesAvailable() > 0`. -/
def bytesAvailable : Proc Bool := do
  let n ← socket.bytesAvailable
  return decide (n > 0)

/-- The `while` loop of `waitForBytesWritten`. The stopwatch is modelled by `elapsed`, the sum of
the sleeps so far: a sleep of 10 ms takes 10 ms and nothing else takes time. -/
def waitForBytesWrittenLoop (msecs : Int) : Nat → Int → Proc Unit
  | fuel, elapsed =>
    if elapsed < msecs then do
      if (← socket.bytesToWrite) ≠ 0 then
        if (← socket.isOpen) then
          match fuel with
          | 0 => Proc.outOfFuel
          | fuel + 1 => do
            FakeInput.platformIndependentSleepMs 10
            eventLoop.processEvents
            waitForBytesWrittenLoop msecs fuel (elapsed + 10)
        else return ()
      else return ()
    else return ()

/-- The number of iterations after which the modelled stopwatch has reached `msecs`. -/
def pollBudget (msecs : Int) : Nat := (msecs / 10).toNat + 1

/-- The function `waitForBytesWritten(msecs)`. -/
def waitForBytesWritten (msecs : Int) : Proc Bool := do
  eventLoop.processEvents
  waitForBytesWrittenLoop msecs (pollBudget msecs) 0
  let n ← socket.bytesToWrite
  let result := decide (n = 0)
  observe (.waitForBytesWritten msecs result)
  return result

/-- The `while` loop of `waitForReadyRead`, with the stopwatch modelled as in
`waitForBytesWrittenLoop`. -/
def waitForReadyReadLoop (msecs : Int) : Nat → Int → Proc Unit
  | fuel, elapsed =>
    if elapsed < msecs then do
      if (← socket.bytesAvailable) = 0 then
        if (← socket.isOpen) then
          match fuel with
          | 0 => Proc.outOfFuel
          | fuel + 1 => do
            FakeInput.platformIndependentSleepMs 10
            eventLoop.processEvents
            waitForReadyReadLoop msecs fuel (elapsed + 10)
        else return ()
      else return ()
    else return ()

/-- The function `waitForReadyRead(msecs)`. -/
def waitForReadyRead (msecs : Int) : Proc Bool := do
  eventLoop.processEvents
  waitForReadyReadLoop msecs (pollBudget msecs) 0
  let result ← bytesAvailable
  observe (.waitForReadyRead msecs result)
  return result

/-- The condition `!bytesAvailable() && !waitForReadyRead(msecs)`; the right side of `&&` is
evaluated only when the left side holds. -/
def notAvailableNorReady (msecs : Int) : Proc Bool := do
  if !(← bytesAvailable) then
    return !(← waitForReadyRead msecs)
  else
    return false

/-- The end of `writeAllData`, after the loop: close the socket unless everything was written. -/
def writeAllDataEnd (data : List Byte) (wroteSoFar : Int) : Proc Bool := do
  if wroteSoFar ≠ data.length then
    socket.close
  return decide (wroteSoFar = data.length)

/-- The `while` loop of `writeAllData` from the loop variables `wroteSoFar` and `chunkSoFar`, then
the end of the function; `fuel` bounds the number of iterations. The `qint64` that
`socket->write` returns is stored in the `int wroteThisTime`. The sums `wroteSoFar +=` and
`chunkSoFar +=` are exact: they leave the range of `int` only when the channel reports more
bytes than it was offered, where the C++ sum is undefined. -/
def writeAllDataLoop (data : List Byte) : Nat → Int → Int → Proc Bool
  | fuel, wroteSoFar, chunkSoFar =>
    if wroteSoFar < data.length then
      match fuel with
      | 0 => Proc.outOfFuel
      | fuel + 1 => do
        let chunkLeft := IO_MAX_CHUNK - chunkSoFar
        let bytesLeft := data.length - wroteSoFar
        let wroteThisTime : Int := narrowToInt (←
          socket.write (slice data wroteSoFar (MIN bytesLeft chunkLeft)) (MIN bytesLeft chunkLeft))
        if wroteThisTime ≤ 0 then
          writeAllDataEnd data wroteSoFar
        else do
          let wroteSoFar := wroteSoFar + wroteThisTime
          let chunkSoFar := chunkSoFar + wroteThisTime
          if !(← waitForBytesWritten 1000) then
            return false
          else if chunkSoFar = IO_MAX_CHUNK then do
            if ← notAvailableNorReady 1000 then
              return false
            else do
              let ping ← socket.readArray 1
              if ping.length ≠ 1 ∨ ping.head? ≠ some 0 then do
                socket.close
                return false
              else
                writeAllDataLoop data fuel wroteSoFar 0
          else
            writeAllDataLoop data fuel wroteSoFar chunkSoFar
    else
      writeAllDataEnd data wroteSoFar

/-- The function `writeAllData(data)`. -/
def writeAllData (fuel : Nat) (data : List Byte) : Proc Bool :=
  writeAllDataLoop data fuel 0 0

/-- The bytes `intToBytes(data.size()) + data` that `writeDataUnencrypted` hands on. -/
def frame (data : List Byte) : List Byte :=
  intToBytes (toUnsigned data.length) ++ data

/-- The function `writeDataUnencrypted(data)`. -/
def writeDataUnencrypted (fuel : Nat) (data : List Byte) : Proc Bool :=
  writeAllData fuel (frame data)

/-- The value `16-(data.size()%16)` of `padding` in `writeDataEncrypted`. -/
def padding (size : Int) : Int := 16 - size % 16

/-- The array `data` of `writeDataEncrypted` after `data.resize(data.size() + padding)`. -/
def padded (data : List Byte) (fill : Nat → Byte) : List Byte :=
  resize data (data.length + padding data.length).toNat fill

/-- The statement `sessionIV = ( sessionIV + 1 ) % JAVA_INT_MAX_VAL`. The macro
`JAVA_INT_MAX_VAL` comes from `encryptutils.h` and is the parameter `javaIntMaxVal`; `%` is the
remainder of C++, which truncates. The sum is exact: in C++ it is a sum of `long`, defined for
every counter below `LONG_MAX`. -/
def nextIV (javaIntMaxVal : Int) (sess : Session) : Session :=
  { sess with sessionIV := (sess.sessionIV + 1).tmod javaIntMaxVal }

/-- The function `writeDataEncrypted(data)`; it returns its result and the globals. -/
def writeDataEncrypted (javaIntMaxVal : Int) (fill : Nat → Byte) (fuel : Nat) (sess : Session)
    (data : List Byte) : Proc (Bool × Session) :=
  if sess.socketIsBluetooth then do
    return (← writeDataUnencrypted fuel data, sess)
  else do
    let data := padded data fill
    let sess := nextIV javaIntMaxVal sess
    let iv ← EncryptUtils.makeHash16 (numberToUtf8 sess.sessionIV)
    let encrypted ← EncryptUtils.encryptBytes data sess.sessionPasswordHash iv
    return (← writeDataUnencrypted fuel encrypted, sess)

/-- The local variables of `readAllData`: the two counters and the contents of `*data`. -/
structure ReadVars where
  readSoFar : Int
  chunkSoFar : Int
  data : List Byte
deriving DecidableEq, Repr

/-- How a loop was left: by a `return` of the function, or through its condition. -/
inductive Flow (ρ υ : Type) where
  | returned (r : ρ)
  | left (v : υ)

/-- The `do ... while` loop of `readAllData`; `fuel` bounds the number of iterations. -/
def readAllDataDoWhile : Nat → ReadVars → Proc (Flow (Bool × List Byte) ReadVars)
  | 0, _ => Proc.outOfFuel
  | fuel + 1, v => do
    let left := v.data.length - v.readSoFar
    let chunkLeft := IO_MAX_CHUNK - v.chunkSoFar
    let got ← socket.read (MIN left chunkLeft)
    let bytesRead : Int := match got with
      | none => -1
      | some bytes => bytes.length
    if bytesRead < 0 then
      return .returned (false, v.data)
    else do
      let data := store v.data v.readSoFar (got.getD [])
      let readSoFar := v.readSoFar + bytesRead
      let chunkSoFar := v.chunkSoFar + bytesRead
      if chunkSoFar = IO_MAX_CHUNK then do
        let _ ← socket.write [0] 1
        if !(← waitForBytesWritten 1000) then do
          socket.close
          return .returned (false, data)
        else if bytesRead > 0 ∧ readSoFar < data.length then
          readAllDataDoWhile fuel ⟨readSoFar, 0, data⟩
        else
          return .left ⟨readSoFar, 0, data⟩
      else if bytesRead > 0 ∧ readSoFar < data.length then
        readAllDataDoWhile fuel ⟨readSoFar, chunkSoFar, data⟩
      else
        return .left ⟨readSoFar, chunkSoFar, data⟩

/-- The `while` loop of `readAllData` and the `return true` after it. Each run of the inner loop
gets the iteration budget `inner`; `fuel` bounds the iterations of this loop. -/
def readAllDataLoop (inner : Nat) : Nat → ReadVars → Proc (Bool × List Byte)
  | fuel, v =>
    if v.readSoFar < v.data.length then
      match fuel with
      | 0 => Proc.outOfFuel
      | fuel + 1 => do
        match ← readAllDataDoWhile inner v with
        | .returned r => return r
        | .left v =>
          if v.readSoFar < v.data.length then
            if !(← waitForReadyRead 2500) then do
              socket.close
              return (false, v.data)
            else
              readAllDataLoop inner fuel v
          else
            readAllDataLoop inner fuel v
    else
      return (true, v.data)

/-- The function `readAllData(data)`; it returns its result and the contents of `*data`. -/
def readAllData (fuel : Nat) (data : List Byte) : Proc (Bool × List Byte) := do
  if ← notAvailableNorReady 2500 then
    return (false, data)
  else
    readAllDataLoop fuel fuel ⟨0, 0, data⟩

/-- The function `readDataUnencrypted()`. -/
def readDataUnencrypted (fuel : Nat) : Proc (List Byte) := do
  let (ok, dataLengthBytes) ← readAllData fuel (byteArray 4 0)
  if ok = false then
    return []
  else do
    let dataLength : Int := toSigned (bytesToInt dataLengthBytes)
    let (ok, data) ← readAllData fuel (byteArray dataLength 0)
    if ok then
      return data
    else
      return []

/-- The function `readDataEncrypted()`; it returns its result and the globals. -/
def readDataEncrypted (javaIntMaxVal : Int) (fuel : Nat) (sess : Session) :
    Proc (List Byte × Session) := do
  let data ← readDataUnencrypted fuel
  if sess.socketIsBluetooth then
    return (data, sess)
  else do
    let sess := nextIV javaIntMaxVal sess
    let iv ← EncryptUtils.makeHash16 (numberToUtf8 sess.sessionIV)
    if (data.length : Int) % 16 = 0 then do
      let data ← EncryptUtils.decryptBytes data sess.sessionPasswordHash iv
      return (data, sess)
    else
      return ([], sess)

/-! ## Running a process -/

/-- One peer's view of the channel and of its surroundings: what each call does to the state `σ`
of the world and what it returns. -/
structure Device (σ : Type) where
  write : List Byte → Int → σ → Int × σ
  read : Int → σ → Option (List Byte) × σ
  bytesAvailable : σ → Int
  bytesToWrite : σ → Int
  isOpen : σ → Bool
  close : σ → σ
  processEvents : σ → σ
  sleepMs : Int → σ → σ

/-- The functions of `EncryptUtils`, which are not part of this file of the repository. -/
structure Crypto where
  makeHash16 : List Byte → List Byte
  encryptBytes : List Byte → List Byte → List Byte → List Byte
  decryptBytes : List Byte → List Byte → List Byte → List Byte

/-- A call that was made, with what it returned. -/
inductive Event where
  | write (buf : List Byte) (len : Int) (res : Int)
  | read (maxLen : Int) (res : Option (List Byte))
  | bytesAvailable (res : Int)
  | bytesToWrite (res : Int)
  | isOpen (res : Bool)
  | close
  | processEvents
  | sleepMs (ms : Int)
  | makeHash16 (seed res : List Byte)
  | encryptBytes (data key iv res : List Byte)
  | decryptBytes (data key iv res : List Byte)
  | note (n : Note)
deriving DecidableEq, Repr

/-- What a run gives: the value (`none` when a loop ran out of fuel), the state of the world at
the end, and the calls made, in order. -/
structure Outcome (σ α : Type) where
  result : Option α
  state : σ
  trace : List Event

/-- The outcome `o` of the rest of the code, after the call `e`. -/
def Outcome.after {σ α : Type} (e : Event) (o : Outcome σ α) : Outcome σ α :=
  { o with trace := e :: o.trace }

/-- Run a process against a device, from the state `s`. -/
def Proc.run {σ α : Type} (dev : Device σ) (cr : Crypto) : Proc α → σ → Outcome σ α
  | .ret a, s => ⟨some a, s, []⟩
  | .outOfFuel, s => ⟨none, s, []⟩
  | .write buf len k, s =>
    ((k (dev.write buf len s).1).run dev cr (dev.write buf len s).2).after
      (.write buf len (dev.write buf len s).1)
  | .read maxLen k, s =>
    ((k (dev.read maxLen s).1).run dev cr (dev.read maxLen s).2).after
      (.read maxLen (dev.read maxLen s).1)
  | .bytesAvailable k, s =>
    ((k (dev.bytesAvailable s)).run dev cr s).after (.bytesAvailable (dev.bytesAvailable s))
  | .bytesToWrite k, s =>
    ((k (dev.bytesToWrite s)).run dev cr s).after (.bytesToWrite (dev.bytesToWrite s))
  | .isOpen k, s => ((k (dev.isOpen s)).run dev cr s).after (.isOpen (dev.isOpen s))
  | .close k, s => (k.run dev cr (dev.close s)).after .close
  | .processEvents k, s => (k.run dev cr (dev.processEvents s)).after .processEvents
  | .sleepMs ms k, s => (k.run dev cr (dev.sleepMs ms s)).after (.sleepMs ms)
  | .makeHash16 seed k, s =>
    ((k (cr.makeHash16 seed)).run dev cr s).after (.makeHash16 seed (cr.makeHash16 seed))
  | .encryptBytes data key iv k, s =>
    ((k (cr.encryptBytes data key iv)).run dev cr s).after
      (.encryptBytes data key iv (cr.encryptBytes data key iv))
  | .decryptBytes data key iv k, s =>
    ((k (cr.decryptBytes data key iv)).run dev cr s).after
      (.decryptBytes data key iv (cr.decryptBytes data key iv))
  | .note n k, s => (k.run dev cr s).after (.note n)

/-! ## A loopback channel between two peers -/

/-- The two directions of a connection and the two ends' open flags. `toA` holds the bytes
written by peer B that peer A has not read yet, in order; `toB` likewise. `sentA` and `sentB`
hold everything each peer has written so far. -/
structure Loopback where
  toA : List Byte
  toB : List Byte
  openA : Bool
  openB : Bool
  sentA : List Byte
  sentB : List Byte
deriving DecidableEq, Repr

/-- A connection with nothing in flight. -/
def Loopback.idle : Loopback := ⟨[], [], true, true, [], []⟩

/-- Peer A's end of the loopback channel: every write is accepted in full and is at once readable
at the other end, nothing stays queued for writing, a read gives the bytes that are there, up to
the number asked for. A closed end accepts and gives nothing. -/
def endA : Device Loopback where
  write buf len s :=
    if s.openA ∧ 0 ≤ len then
      (len, { s with toB := s.toB ++ buf.take len.toNat, sentA := s.sentA ++ buf.take len.toNat })
    else (-1, s)
  read maxLen s :=
    if s.openA ∧ 0 ≤ maxLen then
      (some (s.toA.take maxLen.toNat), { s with toA := s.toA.drop maxLen.toNat })
    else (none, s)
  bytesAvailable s := if s.openA then s.toA.length else 0
  bytesToWrite _ := 0
  isOpen s := s.openA
  close s := { s with openA := false }
  processEvents s := s
  sleepMs _ s := s

/-- Peer B's end of the loopback channel, the mirror image of `endA`. -/
def endB : Device Loopback where
  write buf len s :=
    if s.openB ∧ 0 ≤ len then
      (len, { s with toA := s.toA ++ buf.take len.toNat, sentB := s.sentB ++ buf.take len.toNat })
    else (-1, s)
  read maxLen s :=
    if s.openB ∧ 0 ≤ maxLen then
      (some (s.toB.take maxLen.toNat), { s with toB := s.toB.drop maxLen.toNat })
    else (none, s)
  bytesAvailable s := if s.openB then s.toB.length else 0
  bytesToWrite _ := 0
  isOpen s := s.openB
  close s := { s with openB := false }
  processEvents s := s
  sleepMs _ s := s

/-- A peer between two turns: finished with a value (`none`: out of fuel), or asleep in
`platformIndependentSleepMs` with the rest of its code. -/
inductive Paused (α : Type) where
  | done (r : Option α)
  | asleep (k : Proc α)

/-- Run a process until it finishes or goes to sleep. -/
def Proc.runToSleep {σ α : Type} (dev : Device σ) (cr : Crypto) : Proc α → σ → Paused α × σ
  | .ret a, s => (.done (some a), s)
  | .outOfFuel, s => (.done none, s)
  | .write buf len k, s => (k (dev.write buf len s).1).runToSleep dev cr (dev.write buf len s).2
  | .read maxLen k, s => (k (dev.read maxLen s).1).runToSleep dev cr (dev.read maxLen s).2
  | .bytesAvailable k, s => (k (dev.bytesAvailable s)).runToSleep dev cr s
  | .bytesToWrite k, s => (k (dev.bytesToWrite s)).runToSleep dev cr s
  | .isOpen k, s => (k (dev.isOpen s)).runToSleep dev cr s
  | .close k, s => k.runToSleep dev cr (dev.close s)
  | .processEvents k, s => k.runToSleep dev cr (dev.processEvents s)
  | .sleepMs ms k, s => (.asleep k, dev.sleepMs ms s)
  | .makeHash16 seed k, s => (k (cr.makeHash16 seed)).runToSleep dev cr s
  | .encryptBytes data key iv k, s => (k (cr.encryptBytes data key iv)).runToSleep dev cr s
  | .decryptBytes data key iv k, s => (k (cr.decryptBytes data key iv)).runToSleep dev cr s
  | .note _ k, s => k.runToSleep dev cr s

/-- One turn of a peer: a sleeping peer wakes up and runs to its next sleep. -/
def Paused.turn {σ α : Type} (dev : Device σ) (cr : Crypto) : Paused α → σ → Paused α × σ
  | .done r, s => (.done r, s)
  | .asleep k, s => k.runToSleep dev cr s

/-- Two peers on one connection, in lockstep: in every round of 10 ms peer A runs until it
sleeps or finishes, then peer B does. `rounds` is the number of rounds simulated. -/
def runPair {σ α β : Type} (devA devB : Device σ) (cr : Crypto) :
    Nat → Paused α → Paused β → σ → Paused α × Paused β × σ
  | 0, a, b, s => (a, b, s)
  | rounds + 1, a, b, s =>
    runPair devA devB cr rounds (a.turn devA cr s).1 ((b.turn devB cr (a.turn devA cr s).2).1)
      (b.turn devB cr (a.turn devA cr s).2).2

/-- The values of the two peers when both have finished within `rounds` rounds. -/
def loopback {α β : Type} (cr : Crypto) (rounds : Nat) (a : Proc α) (b : Proc β) :
    Option (Option α × Option β) :=
  match runPair endA endB cr rounds (.asleep a) (.asleep b) Loopback.idle with
  | (.done ra, .done rb, _) => some (ra, rb)
  | _ => none

/-! ## Concrete data for examples -/

/-- The bytes `1, 2, ..., n` (modulo 256). -/
def payload (n : Nat) : List Byte := (List.range n).map fun i => lowByte (i + 1)

/-- The text `hello` in UTF-8. -/
def hello : List Byte := [104, 101, 108, 108, 111]

/-- A stand-in for `EncryptUtils`: the hash is the first 16 bytes of the seed, padded with
zeros; encryption adds the first byte of the key and of the IV to every byte, decryption
subtracts them. -/
def shiftCrypto : Crypto where
  makeHash16 seed := (seed ++ List.replicate 16 0).take 16
  encryptBytes data key iv := data.map fun b => b + (key.headD 0 + iv.headD 0)
  decryptBytes data key iv := data.map fun b => b - (key.headD 0 + iv.headD 0)

/-- The session of the example: not link-encrypted, IV counter 0, password hash sixteen zero
bytes. -/
def exampleSession : Session := ⟨false, 0, List.replicate 16 0⟩

/-- The value 2147483647 of `JAVA_INT_MAX_VAL` used in examples. -/
def exampleIntMax : Int := 2147483647

/-- The number of calls `socket->read` in a trace. -/
def readCalls (tr : List Event) : Nat :=
  (tr.filter fun e => match e with
    | .read _ _ => true
    | _ => false).length

/-- The number of calls `socket->write` in a trace. -/
def writeCalls (tr : List Event) : Nat :=
  (tr.filter fun e => match e with
    | .write _ _ _ => true
    | _ => false).length

/-- Whether an event is a call into `EncryptUtils`. -/
def Event.isCrypto : Event → Bool
  | .makeHash16 _ _ => true
  | .encryptBytes _ _ _ _ => true
  | .decryptBytes _ _ _ _ => true
  | _ => false

/-- The outcome of running one piece of code with outcome `o` and then the code whose run from
the value `a` and the state `t` has the outcome `g a t`. -/
def Outcome.seq {σ α β : Type} (o : Outcome σ α) (g : α → σ → Outcome σ β) : Outcome σ β :=
  match o.result with
  | none => ⟨none, o.state, o.trace⟩
  | some a => ⟨(g a o.state).result, (g a o.state).state, o.trace ++ (g a o.state).trace⟩

/-- Whether an event can come from `waitForBytesWritten`. -/
def Event.isFlushPoll : Event → Bool
  | .processEvents => true
  | .bytesToWrite _ => true
  | .isOpen _ => true
  | .sleepMs _ => true
  | .note (.waitForBytesWritten _ _) => true
  | _ => false

/-- Whether an event is one of the calls that `waitForReadyRead` or `bytesAvailable` make. -/
def Event.isReadyPoll : Event → Bool
  | .processEvents => true
  | .bytesAvailable _ => true
  | .isOpen _ => true
  | .sleepMs _ => true
  | _ => false

/-- Whether an event can come from the `do ... while` loop of `readAllData`. -/
def Event.isChunkEvent : Event → Bool
  | .read _ _ => true
  | .write _ _ _ => true
  | .close => true
  | e => e.isFlushPoll

/-- Whether an event is a call `socket->read`. -/
def Event.isRead : Event → Bool
  | .read _ _ => true
  | _ => false

/-- Every call the process can make, whatever the calls return, is an event that satisfies
`P`. -/
def Proc.Only {α : Type} (P : Event → Prop) : Proc α → Prop
  | .ret _ => True
  | .outOfFuel => True
  | .write buf len k => ∀ r, P (.write buf len r) ∧ (k r).Only P
  | .read maxLen k => ∀ r, P (.read maxLen r) ∧ (k r).Only P
  | .bytesAvailable k => ∀ r, P (.bytesAvailable r) ∧ (k r).Only P
  | .bytesToWrite k => ∀ r, P (.bytesToWrite r) ∧ (k r).Only P
  | .isOpen k => ∀ r, P (.isOpen r) ∧ (k r).Only P
  | .close k => P .close ∧ k.Only P
  | .processEvents k => P .processEvents ∧ k.Only P
  | .sleepMs ms k => P (.sleepMs ms) ∧ k.Only P
  | .makeHash16 seed k => ∀ r, P (.makeHash16 seed r) ∧ (k r).Only P
  | .encryptBytes data key iv k => ∀ r, P (.encryptBytes data key iv r) ∧ (k r).Only P
  | .decryptBytes data key iv k => ∀ r, P (.decryptBytes data key iv r) ∧ (k r).Only P
  | .note n k => P (.note n) ∧ k.Only P

/-- Whether an event can come from `waitForReadyRead` or `bytesAvailable`. -/
def Event.isReadyEvent : Event → Bool
  | .note (.waitForReadyRead _ _) => true
  | e => e.isReadyPoll

/-- The example session on a link-encrypted channel. -/
def bluetoothSession : Session := setGlobalSocket exampleSession true

/-- A connection on which the bytes `bytes` are waiting to be read by peer A and the other peer
sends nothing more. -/
def inbox (bytes : List Byte) : Loopback := { Loopback.idle with toA := bytes }

/-- The outcome `o` of the rest of the code, after the calls `pre`. -/
def Outcome.prefixed {σ α : Type} (pre : List Event) (o : Outcome σ α) : Outcome σ α :=
  { o with trace := pre ++ o.trace }

/-- The channel accepts at most the number of bytes it is offered, and these are the first
bytes of the buffer: `write(buf, k)` with `k >= 0` returns a byte count of at most `k`, or a
negative error code, which fits an `int` (for a `QIODevice` the code -1). -/
def Device.WritesBounded {σ : Type} (dev : Device σ) : Prop :=
  ∀ buf len s, 0 ≤ len → -2 ^ 31 ≤ (dev.write buf len s).1 ∧ (dev.write buf len s).1 ≤ len

/-- The channel gives at most the number of bytes asked for: `read(buf, k)` returns at most
`k`. -/
def Device.ReadsBounded {σ : Type} (dev : Device σ) : Prop :=
  ∀ maxLen s bytes, (dev.read maxLen s).1 = some bytes → (bytes.length : Int) ≤ maxLen

/-- The bytes that the channel accepted in the calls of `socket->write` of a trace, in call
order: of each call, the first `res` bytes offered. -/
def acceptedBytes : List Event → List Byte
  | [] => []
  | .write buf _ res :: tr => buf.take res.toNat ++ acceptedBytes tr
  | _ :: tr => acceptedBytes tr

/-- The bytes that the calls of `socket->read` of a trace took from the channel, in call
order. -/
def receivedBytes : List Event → List Byte
  | [] => []
  | .read _ res :: tr => res.getD [] ++ receivedBytes tr
  | _ :: tr => receivedBytes tr

/-- The chunk cursor of a sender, followed along a trace. It starts from `moved` bytes sent in
all and `cursor` bytes sent since the last keepalive. At every write request the cursor is in
`0 .. 99`, bytes remain (`0 <= moved < size`), and the request asks for
`min (size - moved) (100 - cursor)` bytes, a number between 1 and 100; the bytes accepted are
added to both counters. A keepalive read comes exactly at cursor 100 and puts the cursor back
to 0. At the end `0 <= moved <= size`. -/
def writeMonitor (size : Int) : Int → Int → List Event → Bool
  | moved, _, [] => decide (0 ≤ moved ∧ moved ≤ size)
  | moved, cursor, .write _ len res :: tr =>
    decide (0 ≤ cursor ∧ cursor < 100 ∧ 0 ≤ moved ∧ moved < size ∧
      len = min (size - moved) (100 - cursor) ∧ 1 ≤ len ∧ len ≤ 100) &&
    writeMonitor size (moved + max res 0) (cursor + max res 0) tr
  | moved, cursor, .read _ _ :: tr => decide (cursor = 100) && writeMonitor size moved 0 tr
  | moved, cursor, _ :: tr => writeMonitor size moved cursor tr

/-- The chunk cursor of a receiver, followed along a trace, as in `writeMonitor` with the roles
of read and write exchanged: every read request asks for `min (size - moved) (100 - cursor)`
bytes, between 1 and 100, with the cursor in `0 .. 99` and `0 <= moved < size`; the keepalive
write, one byte of value 0, comes exactly at cursor 100 and puts the cursor back to 0. -/
def readMonitor (size : Int) : Int → Int → List Event → Bool
  | moved, _, [] => decide (0 ≤ moved ∧ moved ≤ size)
  | moved, cursor, .read maxLen res :: tr =>
    decide (0 ≤ cursor ∧ cursor < 100 ∧ 0 ≤ moved ∧ moved < size ∧
      maxLen = min (size - moved) (100 - cursor) ∧ 1 ≤ maxLen ∧ maxLen ≤ 100) &&
    readMonitor size (moved + (res.getD []).length) (cursor + (res.getD []).length) tr
  | moved, cursor, .write buf len _ :: tr =>
    decide (cursor = 100 ∧ buf = [0] ∧ len = 1) && readMonitor size moved 0 tr
  | moved, cursor, _ :: tr => readMonitor size moved cursor tr

/-- Whether an event is a call of `EncryptUtils::decryptBytes`. -/
def Event.isDecrypt : Event → Bool
  | .decryptBytes _ _ _ _ => true
  | _ => false

/-- One peer sending the payloads of a list, one call of `writeDataEncrypted` each, whatever
the calls return; the value is the session at the end. -/
def sendAll (javaIntMaxVal : Int) (fill : Nat → Byte) (fuel : Nat) :
    Session → List (List Byte) → Proc Session
  | sess, [] => pure sess
  | sess, data :: rest => do
    let (_, sess) ← writeDataEncrypted javaIntMaxVal fill fuel sess data
    sendAll javaIntMaxVal fill fuel sess rest

/-- One peer receiving `k` times, one call of `readDataEncrypted` each, whatever the calls
return; the value is the session at the end. -/
def recvAll (javaIntMaxVal : Int) (fuel : Nat) : Session → Nat → Proc Session
  | sess, 0 => pure sess
  | sess, k + 1 => do
    let (_, sess) ← readDataEncrypted javaIntMaxVal fuel sess
    recvAll javaIntMaxVal fuel sess k


/-! ## The length header -/

theorem lowByte_val (x : Nat) : (lowByte x).val = x % 256 := by
  show x &&& 0xFF = x % 256
  exact Nat.and_pow_two_sub_one_eq_mod x 8

theorem or_shift_eq_add (b0 b1 b2 b3 : Nat) (h0 : b0 < 256) (h1 : b1 < 256) (h2 : b2 < 256) :
    (b0 <<< 0) ||| (b1 <<< 8) ||| (b2 <<< 16) ||| (b3 <<< 24)
      = b0 + 256 * b1 + 65536 * b2 + 16777216 * b3 := by
  have e1 : b0 ||| b1 <<< 8 = b0 + 256 * b1 := by
    rw [Nat.or_comm, Nat.shiftLeft_eq, Nat.mul_comm b1]
    rw [← Nat.mul_add_lt_is_or (i := 8) (by simpa using h0) b1]
    norm_num; omega
  have e2 : (b0 + 256 * b1) ||| b2 <<< 16 = b0 + 256 * b1 + 65536 * b2 := by
    rw [Nat.or_comm, Nat.shiftLeft_eq, Nat.mul_comm b2]
    rw [← Nat.mul_add_lt_is_or (i := 16) (by norm_num; omega) b2]
    norm_num; omega
  have e3 : (b0 + 256 * b1 + 65536 * b2) ||| b3 <<< 24
      = b0 + 256 * b1 + 65536 * b2 + 16777216 * b3 := by
    rw [Nat.or_comm, Nat.shiftLeft_eq, Nat.mul_comm b3]
    rw [← Nat.mul_add_lt_is_or (i := 24) (by norm_num; omega) b3]
    norm_num; omega
  rw [Nat.shiftLeft_zero, e1, e2, e3]

theorem intToBytes_eq (n : Nat) :
    intToBytes n = [lowByte n, lowByte (n >>> 8), lowByte (n >>> 16), lowByte (n >>> 24)] := by
  simp [intToBytes, List.range_succ]

theorem bytesToInt_intToBytes (n : Nat) : bytesToInt (intToBytes n) = n % 2 ^ 32 := by
  rw [intToBytes_eq]
  simp only [bytesToInt]
  rw [or_shift_eq_add _ _ _ _ (lowByte n).isLt (lowByte _).isLt (lowByte _).isLt]
  simp only [lowByte_val, Nat.shiftRight_eq_div_pow]
  omega

theorem toUnsigned_natCast (n : Nat) : toUnsigned (n : Int) = n % 2 ^ 32 := by
  unfold toUnsigned
  omega

/-- C4: `intToBytes` and `bytesToInt` are a serialize/deserialize pair: for every unsigned 32-bit
`n`, `intToBytes n` has exactly 4 bytes and `bytesToInt` decodes them back to `n`. -/
theorem intToBytes_bytesToInt_roundtrip (n : Nat) (hn : n < 2 ^ 32) :
    (intToBytes n).length = 4 ∧ bytesToInt (intToBytes n) = n := by
  refine ⟨by simp [intToBytes], ?_⟩
  rw [bytesToInt_intToBytes]
  exact Nat.mod_eq_of_lt hn

theorem intToBytes_bytesToInt_roundtrip_witness :
    (305419896 : Nat) < 2 ^ 32 ∧
      (intToBytes 305419896).length = 4 ∧ bytesToInt (intToBytes 305419896) = 305419896 :=
  ⟨by decide, intToBytes_bytesToInt_roundtrip 305419896 (by decide)⟩

/-- C3: for a payload of `N < 2^32` bytes, what `writeDataUnencrypted` hands to `writeAllData` is
`N + 4` bytes long, its first 4 bytes decode with `bytesToInt` to exactly `N`, and the `N` bytes
after them are the payload unchanged. -/
theorem writeDataUnencrypted_frame (data : List Byte) (hN : data.length < 2 ^ 32) :
    (∀ fuel, writeDataUnencrypted fuel data = writeAllData fuel (frame data)) ∧
      (frame data).length = data.length + 4 ∧
      bytesToInt ((frame data).take 4) = data.length ∧
      (frame data).drop 4 = data := by
  have hlen : (intToBytes (toUnsigned data.length)).length = 4 := by simp [intToBytes]
  refine ⟨fun _ => rfl, ?_, ?_, ?_⟩
  · simp [frame, hlen]; omega
  · rw [frame, List.take_left' hlen, bytesToInt_intToBytes, toUnsigned_natCast]
    rw [Nat.mod_eq_of_lt hN, Nat.mod_eq_of_lt hN]
  · rw [frame, List.drop_left' hlen]

theorem writeDataUnencrypted_frame_witness :
    (payload 100).length < 2 ^ 32 ∧
      (∀ fuel, writeDataUnencrypted fuel (payload 100) = writeAllData fuel (frame (payload 100))) ∧
      (frame (payload 100)).length = (payload 100).length + 4 ∧
      bytesToInt ((frame (payload 100)).take 4) = (payload 100).length ∧
      (frame (payload 100)).drop 4 = payload 100 :=
  ⟨by decide, writeDataUnencrypted_frame (payload 100) (by decide)⟩

/-! ## Padding -/

theorem resize_length (data : List Byte) (size : Nat) (fill : Nat → Byte) :
    (resize data size fill).length = size := by
  simp [resize]

theorem resize_take (data : List Byte) (size : Nat) (fill : Nat → Byte)
    (h : data.length ≤ size) : (resize data size fill).take data.length = data := by
  apply List.ext_getElem
  · simp [resize, h]
  · intro i h1 h2
    simp only [resize, List.length_take, List.length_map, List.length_range] at h1
    simp [resize, List.getElem_take, h2]

/-- The padding `16 - (n mod 16)` lies between 1 and 16, it is 16 when `n` is a multiple of 16,
the padded length `n + padding` is the smallest multiple of 16 that is at least `n + 1`, and
the padded buffer is that long and starts with the payload. -/
theorem padding_bounds (data : List Byte) (fill : Nat → Byte) :
    1 ≤ padding data.length ∧ padding data.length ≤ 16 ∧
      ((data.length : Int) % 16 = 0 → padding data.length = 16) ∧
      (16 : Int) ∣ data.length + padding data.length ∧
      (data.length : Int) + 1 ≤ data.length + padding data.length ∧
      (∀ m : Int, (16 : Int) ∣ m → (data.length : Int) + 1 ≤ m →
        data.length + padding data.length ≤ m) ∧
      ((padded data fill).length : Int) = data.length + padding data.length ∧
      (padded data fill).take data.length = data := by
  unfold padding
  refine ⟨by omega, by omega, by omega, by omega, by omega, ?_, ?_, ?_⟩
  · intro m hm h
    omega
  · rw [padded, resize_length]
    unfold padding
    omega
  · apply resize_take
    unfold padding
    omega

/-! ## Runs of sequenced code -/

variable {σ α β : Type}

theorem bind_eq (p : Proc α) (f : α → Proc β) : (p >>= f) = p.bind f := rfl

theorem pure_eq (a : α) : (pure a : Proc α) = Proc.ret a := rfl

theorem run_bind (dev : Device σ) (cr : Crypto) (p : Proc α) (f : α → Proc β) (s : σ) :
    (p.bind f).run dev cr s = (p.run dev cr s).seq fun a t => (f a).run dev cr t := by
  induction p generalizing s with
  | ret a => simp [Proc.bind, Proc.run, Outcome.seq]
  | outOfFuel => simp [Proc.bind, Proc.run, Outcome.seq]
  | write buf len k ih => 
    simp only [Proc.bind, Proc.run, ih, Outcome.seq, Outcome.after]
    split <;> simp_all
  | read maxLen k ih => 
    simp only [Proc.bind, Proc.run, ih, Outcome.seq, Outcome.after]
    split <;> simp_all
  | bytesAvailable k ih => 
    simp only [Proc.bind, Proc.run, ih, Outcome.seq, Outcome.after]
    split <;> simp_all
  | bytesToWrite k ih => 
    simp only [Proc.bind, Proc.run, ih, Outcome.seq, Outcome.after]
    split <;> simp_all
  | isOpen k ih => 
    simp only [Proc.bind, Proc.run, ih, Outcome.seq, Outcome.after]
    split <;> simp_all
  | close k ih => 
    simp only [Proc.bind, Proc.run, ih, Outcome.seq, Outcome.after]
    split <;> simp_all
  | processEvents k ih => 
    simp only [Proc.bind, Proc.run, ih, Outcome.seq, Outcome.after]
    split <;> simp_all
  | sleepMs ms k ih => 
    simp only [Proc.bind, Proc.run, ih, Outcome.seq, Outcome.after]
    split <;> simp_all
  | makeHash16 seed k ih => 
    simp only [Proc.bind, Proc.run, ih, Outcome.seq, Outcome.after]
    split <;> simp_all
  | encryptBytes data key iv k ih => 
    simp only [Proc.bind, Proc.run, ih, Outcome.seq, Outcome.after]
    split <;> simp_all
  | decryptBytes data key iv k ih => 
    simp only [Proc.bind, Proc.run, ih, Outcome.seq, Outcome.after]
    split <;> simp_all
  | note n k ih => 
    simp only [Proc.bind, Proc.run, ih, Outcome.seq, Outcome.after]
    split <;> simp_all


/-! ## The wait helpers -/

theorem waitForBytesWrittenLoop_run (dev : Device σ) (cr : Crypto) (msecs : Int) (fuel : Nat) :
    ∀ (elapsed : Int) (s : σ), msecs ≤ elapsed + 10 * fuel →
      ((waitForBytesWrittenLoop msecs fuel elapsed).run dev cr s).result = some () ∧
      ∀ e ∈ ((waitForBytesWrittenLoop msecs fuel elapsed).run dev cr s).trace,
        e.isFlushPoll = true := by
  induction fuel with
  | zero =>
    intro elapsed s h
    unfold waitForBytesWrittenLoop
    have : ¬ elapsed < msecs := by omega
    simp [this, pure_eq, Proc.run]
  | succ fuel ih =>
    intro elapsed s h
    unfold waitForBytesWrittenLoop
    by_cases h1 : elapsed < msecs
    · simp only [h1, if_true, bind_eq, pure_eq, socket.bytesToWrite, socket.isOpen, Proc.bind,
        Proc.run, Outcome.after]
      by_cases h2 : dev.bytesToWrite s = 0
      · simp [h2, Proc.run, Event.isFlushPoll]
      · cases h3 : dev.isOpen s
        · simp [h2, h3, Proc.run, Outcome.after, Event.isFlushPoll]
        · have := ih (elapsed + 10) (dev.processEvents (dev.sleepMs 10 s))
            (by push_cast at h; omega)
          simp [h2, h3, Proc.run, Outcome.after, Event.isFlushPoll, this.1]
          exact this.2
    · simp [h1, pure_eq, Proc.run]

theorem waitForReadyReadLoop_run (dev : Device σ) (cr : Crypto) (msecs : Int) (fuel : Nat) :
    ∀ (elapsed : Int) (s : σ), msecs ≤ elapsed + 10 * fuel →
      ((waitForReadyReadLoop msecs fuel elapsed).run dev cr s).result = some () ∧
      ∀ e ∈ ((waitForReadyReadLoop msecs fuel elapsed).run dev cr s).trace,
        e.isReadyPoll = true := by
  induction fuel with
  | zero =>
    intro elapsed s h
    unfold waitForReadyReadLoop
    have : ¬ elapsed < msecs := by omega
    simp [this, pure_eq, Proc.run]
  | succ fuel ih =>
    intro elapsed s h
    unfold waitForReadyReadLoop
    by_cases h1 : elapsed < msecs
    · simp only [h1, if_true, bind_eq, pure_eq, socket.bytesAvailable, socket.isOpen, Proc.bind,
        Proc.run, Outcome.after]
      by_cases h2 : dev.bytesAvailable s = 0
      · cases h3 : dev.isOpen s
        · simp [h2, h3, Proc.run, Outcome.after, Event.isReadyPoll]
        · have := ih (elapsed + 10) (dev.processEvents (dev.sleepMs 10 s))
            (by push_cast at h; omega)
          simp [h2, h3, Proc.run, Outcome.after, Event.isReadyPoll, this.1]
          exact this.2
      · simp [h2, Proc.run, Event.isReadyPoll]
    · simp [h1, pure_eq, Proc.run]

theorem pollBudget_enough (msecs : Int) : msecs ≤ 0 + 10 * (pollBudget msecs : Int) := by
  unfold pollBudget
  push_cast
  omega

/-- A run of `waitForBytesWritten` returns a value and makes only polling calls. -/
theorem waitForBytesWritten_run (dev : Device σ) (cr : Crypto) (msecs : Int) (s : σ) :
    (∃ b, ((waitForBytesWritten msecs).run dev cr s).result = some b) ∧
      ∀ e ∈ ((waitForBytesWritten msecs).run dev cr s).trace, e.isFlushPoll = true := by
  have h := waitForBytesWrittenLoop_run dev cr msecs (pollBudget msecs) 0
    (dev.processEvents s) (pollBudget_enough msecs)
  simp only [waitForBytesWritten, bind_eq, pure_eq, eventLoop.processEvents, Proc.bind, Proc.run,
    run_bind, Outcome.seq, Outcome.after, h.1, socket.bytesToWrite, observe]
  refine ⟨⟨_, rfl⟩, ?_⟩
  intro e he
  simp only [List.mem_cons, List.mem_append, List.mem_singleton, List.not_mem_nil,
    or_false] at he
  rcases he with rfl | he | rfl | rfl
  · rfl
  · exact h.2 e he
  · rfl
  · rfl

/-- A run of `waitForReadyRead` returns a value; it makes only polling calls and, as its last
step, notes the value it returns. -/
theorem waitForReadyRead_run (dev : Device σ) (cr : Crypto) (msecs : Int) (s : σ) :
    ∃ b polls, ((waitForReadyRead msecs).run dev cr s).result = some b ∧
      ((waitForReadyRead msecs).run dev cr s).trace
        = polls ++ [Event.note (.waitForReadyRead msecs b)] ∧
      ∀ e ∈ polls, e.isReadyPoll = true := by
  have h := waitForReadyReadLoop_run dev cr msecs (pollBudget msecs) 0
    (dev.processEvents s) (pollBudget_enough msecs)
  simp only [waitForReadyRead, bind_eq, pure_eq, eventLoop.processEvents, Proc.bind, Proc.run,
    run_bind, Outcome.seq, Outcome.after, h.1, socket.bytesAvailable, observe, bytesAvailable]
  refine ⟨_, Event.processEvents ::
    (((waitForReadyReadLoop msecs (pollBudget msecs) 0).run dev cr (dev.processEvents s)).trace
      ++ [Event.bytesAvailable (dev.bytesAvailable
        ((waitForReadyReadLoop msecs (pollBudget msecs) 0).run dev cr
          (dev.processEvents s)).state)]), rfl, by simp, ?_⟩
  intro e he
  simp only [List.mem_cons, List.mem_append, List.mem_singleton, List.not_mem_nil,
    or_false] at he
  rcases he with rfl | he | rfl
  · rfl
  · exact h.2 e he
  · rfl

/-! ## Runs of the single calls -/

@[simp] theorem run_pure (dev : Device σ) (cr : Crypto) (a : α) (s : σ) :
    (pure a : Proc α).run dev cr s = ⟨some a, s, []⟩ := rfl

@[simp] theorem run_ret (dev : Device σ) (cr : Crypto) (a : α) (s : σ) :
    (Proc.ret a).run dev cr s = ⟨some a, s, []⟩ := rfl

@[simp] theorem run_outOfFuel (dev : Device σ) (cr : Crypto) (s : σ) :
    (Proc.outOfFuel : Proc α).run dev cr s = ⟨none, s, []⟩ := rfl

@[simp] theorem run_bind_op (dev : Device σ) (cr : Crypto) (p : Proc α) (f : α → Proc β) (s : σ) :
    (p >>= f).run dev cr s = (p.run dev cr s).seq fun a t => (f a).run dev cr t :=
  run_bind dev cr p f s

@[simp] theorem run_write (dev : Device σ) (cr : Crypto) (buf : List Byte) (len : Int) (s : σ) :
    (socket.write buf len).run dev cr s
      = ⟨some (dev.write buf len s).1, (dev.write buf len s).2,
          [Event.write buf len (dev.write buf len s).1]⟩ := rfl

@[simp] theorem run_read (dev : Device σ) (cr : Crypto) (maxLen : Int) (s : σ) :
    (socket.read maxLen).run dev cr s
      = ⟨some (dev.read maxLen s).1, (dev.read maxLen s).2,
          [Event.read maxLen (dev.read maxLen s).1]⟩ := rfl

@[simp] theorem run_readArray (dev : Device σ) (cr : Crypto) (maxLen : Int) (s : σ) :
    (socket.readArray maxLen).run dev cr s
      = ⟨some ((dev.read maxLen s).1.getD []), (dev.read maxLen s).2,
          [Event.read maxLen (dev.read maxLen s).1]⟩ := rfl

@[simp] theorem run_bytesAvailable (dev : Device σ) (cr : Crypto) (s : σ) :
    (socket.bytesAvailable).run dev cr s
      = ⟨some (dev.bytesAvailable s), s, [Event.bytesAvailable (dev.bytesAvailable s)]⟩ := rfl

@[simp] theorem run_close (dev : Device σ) (cr : Crypto) (s : σ) :
    (socket.close).run dev cr s = ⟨some (), dev.close s, [Event.close]⟩ := rfl

@[simp] theorem run_makeHash16 (dev : Device σ) (cr : Crypto) (seed : List Byte) (s : σ) :
    (EncryptUtils.makeHash16 seed).run dev cr s
      = ⟨some (cr.makeHash16 seed), s, [Event.makeHash16 seed (cr.makeHash16 seed)]⟩ := rfl

@[simp] theorem run_encryptBytes (dev : Device σ) (cr : Crypto) (data key iv : List Byte)
    (s : σ) :
    (EncryptUtils.encryptBytes data key iv).run dev cr s
      = ⟨some (cr.encryptBytes data key iv), s,
          [Event.encryptBytes data key iv (cr.encryptBytes data key iv)]⟩ := rfl

@[simp] theorem run_decryptBytes (dev : Device σ) (cr : Crypto) (data key iv : List Byte)
    (s : σ) :
    (EncryptUtils.decryptBytes data key iv).run dev cr s
      = ⟨some (cr.decryptBytes data key iv), s,
          [Event.decryptBytes data key iv (cr.decryptBytes data key iv)]⟩ := rfl

theorem run_bytesAvailableHelper (dev : Device σ) (cr : Crypto) (s : σ) :
    bytesAvailable.run dev cr s
      = ⟨some (decide (dev.bytesAvailable s > 0)), s,
          [Event.bytesAvailable (dev.bytesAvailable s)]⟩ := rfl

theorem notAvailableNorReady_run (dev : Device σ) (cr : Crypto) (msecs : Int) (s : σ) :
    ∃ b, ((notAvailableNorReady msecs).run dev cr s).result = some b ∧
      ∀ e ∈ ((notAvailableNorReady msecs).run dev cr s).trace,
        e.isReadyPoll = true ∨ e = Event.note (.waitForReadyRead msecs (!b)) := by
  obtain ⟨b, polls, hb, htr, hpolls⟩ := waitForReadyRead_run dev cr msecs s
  simp only [notAvailableNorReady, run_bind_op, run_bytesAvailableHelper, Outcome.seq]
  by_cases h : dev.bytesAvailable s > 0
  · simp [h, Event.isReadyPoll]
  · simp only [h, decide_False, Bool.not_false, if_true, run_bind_op, Outcome.seq, hb, htr,
      run_pure]
    refine ⟨!b, rfl, ?_⟩
    intro e he
    simp only [List.mem_cons, List.mem_append, List.mem_singleton, List.not_mem_nil,
      or_false, List.append_nil] at he
    rcases he with rfl | he | rfl
    · left; rfl
    · left; exact hpolls e he
    · right; simp

theorem getLast?_append_of_some {ε : Type} (pre tr : List ε) (x : ε)
    (h : tr.getLast? = some x) : (pre ++ tr).getLast? = some x := by
  have hne : tr ≠ [] := by
    intro h0
    subst h0
    simp at h
  rw [List.getLast?_append_of_ne_nil _ hne, h]

theorem ping_ok_iff (ping : List Byte) :
    (ping.length ≠ 1 ∨ ping.head? ≠ some (0 : Byte)) ↔ ping ≠ [(0 : Byte)] := by
  rcases ping with _ | ⟨b, _ | ⟨c, t⟩⟩ <;> simp

theorem writeAllDataEnd_run (dev : Device σ) (cr : Crypto) (data : List Byte) (w : Int) (s : σ) :
    (writeAllDataEnd data w).run dev cr s =
      if w ≠ data.length then ⟨some false, dev.close s, [Event.close]⟩ else ⟨some true, s, []⟩ := by
  by_cases h : w = data.length <;>
    simp [writeAllDataEnd, h, Outcome.seq]

theorem writeAllDataLoop_bad_ping (dev : Device σ) (cr : Crypto) (data : List Byte)
    (n : Int) (res : Option (List Byte)) (hbad : res.getD [] ≠ [(0 : Byte)]) (fuel : Nat) :
    ∀ (w c : Int) (s : σ),
      Event.read n res ∈ ((writeAllDataLoop data fuel w c).run dev cr s).trace →
      ((writeAllDataLoop data fuel w c).run dev cr s).result = some false ∧
      ((writeAllDataLoop data fuel w c).run dev cr s).trace.getLast? = some Event.close ∧
      ∃ s0, ((writeAllDataLoop data fuel w c).run dev cr s).state = dev.close s0 := by
  induction fuel with
  | zero =>
    intro w c s
    unfold writeAllDataLoop
    by_cases h : w < data.length
    · simp [h]
    · simp only [h, if_false, writeAllDataEnd_run]
      split <;> simp
  | succ fuel ih =>
    intro w c s
    unfold writeAllDataLoop
    by_cases h : w < data.length
    · simp only [h, if_true, run_bind_op, run_write, Outcome.seq]
      generalize dev.write _ _ s = wr
      by_cases h1 : narrowToInt wr.1 ≤ 0
      · simp only [h1, if_true, writeAllDataEnd_run]
        split <;> simp
      · obtain ⟨⟨b, hb⟩, hfl⟩ := waitForBytesWritten_run dev cr 1000 wr.2
        simp only [h1, if_false, run_bind_op, Outcome.seq, hb]
        cases b
        · simp only [Bool.not_false, if_true, run_pure, List.append_nil, List.mem_append,
            List.mem_singleton]
          intro hmem
          rcases hmem with hmem | hmem
          · cases hmem
          · have := hfl _ hmem
            simp [Event.isFlushPoll] at this
        · simp only [Bool.not_true, Bool.false_eq_true, if_false]
          by_cases h2 : c + narrowToInt wr.1 = IO_MAX_CHUNK
          · obtain ⟨b2, hb2, hnr⟩ := notAvailableNorReady_run dev cr 1000
              ((waitForBytesWritten 1000).run dev cr wr.2).state
            simp only [h2, if_true, run_bind_op, Outcome.seq, hb2]
            have hpre : ∀ e ∈ ((notAvailableNorReady 1000).run dev cr
                ((waitForBytesWritten 1000).run dev cr wr.2).state).trace,
                e ≠ Event.read n res := by
              intro e he heq
              subst heq
              rcases hnr _ he with h3 | h3
              · simp [Event.isReadyPoll] at h3
              · cases h3
            have hfl2 : ∀ e ∈ ((waitForBytesWritten 1000).run dev cr wr.2).trace,
                e ≠ Event.read n res := by
              intro e he heq
              subst heq
              have := hfl _ he
              simp [Event.isFlushPoll] at this
            cases b2
            · simp only [Bool.false_eq_true, if_false, run_bind_op, run_readArray, Outcome.seq]
              generalize dev.read 1 _ = rd
              by_cases h3 : rd.1.getD [] = [(0 : Byte)]
              · have h4 : ¬ ((rd.1.getD []).length ≠ 1 ∨ (rd.1.getD []).head? ≠ some (0 : Byte)) := by
                  rw [ping_ok_iff]; simpa using h3
                simp only [h4, if_false, List.mem_append, List.mem_singleton]
                intro hmem
                have hin : Event.read n res ∈
                    ((writeAllDataLoop data fuel (w + narrowToInt wr.1) 0).run dev cr rd.2).trace := by
                  rcases hmem with hmem | hmem | hmem | hmem | hmem
                  · cases hmem
                  · exact absurd rfl (hfl2 _ hmem)
                  · exact absurd rfl (hpre _ hmem)
                  · cases hmem
                    exact absurd h3 hbad
                  · exact hmem
                obtain ⟨r1, r2, r3⟩ := ih _ _ _ hin
                refine ⟨r1, ?_, r3⟩
                simp only [← List.append_assoc]
                exact getLast?_append_of_some _ _ _ r2
              · have h4 : ((rd.1.getD []).length ≠ 1 ∨ (rd.1.getD []).head? ≠ some (0 : Byte)) := by
                  rw [ping_ok_iff]; exact h3
                simp only [h4, if_true, run_bind_op, run_close, run_pure, Outcome.seq]
                intro _
                refine ⟨trivial, ?_, ⟨_, rfl⟩⟩
                simp only [← List.append_assoc, List.append_nil]
                exact getLast?_append_of_some _ [Event.close] _ rfl
            · simp only [if_true, run_pure, List.append_nil, List.mem_append, List.mem_singleton]
              intro hmem
              rcases hmem with hmem | hmem | hmem
              · cases hmem
              · exact absurd rfl (hfl2 _ hmem)
              · exact absurd rfl (hpre _ hmem)
          · simp only [h2, if_false, List.mem_append, List.mem_singleton]
            intro hmem
            have hin : Event.read n res ∈
                ((writeAllDataLoop data fuel (w + narrowToInt wr.1) (c + narrowToInt wr.1)).run dev cr
                  ((waitForBytesWritten 1000).run dev cr wr.2).state).trace := by
              rcases hmem with hmem | hmem | hmem
              · cases hmem
              · have := hfl _ hmem
                simp [Event.isFlushPoll] at this
              · exact hmem
            obtain ⟨r1, r2, r3⟩ := ih _ _ _ hin
            refine ⟨r1, ?_, r3⟩
            simp only [← List.append_assoc]
            exact getLast?_append_of_some _ _ _ r2
    · simp only [h, if_false, writeAllDataEnd_run]
      split <;> simp

/-! ## What a piece of code can call -/

theorem Proc.Only.bind {P : Event → Prop} {p : Proc α} {f : α → Proc β}
    (hp : p.Only P) (hf : ∀ a, (f a).Only P) : (p >>= f).Only P := by
  rw [bind_eq]
  induction p with
  | ret a => exact hf a
  | outOfFuel => trivial
  | write buf len k ih => exact fun r => ⟨(hp r).1, ih r (hp r).2⟩
  | read maxLen k ih => exact fun r => ⟨(hp r).1, ih r (hp r).2⟩
  | bytesAvailable k ih => exact fun r => ⟨(hp r).1, ih r (hp r).2⟩
  | bytesToWrite k ih => exact fun r => ⟨(hp r).1, ih r (hp r).2⟩
  | isOpen k ih => exact fun r => ⟨(hp r).1, ih r (hp r).2⟩
  | close k ih => exact ⟨hp.1, ih hp.2⟩
  | processEvents k ih => exact ⟨hp.1, ih hp.2⟩
  | sleepMs ms k ih => exact ⟨hp.1, ih hp.2⟩
  | makeHash16 seed k ih => exact fun r => ⟨(hp r).1, ih r (hp r).2⟩
  | encryptBytes data key iv k ih => exact fun r => ⟨(hp r).1, ih r (hp r).2⟩
  | decryptBytes data key iv k ih => exact fun r => ⟨(hp r).1, ih r (hp r).2⟩
  | note n k ih => exact ⟨hp.1, ih hp.2⟩

theorem Proc.Only.pure {P : Event → Prop} (a : α) : (Pure.pure a : Proc α).Only P := trivial

theorem Proc.Only.run {P : Event → Prop} {p : Proc α} (hp : p.Only P) (dev : Device σ)
    (cr : Crypto) : ∀ s, ∀ e ∈ (p.run dev cr s).trace, P e := by
  induction p with
  | ret a => intro s e he; simp [Proc.run] at he
  | outOfFuel => intro s e he; simp [Proc.run] at he
  | write buf len k ih =>
    intro s e he
    simp only [Proc.run, Outcome.after, List.mem_cons] at he
    rcases he with rfl | he
    · exact (hp _).1
    · exact ih _ (hp _).2 _ e he
  | read maxLen k ih =>
    intro s e he
    simp only [Proc.run, Outcome.after, List.mem_cons] at he
    rcases he with rfl | he
    · exact (hp _).1
    · exact ih _ (hp _).2 _ e he
  | bytesAvailable k ih =>
    intro s e he
    simp only [Proc.run, Outcome.after, List.mem_cons] at he
    rcases he with rfl | he
    · exact (hp _).1
    · exact ih _ (hp _).2 _ e he
  | bytesToWrite k ih =>
    intro s e he
    simp only [Proc.run, Outcome.after, List.mem_cons] at he
    rcases he with rfl | he
    · exact (hp _).1
    · exact ih _ (hp _).2 _ e he
  | isOpen k ih =>
    intro s e he
    simp only [Proc.run, Outcome.after, List.mem_cons] at he
    rcases he with rfl | he
    · exact (hp _).1
    · exact ih _ (hp _).2 _ e he
  | close k ih =>
    intro s e he
    simp only [Proc.run, Outcome.after, List.mem_cons] at he
    rcases he with rfl | he
    · exact hp.1
    · exact ih hp.2 _ e he
  | processEvents k ih =>
    intro s e he
    simp only [Proc.run, Outcome.after, List.mem_cons] at he
    rcases he with rfl | he
    · exact hp.1
    · exact ih hp.2 _ e he
  | sleepMs ms k ih =>
    intro s e he
    simp only [Proc.run, Outcome.after, List.mem_cons] at he
    rcases he with rfl | he
    · exact hp.1
    · exact ih hp.2 _ e he
  | makeHash16 seed k ih =>
    intro s e he
    simp only [Proc.run, Outcome.after, List.mem_cons] at he
    rcases he with rfl | he
    · exact (hp _).1
    · exact ih _ (hp _).2 _ e he
  | encryptBytes data key iv k ih =>
    intro s e he
    simp only [Proc.run, Outcome.after, List.mem_cons] at he
    rcases he with rfl | he
    · exact (hp _).1
    · exact ih _ (hp _).2 _ e he
  | decryptBytes data key iv k ih =>
    intro s e he
    simp only [Proc.run, Outcome.after, List.mem_cons] at he
    rcases he with rfl | he
    · exact (hp _).1
    · exact ih _ (hp _).2 _ e he
  | note n k ih =>
    intro s e he
    simp only [Proc.run, Outcome.after, List.mem_cons] at he
    rcases he with rfl | he
    · exact hp.1
    · exact ih hp.2 _ e he


theorem Proc.Only.mono {P Q : Event → Prop} (h : ∀ e, P e → Q e) {p : Proc α} (hp : p.Only P) :
    p.Only Q := by
  induction p with
  | ret a => trivial
  | outOfFuel => trivial
  | write buf len k ih => exact fun r => ⟨h _ (hp r).1, ih r (hp r).2⟩
  | read maxLen k ih => exact fun r => ⟨h _ (hp r).1, ih r (hp r).2⟩
  | bytesAvailable k ih => exact fun r => ⟨h _ (hp r).1, ih r (hp r).2⟩
  | bytesToWrite k ih => exact fun r => ⟨h _ (hp r).1, ih r (hp r).2⟩
  | isOpen k ih => exact fun r => ⟨h _ (hp r).1, ih r (hp r).2⟩
  | close k ih => exact ⟨h _ hp.1, ih hp.2⟩
  | processEvents k ih => exact ⟨h _ hp.1, ih hp.2⟩
  | sleepMs ms k ih => exact ⟨h _ hp.1, ih hp.2⟩
  | makeHash16 seed k ih => exact fun r => ⟨h _ (hp r).1, ih r (hp r).2⟩
  | encryptBytes data key iv k ih => exact fun r => ⟨h _ (hp r).1, ih r (hp r).2⟩
  | decryptBytes data key iv k ih => exact fun r => ⟨h _ (hp r).1, ih r (hp r).2⟩
  | note n k ih => exact ⟨h _ hp.1, ih hp.2⟩

theorem waitForBytesWrittenLoop_only (msecs : Int) (fuel : Nat) :
    ∀ elapsed, (waitForBytesWrittenLoop msecs fuel elapsed).Only fun e => e.isFlushPoll = true := by
  induction fuel with
  | zero =>
    intro elapsed
    unfold waitForBytesWrittenLoop
    dsimp only
    repeat' first
      | exact Proc.Only.pure _
      | apply Proc.Only.bind
      | intro _
      | split
      | (simp [Proc.Only, socket.bytesToWrite, socket.isOpen, socket.bytesAvailable,
          FakeInput.platformIndependentSleepMs, eventLoop.processEvents, Event.isFlushPoll])
  | succ fuel ih =>
    intro elapsed
    unfold waitForBytesWrittenLoop
    dsimp only
    repeat' first
      | exact ih _
      | exact Proc.Only.pure _
      | apply Proc.Only.bind
      | intro _
      | split
      | (simp [Proc.Only, socket.bytesToWrite, socket.isOpen, socket.bytesAvailable,
          FakeInput.platformIndependentSleepMs, eventLoop.processEvents, Event.isFlushPoll])

theorem waitForReadyReadLoop_only (msecs : Int) (fuel : Nat) :
    ∀ elapsed, (waitForReadyReadLoop msecs fuel elapsed).Only fun e => e.isReadyPoll = true := by
  induction fuel with
  | zero =>
    intro elapsed
    unfold waitForReadyReadLoop
    dsimp only
    repeat' first
      | exact Proc.Only.pure _
      | apply Proc.Only.bind
      | intro _
      | split
      | (simp [Proc.Only, socket.bytesToWrite, socket.isOpen, socket.bytesAvailable,
          FakeInput.platformIndependentSleepMs, eventLoop.processEvents, Event.isReadyPoll])
  | succ fuel ih =>
    intro elapsed
    unfold waitForReadyReadLoop
    dsimp only
    repeat' first
      | exact ih _
      | exact Proc.Only.pure _
      | apply Proc.Only.bind
      | intro _
      | split
      | (simp [Proc.Only, socket.bytesToWrite, socket.isOpen, socket.bytesAvailable,
          FakeInput.platformIndependentSleepMs, eventLoop.processEvents, Event.isReadyPoll])

theorem isReadyPoll_ready (e : Event) (h : e.isReadyPoll = true) : e.isReadyEvent = true := by
  cases e <;> simp_all [Event.isReadyEvent, Event.isReadyPoll]

theorem waitForBytesWritten_only (msecs : Int) :
    (waitForBytesWritten msecs).Only fun e => e.isFlushPoll = true := by
  unfold waitForBytesWritten
  repeat' first
    | exact waitForBytesWrittenLoop_only _ _ _
    | exact Proc.Only.pure _
    | apply Proc.Only.bind
    | intro _
    | (simp [Proc.Only, socket.bytesToWrite, eventLoop.processEvents, observe,
        Event.isFlushPoll])

theorem waitForReadyRead_only (msecs : Int) :
    (waitForReadyRead msecs).Only fun e => e.isReadyEvent = true := by
  unfold waitForReadyRead bytesAvailable
  repeat' first
    | exact (waitForReadyReadLoop_only _ _ _).mono isReadyPoll_ready
    | exact Proc.Only.pure _
    | apply Proc.Only.bind
    | intro _
    | (simp [Proc.Only, socket.bytesAvailable, eventLoop.processEvents, observe,
        Event.isReadyEvent, Event.isReadyPoll])

theorem notAvailableNorReady_only (msecs : Int) :
    (notAvailableNorReady msecs).Only fun e => e.isReadyEvent = true := by
  unfold notAvailableNorReady bytesAvailable
  repeat' first
    | exact waitForReadyRead_only _
    | exact Proc.Only.pure _
    | apply Proc.Only.bind
    | intro _
    | split
    | (simp [Proc.Only, socket.bytesAvailable, Event.isReadyEvent, Event.isReadyPoll])

theorem isFlushPoll_plain (e : Event) (h : e.isFlushPoll = true) : e.isCrypto = false := by
  cases e <;> simp_all [Event.isFlushPoll, Event.isCrypto]

theorem isReadyEvent_plain (e : Event) (h : e.isReadyEvent = true) : e.isCrypto = false := by
  cases e <;> simp_all [Event.isReadyEvent, Event.isReadyPoll, Event.isCrypto]

theorem isChunkEvent_plain (e : Event) (h : e.isChunkEvent = true) : e.isCrypto = false := by
  cases e <;> simp_all [Event.isChunkEvent, Event.isFlushPoll, Event.isCrypto]

theorem writeAllDataEnd_only (data : List Byte) (w : Int) :
    (writeAllDataEnd data w).Only fun e => e.isCrypto = false := by
  unfold writeAllDataEnd
  repeat' first
    | exact Proc.Only.pure _
    | apply Proc.Only.bind
    | intro _
    | split
    | (simp [Proc.Only, socket.close, Event.isCrypto])

theorem writeAllDataLoop_only (data : List Byte) (fuel : Nat) :
    ∀ w c, (writeAllDataLoop data fuel w c).Only fun e => e.isCrypto = false := by
  induction fuel with
  | zero =>
    intro w c
    unfold writeAllDataLoop
    dsimp only
    repeat' first
      | exact writeAllDataEnd_only _ _
      | exact Proc.Only.pure _
      | split
      | (simp [Proc.Only])
  | succ fuel ih =>
    intro w c
    unfold writeAllDataLoop
    dsimp only
    repeat' first
      | exact ih _ _
      | exact writeAllDataEnd_only _ _
      | exact (waitForBytesWritten_only _).mono isFlushPoll_plain
      | exact (notAvailableNorReady_only _).mono isReadyEvent_plain
      | exact Proc.Only.pure _
      | apply Proc.Only.bind
      | intro _
      | split
      | (simp [Proc.Only, socket.write, socket.readArray, socket.close, Event.isCrypto])

theorem readAllDataDoWhile_only (fuel : Nat) :
    ∀ v, (readAllDataDoWhile fuel v).Only fun e => e.isChunkEvent = true := by
  induction fuel with
  | zero =>
    intro v
    unfold readAllDataDoWhile
    trivial
  | succ fuel ih =>
    intro v
    unfold readAllDataDoWhile
    dsimp only
    repeat' first
      | exact ih _
      | exact (waitForBytesWritten_only _).mono
          (by intro e; cases e <;> simp [Event.isChunkEvent])
      | exact Proc.Only.pure _
      | apply Proc.Only.bind
      | intro _
      | split
      | (simp [Proc.Only, socket.write, socket.read, socket.close, Event.isChunkEvent])

theorem readAllDataLoop_only (inner fuel : Nat) :
    ∀ v, (readAllDataLoop inner fuel v).Only fun e => e.isCrypto = false := by
  induction fuel with
  | zero =>
    intro v
    unfold readAllDataLoop
    dsimp only
    repeat' first
      | exact Proc.Only.pure _
      | split
      | (simp [Proc.Only])
  | succ fuel ih =>
    intro v
    unfold readAllDataLoop
    dsimp only
    repeat' first
      | exact ih _
      | exact (readAllDataDoWhile_only _ _).mono isChunkEvent_plain
      | exact (waitForReadyRead_only _).mono isReadyEvent_plain
      | exact Proc.Only.pure _
      | apply Proc.Only.bind
      | intro _
      | split
      | (simp [Proc.Only, socket.close, Event.isCrypto])

theorem readAllData_only (fuel : Nat) (data : List Byte) :
    (readAllData fuel data).Only fun e => e.isCrypto = false := by
  unfold readAllData
  repeat' first
    | exact readAllDataLoop_only _ _ _
    | exact (notAvailableNorReady_only _).mono isReadyEvent_plain
    | exact Proc.Only.pure _
    | apply Proc.Only.bind
    | intro _
    | split

theorem readDataUnencrypted_only (fuel : Nat) :
    (readDataUnencrypted fuel).Only fun e => e.isCrypto = false := by
  unfold readDataUnencrypted
  repeat' first
    | exact readAllData_only _ _
    | exact Proc.Only.pure _
    | apply Proc.Only.bind
    | intro _
    | split

theorem writeDataUnencrypted_only (fuel : Nat) (data : List Byte) :
    (writeDataUnencrypted fuel data).Only fun e => e.isCrypto = false :=
  writeAllDataLoop_only _ _ _ _

/-! ## The keepalive reply -/

/-- C8: whenever the reply that `writeAllData` reads at a keepalive point (its only reads, made
each time 100 bytes went out since the last keepalive) is not exactly one byte of value 0, be it
another byte or no byte at all, `writeAllData` returns false and the channel is closed: the last
call made is `close()`, so on a device whose `close` closes, the channel is not open. -/
theorem writeAllData_bad_ping_closes (dev : Device σ) (cr : Crypto) (fuel : Nat)
    (data : List Byte) (s : σ) (n : Int) (res : Option (List Byte))
    (hread : Event.read n res ∈ ((writeAllData fuel data).run dev cr s).trace)
    (hbad : res.getD [] ≠ [(0 : Byte)]) :
    ((writeAllData fuel data).run dev cr s).result = some false ∧
      ((writeAllData fuel data).run dev cr s).trace.getLast? = some Event.close ∧
      (∃ s0, ((writeAllData fuel data).run dev cr s).state = dev.close s0) ∧
      ((∀ t, dev.isOpen (dev.close t) = false) →
        dev.isOpen ((writeAllData fuel data).run dev cr s).state = false) := by
  obtain ⟨h1, h2, s0, h3⟩ := writeAllDataLoop_bad_ping dev cr data n res hbad fuel 0 0 s hread
  refine ⟨h1, h2, ⟨s0, h3⟩, fun hclose => ?_⟩
  unfold writeAllData
  rw [h3]
  exact hclose s0

set_option maxRecDepth 100000 in
theorem writeAllData_bad_ping_closes_witness :
    (Event.read 1 (some [1]) ∈
        ((writeAllData 100 (payload 100)).run endA shiftCrypto
          { Loopback.idle with toA := [1] }).trace ∧
      (some [(1 : Byte)]).getD [] ≠ [(0 : Byte)]) ∧
    ((writeAllData 100 (payload 100)).run endA shiftCrypto
        { Loopback.idle with toA := [1] }).result = some false ∧
      ((writeAllData 100 (payload 100)).run endA shiftCrypto
        { Loopback.idle with toA := [1] }).trace.getLast? = some Event.close ∧
      (∃ s0, ((writeAllData 100 (payload 100)).run endA shiftCrypto
        { Loopback.idle with toA := [1] }).state = endA.close s0) ∧
      ((∀ t, endA.isOpen (endA.close t) = false) →
        endA.isOpen ((writeAllData 100 (payload 100)).run endA shiftCrypto
          { Loopback.idle with toA := [1] }).state = false) :=
  ⟨⟨by decide, by decide⟩,
    writeAllData_bad_ping_closes endA shiftCrypto 100 (payload 100)
      { Loopback.idle with toA := [1] } 1 (some [1]) (by decide) (by decide)⟩

/-! ## The bypass on a link-encrypted channel -/

/-- C7: with `socketIsBluetooth` set, from every channel state, `writeDataEncrypted` returns the
same value and has the same effect on the channel (same calls, same final state) as
`writeDataUnencrypted`, `readDataEncrypted` returns the same bytes as `readDataUnencrypted` with
the same calls and final state, no call goes to `EncryptUtils` (cipher or hash), and the globals
(IV counter, password hash) come back unchanged. -/
theorem bluetooth_bypass (dev : Device σ) (cr : Crypto) (javaIntMaxVal : Int)
    (fill : Nat → Byte) (fuel : Nat) (sess : Session) (data : List Byte) (s : σ)
    (hbt : sess.socketIsBluetooth = true) :
    (((writeDataEncrypted javaIntMaxVal fill fuel sess data).run dev cr s).result
        = ((writeDataUnencrypted fuel data).run dev cr s).result.map fun b => (b, sess)) ∧
      ((writeDataEncrypted javaIntMaxVal fill fuel sess data).run dev cr s).state
        = ((writeDataUnencrypted fuel data).run dev cr s).state ∧
      ((writeDataEncrypted javaIntMaxVal fill fuel sess data).run dev cr s).trace
        = ((writeDataUnencrypted fuel data).run dev cr s).trace ∧
      (((readDataEncrypted javaIntMaxVal fuel sess).run dev cr s).result
        = ((readDataUnencrypted fuel).run dev cr s).result.map fun d => (d, sess)) ∧
      ((readDataEncrypted javaIntMaxVal fuel sess).run dev cr s).state
        = ((readDataUnencrypted fuel).run dev cr s).state ∧
      ((readDataEncrypted javaIntMaxVal fuel sess).run dev cr s).trace
        = ((readDataUnencrypted fuel).run dev cr s).trace ∧
      (∀ e ∈ ((writeDataEncrypted javaIntMaxVal fill fuel sess data).run dev cr s).trace,
        e.isCrypto = false) ∧
      (∀ e ∈ ((readDataEncrypted javaIntMaxVal fuel sess).run dev cr s).trace,
        e.isCrypto = false) := by
  have hw : (writeDataEncrypted javaIntMaxVal fill fuel sess data).run dev cr s
      = ((writeDataUnencrypted fuel data).run dev cr s).seq fun b t => ⟨some (b, sess), t, []⟩ := by
    simp [writeDataEncrypted, hbt]
  have hr : (readDataEncrypted javaIntMaxVal fuel sess).run dev cr s
      = ((readDataUnencrypted fuel).run dev cr s).seq fun d t => ⟨some (d, sess), t, []⟩ := by
    simp [readDataEncrypted, hbt]
  have hw0 := (writeDataUnencrypted_only fuel data).run dev cr s
  have hr0 := (readDataUnencrypted_only fuel).run dev cr s
  rw [hw, hr]
  unfold Outcome.seq
  cases h1 : ((writeDataUnencrypted fuel data).run dev cr s).result <;>
    cases h2 : ((readDataUnencrypted fuel).run dev cr s).result <;>
    simp [hw0, hr0] <;> exact ⟨hw0, hr0⟩

/-! ## Timeouts of the wait for readable bytes in `readAllData` -/

theorem readAllDataDoWhile_no_timeout (dev : Device σ) (cr : Crypto) (fuel : Nat)
    (v : ReadVars) (s : σ) (msecs : Int) (b : Bool) :
    Event.note (.waitForReadyRead msecs b) ∉ ((readAllDataDoWhile fuel v).run dev cr s).trace := by
  intro h
  have := (readAllDataDoWhile_only fuel v).run dev cr s _ h
  simp [Event.isChunkEvent, Event.isFlushPoll] at this

theorem readAllDataDoWhile_reads (dev : Device σ) (cr : Crypto) (fuel : Nat)
    (v : ReadVars) (s : σ)
    (h : ((readAllDataDoWhile fuel v).run dev cr s).result ≠ none) :
    ∃ n r, Event.read n r ∈ ((readAllDataDoWhile fuel v).run dev cr s).trace := by
  cases fuel with
  | zero => simp [readAllDataDoWhile] at h
  | succ fuel =>
    unfold readAllDataDoWhile
    simp only [run_bind_op, run_read, Outcome.seq]
    exact ⟨_, _, List.mem_append_left _ (List.mem_singleton.2 rfl)⟩

theorem readAllDataLoop_timeout (dev : Device σ) (cr : Crypto) (inner fuel : Nat) :
    ∀ (v : ReadVars) (s : σ),
      Event.note (.waitForReadyRead 2500 false) ∈
        ((readAllDataLoop inner fuel v).run dev cr s).trace →
      (∃ buf, ((readAllDataLoop inner fuel v).run dev cr s).result = some (false, buf)) ∧
      ((readAllDataLoop inner fuel v).run dev cr s).trace.getLast? = some Event.close ∧
      (∃ s0, ((readAllDataLoop inner fuel v).run dev cr s).state = dev.close s0) ∧
      ∃ n r, Event.read n r ∈ ((readAllDataLoop inner fuel v).run dev cr s).trace := by
  induction fuel with
  | zero =>
    intro v s
    unfold readAllDataLoop
    by_cases h : v.readSoFar < v.data.length <;> simp [h]
  | succ fuel ih =>
    intro v s
    unfold readAllDataLoop
    by_cases h : v.readSoFar < v.data.length
    · simp only [h, if_true, run_bind_op, Outcome.seq]
      have hno := readAllDataDoWhile_no_timeout dev cr inner v s 2500 false
      have hrd := readAllDataDoWhile_reads dev cr inner v s
      generalize (readAllDataDoWhile inner v).run dev cr s = o at hno hrd
      rcases o with ⟨_ | fl, t, tr⟩
      · simp only at hno ⊢
        intro hmem
        exact absurd hmem hno
      · obtain ⟨n0, r0, hrd1⟩ := hrd (by simp)
        simp only at hno hrd1 ⊢
        cases fl with
        | returned r =>
          simp only [run_pure, List.append_nil]
          intro hmem
          exact absurd hmem hno
        | left v1 =>
          simp only
          by_cases h1 : v1.readSoFar < v1.data.length
          · obtain ⟨b, polls, hb, htr, hpolls⟩ := waitForReadyRead_run dev cr 2500 t
            simp only [h1, if_true, run_bind_op, Outcome.seq, hb, htr]
            cases b
            · simp only [Bool.not_false, if_true, run_bind_op, run_close, run_pure, Outcome.seq]
              intro _
              refine ⟨⟨_, rfl⟩, ?_, ⟨_, rfl⟩, n0, r0, List.mem_append_left _ hrd1⟩
              simp only [← List.append_assoc, List.append_nil]
              exact getLast?_append_of_some _ [Event.close] _ rfl
            · simp only [Bool.not_true, Bool.false_eq_true, if_false, List.mem_append,
                List.mem_singleton]
              intro hmem
              have hin : Event.note (.waitForReadyRead 2500 false) ∈
                  ((readAllDataLoop inner fuel v1).run dev cr
                    ((waitForReadyRead 2500).run dev cr t).state).trace := by
                rcases hmem with hmem | (hmem | hmem) | hmem
                · exact absurd hmem hno
                · have := hpolls _ hmem
                  simp [Event.isReadyPoll] at this
                · cases hmem
                · exact hmem
              obtain ⟨r1, r2, r3, n1, rr1, r4⟩ := ih _ _ hin
              refine ⟨r1, ?_, r3, n1, rr1, Or.inr (Or.inr r4)⟩
              simp only [← List.append_assoc]
              exact getLast?_append_of_some _ _ _ r2
          · simp only [h1, if_false, List.mem_append]
            intro hmem
            have hin : Event.note (.waitForReadyRead 2500 false) ∈
                ((readAllDataLoop inner fuel v1).run dev cr t).trace := by
              rcases hmem with hmem | hmem
              · exact absurd hmem hno
              · exact hmem
            obtain ⟨r1, r2, r3, n1, rr1, r4⟩ := ih _ _ hin
            exact ⟨r1, getLast?_append_of_some _ _ _ r2, r3, n1, rr1, Or.inr r4⟩
    · simp [h]

/-- What `readAllData` does on a timeout: whenever a 2.5-second wait for readable bytes inside
`readAllData` times out, `readAllData` returns false; and when the wait that timed out came
after a read of the same call (the wait of lines 185-188), the channel is closed when
`readAllData` returns: its last call is `close()`. -/
theorem readAllData_timeout (dev : Device σ) (cr : Crypto) (fuel : Nat) (data : List Byte)
    (s : σ)
    (h : Event.note (.waitForReadyRead 2500 false) ∈
      ((readAllData fuel data).run dev cr s).trace) :
    (∃ buf, ((readAllData fuel data).run dev cr s).result = some (false, buf)) ∧
      ((∃ n r, Event.read n r ∈ ((readAllData fuel data).run dev cr s).trace) →
        ((readAllData fuel data).run dev cr s).trace.getLast? = some Event.close ∧
        ∃ s0, ((readAllData fuel data).run dev cr s).state = dev.close s0) := by
  obtain ⟨b, hb, hnr⟩ := notAvailableNorReady_run dev cr 2500 s
  have hfp := (notAvailableNorReady_only 2500).run dev cr s
  revert h
  unfold readAllData
  simp only [run_bind_op, Outcome.seq, hb]
  cases b
  · simp only [Bool.false_eq_true, if_false, List.mem_append]
    intro h
    have hin : Event.note (.waitForReadyRead 2500 false) ∈
        ((readAllDataLoop fuel fuel ⟨0, 0, data⟩).run dev cr
          ((notAvailableNorReady 2500).run dev cr s).state).trace := by
      rcases h with h | h
      · rcases hnr _ h with h1 | h1
        · simp [Event.isReadyPoll] at h1
        · simp at h1
      · exact h
    obtain ⟨r1, r2, r3, n1, rr1, r4⟩ := readAllDataLoop_timeout dev cr fuel fuel _ _ hin
    exact ⟨r1, fun _ => ⟨getLast?_append_of_some _ _ _ r2, r3⟩⟩
  · simp only [if_true, run_pure, List.append_nil]
    intro _
    refine ⟨⟨_, rfl⟩, ?_⟩
    rintro ⟨n, r, hmem⟩
    have := hfp _ hmem
    simp [Event.isReadyEvent, Event.isReadyPoll] at this

set_option maxRecDepth 100000 in
theorem readAllData_timeout_witness :
    Event.note (.waitForReadyRead 2500 false) ∈
        ((readAllData 10 (byteArray 4 0)).run endA shiftCrypto (inbox [1, 2])).trace ∧
      (∃ buf, ((readAllData 10 (byteArray 4 0)).run endA shiftCrypto (inbox [1, 2])).result
        = some (false, buf)) ∧
      ((∃ n r, Event.read n r ∈
          ((readAllData 10 (byteArray 4 0)).run endA shiftCrypto (inbox [1, 2])).trace) →
        ((readAllData 10 (byteArray 4 0)).run endA shiftCrypto (inbox [1, 2])).trace.getLast?
          = some Event.close ∧
        ∃ s0, ((readAllData 10 (byteArray 4 0)).run endA shiftCrypto (inbox [1, 2])).state
          = endA.close s0) :=
  ⟨by decide,
    (readAllData_timeout endA shiftCrypto 10 (byteArray 4 0) (inbox [1, 2]) (by decide)).1,
    (readAllData_timeout endA shiftCrypto 10 (byteArray 4 0) (inbox [1, 2]) (by decide)).2⟩

set_option maxRecDepth 100000 in
/-- C10: a timeout of the wait before the first read of `readAllData` leaves the channel open.
On an open connection on which nothing arrives, that wait times out, `readAllData` returns
false, it never calls `close()` and the channel is still open when it returns. The same wait is
the one that times out in the middle of a frame: when the 4-byte header announcing 5 bytes has
been read and the payload never arrives, the second `readAllData` of `readDataUnencrypted` times
out before its first read, `readDataUnencrypted` returns the empty array, and again there is no
`close()` and the channel is still open. -/
theorem readAllData_first_wait_timeout_stays_open :
    (Event.note (.waitForReadyRead 2500 false) ∈
        ((readAllData 10 (byteArray 4 0)).run endA shiftCrypto Loopback.idle).trace ∧
      ((readAllData 10 (byteArray 4 0)).run endA shiftCrypto Loopback.idle).result
        = some (false, byteArray 4 0) ∧
      Event.close ∉ ((readAllData 10 (byteArray 4 0)).run endA shiftCrypto Loopback.idle).trace ∧
      endA.isOpen ((readAllData 10 (byteArray 4 0)).run endA shiftCrypto Loopback.idle).state
        = true) ∧
      (((readDataUnencrypted 10).run endA shiftCrypto (inbox [5, 0, 0, 0])).trace.filter
          Event.isRead = [Event.read 4 (some [5, 0, 0, 0])] ∧
        Event.note (.waitForReadyRead 2500 false) ∈
          ((readDataUnencrypted 10).run endA shiftCrypto (inbox [5, 0, 0, 0])).trace ∧
        ((readDataUnencrypted 10).run endA shiftCrypto (inbox [5, 0, 0, 0])).result = some [] ∧
        Event.close ∉ ((readDataUnencrypted 10).run endA shiftCrypto (inbox [5, 0, 0, 0])).trace ∧
        endA.isOpen ((readDataUnencrypted 10).run endA shiftCrypto (inbox [5, 0, 0, 0])).state
          = true) := by
  decide

theorem bluetooth_bypass_witness :
    bluetoothSession.socketIsBluetooth = true ∧
      ((writeDataEncrypted exampleIntMax (fun _ => 0) 10 bluetoothSession hello).run endA
          shiftCrypto Loopback.idle).result
        = ((writeDataUnencrypted 10 hello).run endA shiftCrypto Loopback.idle).result.map
            (fun b => (b, bluetoothSession)) ∧
      ((readDataEncrypted exampleIntMax 10 bluetoothSession).run endA shiftCrypto
          (inbox (frame hello))).result
        = ((readDataUnencrypted 10).run endA shiftCrypto (inbox (frame hello))).result.map
            (fun d => (d, bluetoothSession)) :=
  ⟨by decide,
    (bluetooth_bypass endA shiftCrypto exampleIntMax (fun _ => 0) 10 bluetoothSession hello
      Loopback.idle (by decide)).1,
    (bluetooth_bypass endA shiftCrypto exampleIntMax (fun _ => 0) 10 bluetoothSession hello
      (inbox (frame hello)) (by decide)).2.2.2.1⟩

/-! ## Two peers on a loopback channel -/

theorem runPair_done {γ : Type} (devA devB : Device σ) (cr : Crypto) (rounds : Nat)
    (ra : Option α) (rb : Option γ) (s : σ) :
    runPair devA devB cr rounds (.done ra) (.done rb) s = (.done ra, .done rb, s) := by
  induction rounds with
  | zero => rfl
  | succ n ih => simp [runPair, Paused.turn, ih]

theorem runPair_add {γ : Type} (devA devB : Device σ) (cr : Crypto) (n m : Nat) :
    ∀ (a : Paused α) (b : Paused γ) (s : σ),
      runPair devA devB cr (n + m) a b s
        = runPair devA devB cr m (runPair devA devB cr n a b s).1
            (runPair devA devB cr n a b s).2.1 (runPair devA devB cr n a b s).2.2 := by
  induction n with
  | zero => intro a b s; simp [runPair]
  | succ n ih =>
    intro a b s
    rw [Nat.add_right_comm]
    simp only [runPair]
    exact ih _ _ _

/-- Once both peers have finished, simulating more rounds changes nothing. -/
theorem loopback_stable {γ : Type} (cr : Crypto) (n m : Nat) (a : Proc α) (b : Proc γ)
    (r : Option α × Option γ) (h : loopback cr n a b = some r) :
    loopback cr (n + m) a b = some r := by
  unfold loopback at h ⊢
  rw [runPair_add]
  revert h
  rcases runPair endA endB cr n (.asleep a) (.asleep b) Loopback.idle with ⟨pa, pb, s⟩
  cases pa <;> cases pb <;> simp [runPair_done]

set_option maxRecDepth 1000000 in
/-- C1 at its smallest failing inputs, over the loopback channel with the peers in lockstep. A
payload of 96 bytes makes a frame of 100 bytes: the writer then waits for a keepalive byte that
the reader, who counts the 96 payload bytes only, never sends, and `writeDataUnencrypted`
returns false although the reader got the payload. With 100 payload bytes the writer stops after
the first 100 bytes of the frame and waits for the keepalive, the reader has 96 of its 100
payload bytes and waits for more: both time out, the write returns false and the read returns
the empty array, whichever peer runs first in a round. Payloads of 0 and of 95 bytes go
through. -/
theorem loopback_unencrypted_keepalive_mismatch :
    loopback shiftCrypto 300 (writeDataUnencrypted 200 (payload 0)) (readDataUnencrypted 200)
        = some (some true, some (payload 0)) ∧
      loopback shiftCrypto 300 (writeDataUnencrypted 200 (payload 95)) (readDataUnencrypted 200)
        = some (some true, some (payload 95)) ∧
      loopback shiftCrypto 300 (writeDataUnencrypted 200 (payload 96)) (readDataUnencrypted 200)
        = some (some false, some (payload 96)) ∧
      loopback shiftCrypto 300 (writeDataUnencrypted 200 (payload 100)) (readDataUnencrypted 200)
        = some (some false, some []) ∧
      loopback shiftCrypto 300 (readDataUnencrypted 200) (writeDataUnencrypted 200 (payload 100))
        = some (some [], some false) := by
  decide

theorem shiftCrypto_roundtrip (d k iv : List Byte) :
    shiftCrypto.decryptBytes (shiftCrypto.encryptBytes d k iv) k iv = d := by
  simp [shiftCrypto, List.map_map, Function.comp_def]

theorem shiftCrypto_length (d k iv : List Byte) :
    (shiftCrypto.encryptBytes d k iv).length = d.length := by
  simp [shiftCrypto]

set_option maxRecDepth 1000000 in
/-- C2 at its smallest failing input: with a cipher that decrypts what it encrypts and keeps
lengths, equal password hashes and IV counters and a channel that is not link-encrypted, a
payload of 96 bytes is padded to 112 bytes and framed to 116; the writer waits for a keepalive
after 100 bytes, the reader waits for the rest of its 112 bytes, both time out and
`readDataEncrypted` returns the empty array instead of 112 bytes. The text `hello` does come
back as `hello` followed by 11 padding bytes. -/
theorem loopback_encrypted_keepalive_mismatch :
    (∀ d k iv, shiftCrypto.decryptBytes (shiftCrypto.encryptBytes d k iv) k iv = d) ∧
      (∀ d k iv, (shiftCrypto.encryptBytes d k iv).length = d.length) ∧
      loopback shiftCrypto 300
          (writeDataEncrypted exampleIntMax (fun _ => 7) 200 exampleSession (payload 96))
          (readDataEncrypted exampleIntMax 200 exampleSession)
        = some (some (false, nextIV exampleIntMax exampleSession),
            some ([], nextIV exampleIntMax exampleSession)) ∧
      loopback shiftCrypto 300
          (writeDataEncrypted exampleIntMax (fun _ => 7) 200 exampleSession hello)
          (readDataEncrypted exampleIntMax 200 exampleSession)
        = some (some (true, nextIV exampleIntMax exampleSession),
            some (hello ++ List.replicate 11 7, nextIV exampleIntMax exampleSession)) :=
  ⟨shiftCrypto_roundtrip, shiftCrypto_length, by decide, by decide⟩

set_option maxRecDepth 1000000 in
/-- C5 at its smallest failing input, a payload of 96 bytes: a successful
`writeDataUnencrypted` reads one keepalive byte from the peer (its frame is 100 bytes), a
successful `readDataUnencrypted` of the same frame writes none (the payload is 96 bytes), and
`96 / 100` is 0. -/
theorem keepalive_counts_differ_at_96 :
    ((writeDataUnencrypted 100 (payload 96)).run endA shiftCrypto (inbox [0])).result
        = some true ∧
      readCalls ((writeDataUnencrypted 100 (payload 96)).run endA shiftCrypto (inbox [0])).trace
        = 1 ∧
      ((readDataUnencrypted 100).run endA shiftCrypto (inbox (frame (payload 96)))).result
        = some (payload 96) ∧
      writeCalls ((readDataUnencrypted 100).run endA shiftCrypto
        (inbox (frame (payload 96)))).trace = 0 ∧
      96 / 100 = 0 := by
  decide

set_option maxRecDepth 1000000 in
/-- C9 at a failing input: 100 bytes are written and flushed, the peer never sends the keepalive
byte and the connection stays open. `waitForReadyRead(1000)` returns false, `writeAllData`
returns false, but it makes no call of `close()` and the channel is still open when it
returns. -/
theorem writeAllData_ping_timeout_stays_open :
    Event.note (.waitForReadyRead 1000 false) ∈
        ((writeAllData 100 (payload 100)).run endA shiftCrypto Loopback.idle).trace ∧
      ((writeAllData 100 (payload 100)).run endA shiftCrypto Loopback.idle).result
        = some false ∧
      Event.close ∉ ((writeAllData 100 (payload 100)).run endA shiftCrypto Loopback.idle).trace ∧
      endA.isOpen ((writeAllData 100 (payload 100)).run endA shiftCrypto Loopback.idle).state
        = true := by
  decide


/-! ## Byte order of the length header -/

theorem bytesToInt_eq_sum (b0 b1 b2 b3 : Byte) (rest : List Byte) :
    bytesToInt (b0 :: b1 :: b2 :: b3 :: rest)
      = (b0.val + 256 * b1.val + 65536 * b2.val + 16777216 * b3.val) % 2 ^ 32 := by
  simp only [bytesToInt]
  rw [or_shift_eq_add _ _ _ _ b0.isLt b1.isLt b2.isLt]

/-- C18: the length header is little-endian. For every `n` (an `unsigned int`, so below `2^32`;
the bound plays no part) and `i` in 0..3, byte `i` of
`intToBytes n` is `(n / 256^i) mod 256`; and for a byte sequence `b` of at least 4 bytes,
`bytesToInt b` is `b[0] + 256*b[1] + 65536*b[2] + 16777216*b[3]`, which is below `2^32`. -/
theorem header_little_endian (n i : Nat) (b : List Byte) (hi : i < 4)
    (hb : 4 ≤ b.length) :
    ((intToBytes n).getD i 0).val = n / 256 ^ i % 256 ∧
      bytesToInt b = (b.getD 0 0).val + 256 * (b.getD 1 0).val + 65536 * (b.getD 2 0).val
        + 16777216 * (b.getD 3 0).val ∧
      bytesToInt b < 2 ^ 32 := by
  constructor
  · rw [intToBytes_eq]
    have h8 : ∀ k, n >>> k = n / 2 ^ k := fun k => Nat.shiftRight_eq_div_pow n k
    rcases i with _ | _ | _ | _ | i
    · simp [lowByte_val]
    · simp [lowByte_val, h8]
    · simp [lowByte_val, h8]
    · simp [lowByte_val, h8]
    · omega
  · rcases b with _ | ⟨b0, _ | ⟨b1, _ | ⟨b2, _ | ⟨b3, rest⟩⟩⟩⟩
    · simp at hb
    · simp at hb
    · simp at hb
    · simp at hb
    · rw [bytesToInt_eq_sum]
      have h0 := b0.isLt
      have h1 := b1.isLt
      have h2 := b2.isLt
      have h3 := b3.isLt
      refine ⟨?_, Nat.mod_lt _ (by norm_num)⟩
      simp only [List.getD_cons_zero, List.getD_cons_succ]
      omega

theorem header_little_endian_witness :
    ((2 : Nat) < 4 ∧ 4 ≤ (payload 6).length) ∧
      ((intToBytes 305419896).getD 2 0).val = 305419896 / 256 ^ 2 % 256 ∧
      bytesToInt (payload 6) = ((payload 6).getD 0 0).val + 256 * ((payload 6).getD 1 0).val
        + 65536 * ((payload 6).getD 2 0).val + 16777216 * ((payload 6).getD 3 0).val ∧
      bytesToInt (payload 6) < 2 ^ 32 :=
  ⟨⟨by decide, by decide⟩,
    header_little_endian 305419896 2 (payload 6) (by decide) (by decide)⟩

/-- C20: `bytesToInt` returns 0 for every byte sequence shorter than 4 bytes, and for a sequence
of at least 4 bytes its result depends on the first 4 bytes only: it is the result on these 4
bytes, and two sequences with the same first 4 bytes give the same result. -/
theorem bytesToInt_short_and_first_four (short b c : List Byte) (hs : short.length < 4)
    (hb : 4 ≤ b.length) (hc : 4 ≤ c.length) (h : b.take 4 = c.take 4) :
    bytesToInt short = 0 ∧ bytesToInt b = bytesToInt (b.take 4) ∧
      bytesToInt b = bytesToInt c := by
  have h2 : ∀ b : List Byte, 4 ≤ b.length → bytesToInt b = bytesToInt (b.take 4) := by
    intro b hb
    rcases b with _ | ⟨b0, _ | ⟨b1, _ | ⟨b2, _ | ⟨b3, rest⟩⟩⟩⟩
    · simp at hb
    · simp at hb
    · simp at hb
    · simp at hb
    · simp [bytesToInt]
  refine ⟨?_, h2 b hb, ?_⟩
  · rcases short with _ | ⟨b0, _ | ⟨b1, _ | ⟨b2, _ | ⟨b3, rest⟩⟩⟩⟩
    · rfl
    · rfl
    · rfl
    · rfl
    · simp at hs
      omega
  · rw [h2 b hb, h2 c hc, h]

theorem bytesToInt_short_and_first_four_witness :
    ((payload 3).length < 4 ∧ 4 ≤ (payload 6).length ∧ 4 ≤ (payload 4 ++ [9]).length ∧
        (payload 6).take 4 = (payload 4 ++ [9]).take 4) ∧
      bytesToInt (payload 3) = 0 ∧ bytesToInt (payload 6) = bytesToInt ((payload 6).take 4) ∧
      bytesToInt (payload 6) = bytesToInt (payload 4 ++ [9]) :=
  ⟨⟨by decide, by decide, by decide, by decide⟩,
    bytesToInt_short_and_first_four (payload 3) (payload 6) (payload 4 ++ [9]) (by decide)
      (by decide) (by decide) (by decide)⟩

/-! ## One iteration of the loop of `writeAllData` -/

theorem writeAllDataLoop_done (dev : Device σ) (cr : Crypto) (data : List Byte) (fuel : Nat)
    (w c : Int) (s : σ) (h : ¬ w < data.length) :
    (writeAllDataLoop data fuel w c).run dev cr s =
      if w ≠ data.length then ⟨some false, dev.close s, [Event.close]⟩ else ⟨some true, s, []⟩ := by
  unfold writeAllDataLoop
  simp only [h, if_false, writeAllDataEnd_run]

theorem writeAllDataLoop_zero (dev : Device σ) (cr : Crypto) (data : List Byte)
    (w c : Int) (s : σ) (h : w < data.length) :
    (writeAllDataLoop data 0 w c).run dev cr s = ⟨none, s, []⟩ := by
  unfold writeAllDataLoop
  simp only [h, if_true, run_outOfFuel]

/-- What one iteration of the loop of `writeAllData` does, from the loop variables `w`
(`wroteSoFar`) and `c` (`chunkSoFar`): the write request, and then one of six ways on. -/
theorem writeAllDataLoop_step (dev : Device σ) (cr : Crypto) (data : List Byte) (fuel : Nat)
    (w c : Int) (s : σ) (h : w < data.length) :
    ∃ r s1, dev.write (slice data w (MIN (data.length - w) (IO_MAX_CHUNK - c)))
        (MIN (data.length - w) (IO_MAX_CHUNK - c)) s = (r, s1) ∧
      ((narrowToInt r ≤ 0 ∧ (writeAllDataLoop data (fuel + 1) w c).run dev cr s
          = ⟨some false, dev.close s1,
              [Event.write (slice data w (MIN (data.length - w) (IO_MAX_CHUNK - c)))
                (MIN (data.length - w) (IO_MAX_CHUNK - c)) r, Event.close]⟩) ∨
        (0 < narrowToInt r ∧ ∃ fl s2, (∀ e ∈ fl, e.isFlushPoll = true) ∧
          ((writeAllDataLoop data (fuel + 1) w c).run dev cr s
              = ⟨some false, s2,
                  Event.write (slice data w (MIN (data.length - w) (IO_MAX_CHUNK - c)))
                    (MIN (data.length - w) (IO_MAX_CHUNK - c)) r :: fl⟩ ∨
            (c + narrowToInt r ≠ IO_MAX_CHUNK ∧ (writeAllDataLoop data (fuel + 1) w c).run dev cr s
              = ((writeAllDataLoop data fuel (w + narrowToInt r) (c + narrowToInt r)).run dev cr s2).prefixed
                  (Event.write (slice data w (MIN (data.length - w) (IO_MAX_CHUNK - c)))
                    (MIN (data.length - w) (IO_MAX_CHUNK - c)) r :: fl)) ∨
            (c + narrowToInt r = IO_MAX_CHUNK ∧ ∃ rd s3, (∀ e ∈ rd, e.isReadyEvent = true) ∧
              ((writeAllDataLoop data (fuel + 1) w c).run dev cr s
                  = ⟨some false, s3,
                      Event.write (slice data w (MIN (data.length - w) (IO_MAX_CHUNK - c)))
                        (MIN (data.length - w) (IO_MAX_CHUNK - c)) r :: (fl ++ rd)⟩ ∨
                ∃ x s4, dev.read 1 s3 = (x, s4) ∧
                  ((x.getD [] ≠ [(0 : Byte)] ∧
                    (writeAllDataLoop data (fuel + 1) w c).run dev cr s
                      = ⟨some false, dev.close s4,
                          Event.write (slice data w (MIN (data.length - w) (IO_MAX_CHUNK - c)))
                            (MIN (data.length - w) (IO_MAX_CHUNK - c)) r ::
                            (fl ++ rd ++ [Event.read 1 x, Event.close])⟩) ∨
                  (x.getD [] = [(0 : Byte)] ∧
                    (writeAllDataLoop data (fuel + 1) w c).run dev cr s
                      = ((writeAllDataLoop data fuel (w + narrowToInt r) 0).run dev cr s4).prefixed
                          (Event.write (slice data w (MIN (data.length - w) (IO_MAX_CHUNK - c)))
                            (MIN (data.length - w) (IO_MAX_CHUNK - c)) r ::
                            (fl ++ rd ++ [Event.read 1 x]))))))))) := by
  rw [writeAllDataLoop]
  simp only [h, if_true, run_bind_op, run_write, Outcome.seq]
  generalize MIN (data.length - w) (IO_MAX_CHUNK - c) = len
  generalize dev.write (slice data w len) len s = wr
  rcases wr with ⟨r, s1⟩
  refine ⟨r, s1, rfl, ?_⟩
  simp only
  by_cases h1 : narrowToInt r ≤ 0
  · left
    have hne : w ≠ data.length := by omega
    simp [h1, writeAllDataEnd_run, hne]
  · right
    obtain ⟨⟨b, hb⟩, hfl⟩ := waitForBytesWritten_run dev cr 1000 s1
    refine ⟨by omega, _, ((waitForBytesWritten 1000).run dev cr s1).state, hfl, ?_⟩
    simp only [h1, if_false, run_bind_op, Outcome.seq, hb]
    cases b
    · left
      simp
    · right
      simp only [Bool.not_true, Bool.false_eq_true, if_false]
      by_cases h2 : c + narrowToInt r = IO_MAX_CHUNK
      · right
        obtain ⟨b2, hb2, _⟩ := notAvailableNorReady_run dev cr 1000
          ((waitForBytesWritten 1000).run dev cr s1).state
        have hrd := (notAvailableNorReady_only 1000).run dev cr
          ((waitForBytesWritten 1000).run dev cr s1).state
        refine ⟨h2, _, ((notAvailableNorReady 1000).run dev cr
          ((waitForBytesWritten 1000).run dev cr s1).state).state, hrd, ?_⟩
        simp only [h2, if_true, run_bind_op, Outcome.seq, hb2]
        cases b2
        · right
          simp only [Bool.false_eq_true, if_false, run_bind_op, run_readArray, Outcome.seq]
          rcases hrd1 : dev.read 1 ((notAvailableNorReady 1000).run dev cr
            ((waitForBytesWritten 1000).run dev cr s1).state).state with ⟨x, s4⟩
          refine ⟨x, s4, rfl, ?_⟩
          by_cases h3 : x.getD [] = [(0 : Byte)]
          · right
            have h4 : ¬ ((x.getD []).length ≠ 1 ∨ (x.getD []).head? ≠ some (0 : Byte)) := by
              rw [ping_ok_iff]; simpa using h3
            simp [h4, h3, Outcome.prefixed]
          · left
            have h4 : ((x.getD []).length ≠ 1 ∨ (x.getD []).head? ≠ some (0 : Byte)) := by
              rw [ping_ok_iff]; exact h3
            simp [h4, h3, Outcome.seq]
        · left
          simp
      · left
        simp [h2, Outcome.prefixed]

@[simp] theorem prefixed_result (pre : List Event) (o : Outcome σ α) :
    (o.prefixed pre).result = o.result := rfl

@[simp] theorem prefixed_state (pre : List Event) (o : Outcome σ α) :
    (o.prefixed pre).state = o.state := rfl

@[simp] theorem prefixed_trace (pre : List Event) (o : Outcome σ α) :
    (o.prefixed pre).trace = pre ++ o.trace := rfl

/-! ## Counting calls in a trace -/

theorem writeCalls_append (a b : List Event) : writeCalls (a ++ b) = writeCalls a + writeCalls b := by
  simp [writeCalls]

theorem readCalls_append (a b : List Event) : readCalls (a ++ b) = readCalls a + readCalls b := by
  simp [readCalls]

theorem writeCalls_cons_write (buf : List Byte) (len r : Int) (tr : List Event) :
    writeCalls (Event.write buf len r :: tr) = 1 + writeCalls tr := by
  simp [writeCalls]; omega

theorem readCalls_cons_write (buf : List Byte) (len r : Int) (tr : List Event) :
    readCalls (Event.write buf len r :: tr) = readCalls tr := by
  simp [readCalls]

theorem writeCalls_cons_read (maxLen : Int) (x : Option (List Byte)) (tr : List Event) :
    writeCalls (Event.read maxLen x :: tr) = writeCalls tr := by
  simp [writeCalls]

theorem readCalls_cons_read (maxLen : Int) (x : Option (List Byte)) (tr : List Event) :
    readCalls (Event.read maxLen x :: tr) = 1 + readCalls tr := by
  simp [readCalls]; omega

theorem writeCalls_cons_close (tr : List Event) :
    writeCalls (Event.close :: tr) = writeCalls tr := by
  simp [writeCalls]

theorem readCalls_cons_close (tr : List Event) :
    readCalls (Event.close :: tr) = readCalls tr := by
  simp [readCalls]

theorem writeCalls_nil : writeCalls [] = 0 := rfl

theorem readCalls_nil : readCalls [] = 0 := rfl

theorem writeCalls_eq_zero (tr : List Event)
    (h : ∀ e ∈ tr, ∀ buf len r, e ≠ Event.write buf len r) : writeCalls tr = 0 := by
  induction tr with
  | nil => rfl
  | cons e tr ih =>
    have he := h e (List.mem_cons_self _ _)
    have := ih fun e' he' => h e' (List.mem_cons_of_mem _ he')
    cases e with
    | write buf len r => exact absurd rfl (he buf len r)
    | _ => simpa [writeCalls] using this

theorem readCalls_eq_zero (tr : List Event)
    (h : ∀ e ∈ tr, ∀ maxLen x, e ≠ Event.read maxLen x) : readCalls tr = 0 := by
  induction tr with
  | nil => rfl
  | cons e tr ih =>
    have he := h e (List.mem_cons_self _ _)
    have := ih fun e' he' => h e' (List.mem_cons_of_mem _ he')
    cases e with
    | read maxLen x => exact absurd rfl (he maxLen x)
    | _ => simpa [readCalls] using this

theorem writeCalls_flush (fl : List Event) (h : ∀ e ∈ fl, e.isFlushPoll = true) :
    writeCalls fl = 0 :=
  writeCalls_eq_zero fl fun e he buf len r heq => by
    subst heq
    simpa [Event.isFlushPoll] using h _ he

theorem readCalls_flush (fl : List Event) (h : ∀ e ∈ fl, e.isFlushPoll = true) :
    readCalls fl = 0 :=
  readCalls_eq_zero fl fun e he maxLen x heq => by
    subst heq
    simpa [Event.isFlushPoll] using h _ he

theorem writeCalls_ready (rd : List Event) (h : ∀ e ∈ rd, e.isReadyEvent = true) :
    writeCalls rd = 0 :=
  writeCalls_eq_zero rd fun e he buf len r heq => by
    subst heq
    simpa [Event.isReadyEvent, Event.isReadyPoll] using h _ he

theorem readCalls_ready (rd : List Event) (h : ∀ e ∈ rd, e.isReadyEvent = true) :
    readCalls rd = 0 :=
  readCalls_eq_zero rd fun e he maxLen x heq => by
    subst heq
    simpa [Event.isReadyEvent, Event.isReadyPoll] using h _ he

/-! ## Termination of `writeAllData` -/

theorem writeAllDataLoop_terminates (dev : Device σ) (cr : Crypto) (data : List Byte)
    (fuel : Nat) :
    ∀ (w c : Int) (s : σ),
      writeCalls ((writeAllDataLoop data fuel w c).run dev cr s).trace
          ≤ ((data.length : Int) - w).toNat ∧
        (((data.length : Int) - w).toNat ≤ fuel →
          ((writeAllDataLoop data fuel w c).run dev cr s).result ≠ none) := by
  induction fuel with
  | zero =>
    intro w c s
    by_cases h : w < data.length
    · rw [writeAllDataLoop_zero dev cr data w c s h]
      refine ⟨by simp [writeCalls_nil], fun h0 => ?_⟩
      omega
    · rw [writeAllDataLoop_done dev cr data 0 w c s h]
      split <;> simp [writeCalls_nil, writeCalls_cons_close]
  | succ fuel ih =>
    intro w c s
    by_cases h : w < data.length
    · obtain ⟨r, s1, _, hstep⟩ := writeAllDataLoop_step dev cr data fuel w c s h
      rcases hstep with ⟨_, hrun⟩ | ⟨hr, fl, s2, hfl, hrun | ⟨_, hrun⟩ |
        ⟨_, rd, s3, hrd, hrun | ⟨x, s4, _, ⟨_, hrun⟩ | ⟨_, hrun⟩⟩⟩⟩
      · rw [hrun]
        simp only [writeCalls_cons_write, writeCalls_cons_close, writeCalls_nil]
        refine ⟨by omega, by simp⟩
      · rw [hrun]
        simp only [writeCalls_cons_write, writeCalls_flush fl hfl]
        refine ⟨by omega, by simp⟩
      · rw [hrun]
        have := ih (w + narrowToInt r) (c + narrowToInt r) s2
        simp only [prefixed_trace, prefixed_result, List.cons_append, writeCalls_cons_write,
          writeCalls_append, writeCalls_flush fl hfl]
        refine ⟨by omega, fun hf => this.2 (by omega)⟩
      · rw [hrun]
        simp only [writeCalls_cons_write, writeCalls_append, writeCalls_flush fl hfl,
          writeCalls_ready rd hrd]
        refine ⟨by omega, by simp⟩
      · rw [hrun]
        simp only [writeCalls_cons_write, writeCalls_append, writeCalls_flush fl hfl,
          writeCalls_ready rd hrd, writeCalls_cons_read, writeCalls_cons_close, writeCalls_nil]
        refine ⟨by omega, by simp⟩
      · rw [hrun]
        have := ih (w + narrowToInt r) 0 s4
        simp only [prefixed_trace, prefixed_result, List.cons_append, writeCalls_cons_write,
          writeCalls_append, writeCalls_flush fl hfl, writeCalls_ready rd hrd,
          writeCalls_cons_read, writeCalls_nil]
        refine ⟨by omega, fun hf => this.2 (by omega)⟩
    · rw [writeAllDataLoop_done dev cr data (fuel + 1) w c s h]
      split <;> simp [writeCalls_nil, writeCalls_cons_close]

/-- C19: `writeAllData` terminates on every input and every channel behaviour: with a budget of
`data.size()` loop iterations it returns a value on every device (the wait helpers of the model
always return), and whatever the budget, it makes at most `data.size()` calls of
`socket->write`. -/
theorem writeAllData_terminates (dev : Device σ) (cr : Crypto) (data : List Byte) (s : σ)
    (fuel : Nat) (hfuel : data.length ≤ fuel) :
    (∃ b, ((writeAllData fuel data).run dev cr s).result = some b) ∧
      writeCalls ((writeAllData fuel data).run dev cr s).trace ≤ data.length := by
  have h := writeAllDataLoop_terminates dev cr data fuel 0 0 s
  simp only [sub_zero, Int.toNat_ofNat] at h
  refine ⟨?_, h.1⟩
  have h2 := h.2 hfuel
  unfold writeAllData
  cases hres : ((writeAllDataLoop data fuel 0 0).run dev cr s).result with
  | none => exact absurd hres h2
  | some b => exact ⟨b, rfl⟩

/-! ## A short write -/

theorem writeAllDataLoop_short_write (dev : Device σ) (cr : Crypto) (data : List Byte)
    (buf : List Byte) (len res : Int) (hres : narrowToInt res ≤ 0) (fuel : Nat) :
    ∀ (w c : Int) (s : σ),
      Event.write buf len res ∈ ((writeAllDataLoop data fuel w c).run dev cr s).trace →
      ((writeAllDataLoop data fuel w c).run dev cr s).result = some false ∧
      (∃ pre, ((writeAllDataLoop data fuel w c).run dev cr s).trace
        = pre ++ [Event.write buf len res, Event.close]) ∧
      ∃ s0, ((writeAllDataLoop data fuel w c).run dev cr s).state = dev.close s0 := by
  have hfl0 : ∀ fl : List Event, (∀ e ∈ fl, e.isFlushPoll = true) →
      Event.write buf len res ∉ fl := by
    intro fl hfl hmem
    simpa [Event.isFlushPoll] using hfl _ hmem
  have hrd0 : ∀ rd : List Event, (∀ e ∈ rd, e.isReadyEvent = true) →
      Event.write buf len res ∉ rd := by
    intro rd hrd hmem
    simpa [Event.isReadyEvent, Event.isReadyPoll] using hrd _ hmem
  induction fuel with
  | zero =>
    intro w c s
    by_cases h : w < data.length
    · rw [writeAllDataLoop_zero dev cr data w c s h]
      simp
    · rw [writeAllDataLoop_done dev cr data 0 w c s h]
      split <;> simp
  | succ fuel ih =>
    intro w c s
    by_cases h : w < data.length
    · obtain ⟨r, s1, _, hstep⟩ := writeAllDataLoop_step dev cr data fuel w c s h
      rcases hstep with ⟨_, hrun⟩ | ⟨hr, fl, s2, hfl, hrun | ⟨_, hrun⟩ |
        ⟨_, rd, s3, hrd, hrun | ⟨x, s4, _, ⟨_, hrun⟩ | ⟨_, hrun⟩⟩⟩⟩
      · rw [hrun]
        simp only [List.mem_cons, List.mem_singleton, List.not_mem_nil, or_false]
        rintro (heq | heq)
        · rw [← heq]
          exact ⟨trivial, ⟨[], rfl⟩, ⟨_, rfl⟩⟩
        · cases heq
      · rw [hrun]
        simp only [List.mem_cons]
        rintro (heq | hmem)
        · cases heq
          omega
        · exact absurd hmem (hfl0 fl hfl)
      · rw [hrun]
        simp only [prefixed_trace, prefixed_result, prefixed_state, List.cons_append,
          List.mem_cons, List.mem_append]
        rintro (heq | hmem | hmem)
        · cases heq
          omega
        · exact absurd hmem (hfl0 fl hfl)
        · obtain ⟨r1, ⟨pre, r2⟩, r3⟩ := ih _ _ _ hmem
          refine ⟨r1, ?_, r3⟩
          rw [r2, ← List.append_assoc, ← List.cons_append]
          exact ⟨_, rfl⟩
      · rw [hrun]
        simp only [List.mem_cons, List.mem_append]
        rintro (heq | hmem | hmem)
        · cases heq
          omega
        · exact absurd hmem (hfl0 fl hfl)
        · exact absurd hmem (hrd0 rd hrd)
      · rw [hrun]
        simp only [List.mem_cons, List.mem_append, List.mem_singleton, List.not_mem_nil,
          or_false]
        rintro (heq | (hmem | hmem) | heq | heq)
        · cases heq
          omega
        · exact absurd hmem (hfl0 fl hfl)
        · exact absurd hmem (hrd0 rd hrd)
        · cases heq
        · cases heq
      · rw [hrun]
        simp only [prefixed_trace, prefixed_result, prefixed_state, List.cons_append,
          List.mem_cons, List.mem_append, List.mem_singleton, List.not_mem_nil, or_false]
        rintro (heq | ((hmem | hmem) | heq) | hmem)
        · cases heq
          omega
        · exact absurd hmem (hfl0 fl hfl)
        · exact absurd hmem (hrd0 rd hrd)
        · cases heq
        · obtain ⟨r1, ⟨pre, r2⟩, r3⟩ := ih _ _ _ hmem
          refine ⟨r1, ?_, r3⟩
          rw [r2, ← List.append_assoc, ← List.cons_append]
          exact ⟨_, rfl⟩
    · rw [writeAllDataLoop_done dev cr data (fuel + 1) w c s h]
      split <;> simp

/-- What `writeAllData` does with a write result that is 0 or negative as the `int` it is
stored in (a write is only made while bytes remain to be sent): it stops writing, closes the
channel and returns false; that call is followed by `close()` and by nothing else. -/
theorem writeAllData_nonpositive_write_closes (dev : Device σ) (cr : Crypto) (fuel : Nat)
    (data : List Byte) (s : σ) (buf : List Byte) (len res : Int)
    (hwrite : Event.write buf len res ∈ ((writeAllData fuel data).run dev cr s).trace)
    (hres : narrowToInt res ≤ 0) :
    ((writeAllData fuel data).run dev cr s).result = some false ∧
      (∃ pre, ((writeAllData fuel data).run dev cr s).trace
        = pre ++ [Event.write buf len res, Event.close]) ∧
      (∃ s0, ((writeAllData fuel data).run dev cr s).state = dev.close s0) ∧
      data ≠ [] :=
  ⟨(writeAllDataLoop_short_write dev cr data buf len res hres fuel 0 0 s hwrite).1,
    (writeAllDataLoop_short_write dev cr data buf len res hres fuel 0 0 s hwrite).2.1,
    (writeAllDataLoop_short_write dev cr data buf len res hres fuel 0 0 s hwrite).2.2,
    by
      rintro rfl
      revert hwrite
      unfold writeAllData
      rw [writeAllDataLoop_done dev cr [] fuel 0 0 s (by simp)]
      simp⟩

/-! ## The bytes a successful `writeAllData` hands to the channel -/

theorem MIN_le_left (a b : Int) : MIN a b ≤ a := by
  unfold MIN; split <;> omega

theorem MIN_le_right (a b : Int) : MIN a b ≤ b := by
  unfold MIN; split <;> omega

theorem MIN_eq_min (a b : Int) : MIN a b = min a b := by
  unfold MIN; split <;> omega

theorem acceptedBytes_cons_write (buf : List Byte) (len r : Int) (tr : List Event) :
    acceptedBytes (Event.write buf len r :: tr) = buf.take r.toNat ++ acceptedBytes tr := rfl

theorem acceptedBytes_cons_read (maxLen : Int) (x : Option (List Byte)) (tr : List Event) :
    acceptedBytes (Event.read maxLen x :: tr) = acceptedBytes tr := rfl

theorem acceptedBytes_nil : acceptedBytes [] = [] := rfl

theorem acceptedBytes_append (a b : List Event) :
    acceptedBytes (a ++ b) = acceptedBytes a ++ acceptedBytes b := by
  induction a with
  | nil => rfl
  | cons e a ih => cases e <;> simp [acceptedBytes, ih]

theorem acceptedBytes_eq_nil (tr : List Event)
    (h : ∀ e ∈ tr, ∀ buf len r, e ≠ Event.write buf len r) : acceptedBytes tr = [] := by
  induction tr with
  | nil => rfl
  | cons e tr ih =>
    have he := h e (List.mem_cons_self _ _)
    have := ih fun e' he' => h e' (List.mem_cons_of_mem _ he')
    cases e with
    | write buf len r => exact absurd rfl (he buf len r)
    | _ => simpa [acceptedBytes] using this

theorem acceptedBytes_flush (fl : List Event) (h : ∀ e ∈ fl, e.isFlushPoll = true) :
    acceptedBytes fl = [] :=
  acceptedBytes_eq_nil fl fun e he buf len r heq => by
    subst heq
    simpa [Event.isFlushPoll] using h _ he

theorem acceptedBytes_ready (rd : List Event) (h : ∀ e ∈ rd, e.isReadyEvent = true) :
    acceptedBytes rd = [] :=
  acceptedBytes_eq_nil rd fun e he buf len r heq => by
    subst heq
    simpa [Event.isReadyEvent, Event.isReadyPoll] using h _ he

theorem slice_take (data : List Byte) (w len r : Int) (hw : 0 ≤ w) (hr0 : 0 ≤ r)
    (hr : r ≤ len) :
    (slice data w len).take r.toNat ++ data.drop (w + r).toNat = data.drop w.toNat := by
  have h1 : (w + r).toNat = w.toNat + r.toNat := by omega
  have h2 : min r.toNat len.toNat = r.toNat := by omega
  rw [slice, List.take_take, h2, h1, ← List.drop_drop, List.take_append_drop]

theorem IO_MAX_CHUNK_eq : IO_MAX_CHUNK = 100 := rfl

/-- A `qint64` within the range of `int` is stored in an `int` unchanged. -/
theorem narrowToInt_eq (r : Int) (h1 : -2 ^ 31 ≤ r) (h2 : r < 2 ^ 31) : narrowToInt r = r := by
  unfold narrowToInt toSigned toUnsigned
  split <;> omega

/-- Under the loop invariant, a channel that accepts at most what it is offered accepts at most
the bytes that remain and at most the rest of the chunk. -/
theorem write_result_bounds (dev : Device σ) (hdev : dev.WritesBounded) (data : List Byte)
    (w c r : Int) (s s1 : σ) (h : w < data.length) (hc0 : 0 ≤ c) (hc : c < 100)
    (hwr : dev.write (slice data w (MIN (data.length - w) (IO_MAX_CHUNK - c)))
      (MIN (data.length - w) (IO_MAX_CHUNK - c)) s = (r, s1)) :
    r ≤ MIN (data.length - w) (IO_MAX_CHUNK - c) ∧ r ≤ data.length - w ∧ c + r ≤ 100 ∧
      1 ≤ MIN (data.length - w) (IO_MAX_CHUNK - c) ∧
      MIN (data.length - w) (IO_MAX_CHUNK - c) ≤ 100 - c ∧ narrowToInt r = r := by
  have h0 : 1 ≤ MIN (data.length - w) (IO_MAX_CHUNK - c) := by
    unfold MIN IO_MAX_CHUNK; split <;> omega
  have := hdev (slice data w (MIN (data.length - w) (IO_MAX_CHUNK - c)))
    (MIN (data.length - w) (IO_MAX_CHUNK - c)) s (by omega)
  rw [hwr] at this
  have h1 := MIN_le_left (data.length - w) (IO_MAX_CHUNK - c)
  have h2 : MIN (data.length - w) (IO_MAX_CHUNK - c) ≤ 100 - c :=
    MIN_le_right (data.length - w) (IO_MAX_CHUNK - c)
  have hr0 : -2 ^ 31 ≤ r := this.1
  exact ⟨this.2, by omega, by omega, h0, h2, narrowToInt_eq r hr0 (by omega)⟩

theorem writeAllDataLoop_accepted (dev : Device σ) (cr : Crypto) (data : List Byte)
    (hdev : dev.WritesBounded) (fuel : Nat) :
    ∀ (w c : Int) (s : σ), 0 ≤ w → 0 ≤ c → c < 100 →
      ((writeAllDataLoop data fuel w c).run dev cr s).result = some true →
      acceptedBytes ((writeAllDataLoop data fuel w c).run dev cr s).trace
        = data.drop w.toNat := by
  induction fuel with
  | zero =>
    intro w c s hw hc0 hc
    by_cases h : w < data.length
    · rw [writeAllDataLoop_zero dev cr data w c s h]
      simp
    · rw [writeAllDataLoop_done dev cr data 0 w c s h]
      split
      · simp
      · intro _
        have : data.length ≤ w.toNat := by omega
        simp [acceptedBytes, List.drop_eq_nil_of_le this]
  | succ fuel ih =>
    intro w c s hw hc0 hc
    by_cases h : w < data.length
    · obtain ⟨r, s1, hwr, hstep⟩ := writeAllDataLoop_step dev cr data fuel w c s h
      obtain ⟨hle, _, hcr, _, _, hn⟩ := write_result_bounds dev hdev data w c r s s1 h hc0 hc hwr
      rw [hn] at hstep
      rcases hstep with ⟨_, hrun⟩ | ⟨hr, fl, s2, hfl, hrun | ⟨hne, hrun⟩ |
        ⟨_, rd, s3, hrd, hrun | ⟨x, s4, _, ⟨_, hrun⟩ | ⟨_, hrun⟩⟩⟩⟩
      · rw [hrun]; simp
      · rw [hrun]; simp
      · rw [hrun]
        simp only [prefixed_trace, prefixed_result, List.cons_append, acceptedBytes_cons_write,
          acceptedBytes_append, acceptedBytes_flush fl hfl, List.nil_append]
        intro hres
        rw [IO_MAX_CHUNK_eq] at hne
        rw [ih _ _ _ (by omega) (by omega) (by omega) hres]
        exact slice_take data w _ r hw (by omega) hle
      · rw [hrun]; simp
      · rw [hrun]; simp
      · rw [hrun]
        simp only [prefixed_trace, prefixed_result, List.cons_append, acceptedBytes_cons_write,
          acceptedBytes_append, acceptedBytes_flush fl hfl, acceptedBytes_ready rd hrd,
          acceptedBytes_cons_read, acceptedBytes_nil, List.nil_append, List.append_nil]
        intro hres
        rw [ih _ _ _ (by omega) (le_refl 0) (by omega) hres]
        exact slice_take data w _ r hw (by omega) hle
    · rw [writeAllDataLoop_done dev cr data (fuel + 1) w c s h]
      split
      · simp
      · intro _
        have : data.length ≤ w.toNat := by omega
        simp [acceptedBytes, List.drop_eq_nil_of_le this]

/-- C13: on every channel whose `write(buf, k)` accepts at most `k` bytes, taken from the front
of `buf`, if `writeAllData(data)` returns true then the bytes accepted by the calls of
`socket->write`, concatenated in call order, are exactly `data`. -/
theorem writeAllData_sends_data (dev : Device σ) (cr : Crypto) (fuel : Nat) (data : List Byte)
    (s : σ) (hdev : dev.WritesBounded)
    (hres : ((writeAllData fuel data).run dev cr s).result = some true) :
    acceptedBytes ((writeAllData fuel data).run dev cr s).trace = data ∧
      (acceptedBytes ((writeAllData fuel data).run dev cr s).trace).length = data.length := by
  have h := writeAllDataLoop_accepted dev cr data hdev fuel 0 0 s (le_refl 0) (le_refl 0)
    (by decide) hres
  simp only [Int.toNat_zero, List.drop_zero] at h
  unfold writeAllData
  rw [h]
  exact ⟨rfl, rfl⟩

theorem endA_writesBounded : endA.WritesBounded := by
  intro buf len s hlen
  show -2 ^ 31 ≤ (if s.openA ∧ 0 ≤ len then _ else _ : Int × Loopback).1 ∧
    (if s.openA ∧ 0 ≤ len then _ else _ : Int × Loopback).1 ≤ len
  split
  · show -2 ^ 31 ≤ len ∧ len ≤ len
    omega
  · show -2 ^ 31 ≤ (-1 : Int) ∧ (-1 : Int) ≤ len
    omega

theorem endA_readsBounded : endA.ReadsBounded := by
  intro maxLen s bytes h
  change (if s.openA ∧ 0 ≤ maxLen then _ else _ : Option (List Byte) × Loopback).1 = some bytes
    at h
  split at h
  · rename_i h1
    simp only [Option.some.injEq] at h
    rw [← h, List.length_take]
    omega
  · simp at h

/-! ## The number of keepalive bytes a sender asks for -/

theorem writeAllDataLoop_keepalives (dev : Device σ) (cr : Crypto) (data : List Byte)
    (hdev : dev.WritesBounded) (fuel : Nat) :
    ∀ (w c : Int) (s : σ), 0 ≤ w → w ≤ data.length → 0 ≤ c → c < 100 →
      ((writeAllDataLoop data fuel w c).run dev cr s).result = some true →
      (readCalls ((writeAllDataLoop data fuel w c).run dev cr s).trace : Int)
        = (data.length - w + c) / 100 := by
  induction fuel with
  | zero =>
    intro w c s hw hws hc0 hc
    by_cases h : w < data.length
    · rw [writeAllDataLoop_zero dev cr data w c s h]
      simp
    · rw [writeAllDataLoop_done dev cr data 0 w c s h]
      split
      · simp
      · intro _
        simp only [readCalls_nil]
        omega
  | succ fuel ih =>
    intro w c s hw hws hc0 hc
    by_cases h : w < data.length
    · obtain ⟨r, s1, hwr, hstep⟩ := writeAllDataLoop_step dev cr data fuel w c s h
      obtain ⟨hle, hrw, hcr, _, _, hn⟩ := write_result_bounds dev hdev data w c r s s1 h hc0 hc hwr
      rw [hn] at hstep
      rcases hstep with ⟨_, hrun⟩ | ⟨hr, fl, s2, hfl, hrun | ⟨hne, hrun⟩ |
        ⟨heq, rd, s3, hrd, hrun | ⟨x, s4, _, ⟨_, hrun⟩ | ⟨_, hrun⟩⟩⟩⟩
      · rw [hrun]; simp
      · rw [hrun]; simp
      · rw [hrun]
        simp only [prefixed_trace, prefixed_result, List.cons_append, readCalls_cons_write,
          readCalls_append, readCalls_flush fl hfl]
        intro hres
        rw [IO_MAX_CHUNK_eq] at hne
        have := ih _ _ _ (by omega : 0 ≤ w + r) (by omega) (by omega : 0 ≤ c + r) (by omega) hres
        push_cast
        rw [this]
        omega
      · rw [hrun]; simp
      · rw [hrun]; simp
      · rw [hrun]
        simp only [prefixed_trace, prefixed_result, List.cons_append, readCalls_cons_write,
          readCalls_append, readCalls_flush fl hfl, readCalls_ready rd hrd, readCalls_cons_read,
          readCalls_nil]
        intro hres
        rw [IO_MAX_CHUNK_eq] at heq
        have := ih _ _ _ (by omega : 0 ≤ w + r) (by omega) (le_refl 0) (by omega) hres
        push_cast
        rw [this]
        omega
    · rw [writeAllDataLoop_done dev cr data (fuel + 1) w c s h]
      split
      · simp
      · intro _
        simp only [readCalls_nil]
        omega


/-! ## The chunk cursor of `writeAllData` -/

theorem writeMonitor_skip (size w c : Int) (pre tr : List Event)
    (h : ∀ e ∈ pre, (∀ buf len r, e ≠ Event.write buf len r) ∧
      ∀ maxLen x, e ≠ Event.read maxLen x) :
    writeMonitor size w c (pre ++ tr) = writeMonitor size w c tr := by
  induction pre with
  | nil => rfl
  | cons e pre ih =>
    have he := h e (List.mem_cons_self _ _)
    have := ih fun e' he' => h e' (List.mem_cons_of_mem _ he')
    cases e with
    | write buf len r => exact absurd rfl (he.1 buf len r)
    | read maxLen x => exact absurd rfl (he.2 maxLen x)
    | _ => simpa [writeMonitor] using this

theorem flush_neutral (fl : List Event) (h : ∀ e ∈ fl, e.isFlushPoll = true) :
    ∀ e ∈ fl, (∀ buf len r, e ≠ Event.write buf len r) ∧
      ∀ maxLen x, e ≠ Event.read maxLen x := by
  intro e he
  have := h e he
  constructor
  · intro buf len r heq
    subst heq
    simp [Event.isFlushPoll] at this
  · intro maxLen x heq
    subst heq
    simp [Event.isFlushPoll] at this

theorem ready_neutral (rd : List Event) (h : ∀ e ∈ rd, e.isReadyEvent = true) :
    ∀ e ∈ rd, (∀ buf len r, e ≠ Event.write buf len r) ∧
      ∀ maxLen x, e ≠ Event.read maxLen x := by
  intro e he
  have := h e he
  constructor
  · intro buf len r heq
    subst heq
    simp [Event.isReadyEvent, Event.isReadyPoll] at this
  · intro maxLen x heq
    subst heq
    simp [Event.isReadyEvent, Event.isReadyPoll] at this

theorem writeMonitor_write (size w c : Int) (buf : List Byte) (len r : Int) (tr : List Event) :
    writeMonitor size w c (Event.write buf len r :: tr)
      = (decide (0 ≤ c ∧ c < 100 ∧ 0 ≤ w ∧ w < size ∧
          len = min (size - w) (100 - c) ∧ 1 ≤ len ∧ len ≤ 100) &&
        writeMonitor size (w + max r 0) (c + max r 0) tr) := rfl

theorem writeMonitor_read (size w c : Int) (maxLen : Int) (x : Option (List Byte))
    (tr : List Event) :
    writeMonitor size w c (Event.read maxLen x :: tr)
      = (decide (c = 100) && writeMonitor size w 0 tr) := rfl

theorem writeMonitor_close (size w c : Int) (tr : List Event) :
    writeMonitor size w c (Event.close :: tr) = writeMonitor size w c tr := rfl

theorem writeMonitor_nil (size w c : Int) :
    writeMonitor size w c [] = decide (0 ≤ w ∧ w ≤ size) := rfl

theorem writeAllDataLoop_cursor (dev : Device σ) (cr : Crypto) (data : List Byte)
    (hdev : dev.WritesBounded) (fuel : Nat) :
    ∀ (w c : Int) (s : σ), 0 ≤ w → w ≤ data.length → 0 ≤ c → c < 100 →
      writeMonitor data.length w c ((writeAllDataLoop data fuel w c).run dev cr s).trace
        = true := by
  induction fuel with
  | zero =>
    intro w c s hw hws hc0 hc
    by_cases h : w < data.length
    · rw [writeAllDataLoop_zero dev cr data w c s h]
      simp [writeMonitor_nil, hw, hws]
    · rw [writeAllDataLoop_done dev cr data 0 w c s h]
      split <;> simp [writeMonitor_nil, writeMonitor_close, hw, hws]
  | succ fuel ih =>
    intro w c s hw hws hc0 hc
    by_cases h : w < data.length
    · obtain ⟨r, s1, hwr, hstep⟩ := writeAllDataLoop_step dev cr data fuel w c s h
      obtain ⟨hle, hrw, hcr, hlen1, hlen2, hn⟩ :=
        write_result_bounds dev hdev data w c r s s1 h hc0 hc hwr
      rw [hn] at hstep
      have hreq : decide (0 ≤ c ∧ c < 100 ∧ 0 ≤ w ∧ w < (data.length : Int) ∧
          MIN (data.length - w) (IO_MAX_CHUNK - c) = min ((data.length : Int) - w) (100 - c) ∧
          1 ≤ MIN (data.length - w) (IO_MAX_CHUNK - c) ∧
          MIN (data.length - w) (IO_MAX_CHUNK - c) ≤ 100) = true := by
        rw [decide_eq_true_eq]
        exact ⟨hc0, hc, hw, h, MIN_eq_min _ _, hlen1, by omega⟩
      rcases hstep with ⟨hr, hrun⟩ | ⟨hr, fl, s2, hfl, hrun | ⟨hne, hrun⟩ |
        ⟨heq, rd, s3, hrd, hrun | ⟨x, s4, _, ⟨_, hrun⟩ | ⟨_, hrun⟩⟩⟩⟩
      · rw [hrun]
        have hm : max r 0 = 0 := by omega
        simp only [writeMonitor_write, hreq, hm, writeMonitor_close, writeMonitor_nil,
          Bool.true_and, add_zero, decide_eq_true_eq]
        omega
      · rw [hrun]
        have hm : max r 0 = r := by omega
        have := writeMonitor_skip data.length (w + r) (c + r) fl [] (flush_neutral fl hfl)
        rw [List.append_nil] at this
        simp only [writeMonitor_write, hreq, hm, this, writeMonitor_nil, Bool.true_and,
          decide_eq_true_eq]
        omega
      · rw [hrun]
        have hm : max r 0 = r := by omega
        rw [IO_MAX_CHUNK_eq] at hne
        simp only [prefixed_trace, List.cons_append, writeMonitor_write, hreq, hm,
          writeMonitor_skip _ _ _ fl _ (flush_neutral fl hfl), Bool.true_and]
        exact ih _ _ _ (by omega) (by omega) (by omega) (by omega)
      · rw [hrun]
        have hm : max r 0 = r := by omega
        have := writeMonitor_skip data.length (w + r) (c + r) (fl ++ rd) []
          (by
            intro e he
            rcases List.mem_append.1 he with he | he
            · exact flush_neutral fl hfl e he
            · exact ready_neutral rd hrd e he)
        rw [List.append_nil] at this
        simp only [writeMonitor_write, hreq, hm, this, writeMonitor_nil, Bool.true_and,
          decide_eq_true_eq]
        omega
      · rw [hrun]
        have hm : max r 0 = r := by omega
        rw [IO_MAX_CHUNK_eq] at heq
        simp only [writeMonitor_write, hreq, hm, List.append_assoc,
          writeMonitor_skip _ _ _ fl _ (flush_neutral fl hfl),
          writeMonitor_skip _ _ _ rd _ (ready_neutral rd hrd), List.cons_append,
          List.nil_append, writeMonitor_read, writeMonitor_close, writeMonitor_nil,
          Bool.true_and, heq, decide_True, decide_eq_true_eq]
        omega
      · rw [hrun]
        have hm : max r 0 = r := by omega
        rw [IO_MAX_CHUNK_eq] at heq
        simp only [prefixed_trace, writeMonitor_write, hreq, hm, List.append_assoc,
          writeMonitor_skip _ _ _ fl _ (flush_neutral fl hfl),
          writeMonitor_skip _ _ _ rd _ (ready_neutral rd hrd), List.cons_append,
          List.nil_append, writeMonitor_read, Bool.true_and, heq, decide_True]
        exact ih _ _ _ (by omega) (by omega) (le_refl 0) (by omega)
    · rw [writeAllDataLoop_done dev cr data (fuel + 1) w c s h]
      split <;> simp [writeMonitor_nil, writeMonitor_close, hw, hws]

/-! ## One iteration of the loops of `readAllData` -/

theorem store_length (data : List Byte) (off : Int) (bytes : List Byte) :
    (store data off bytes).length = data.length := by
  unfold store
  simp only [List.length_take, List.length_append, List.length_drop]
  omega

theorem store_take (data : List Byte) (off : Int) (bytes : List Byte) (h0 : 0 ≤ off)
    (h1 : off + bytes.length ≤ data.length) :
    (store data off bytes).take (off + bytes.length).toNat = data.take off.toNat ++ bytes := by
  unfold store
  have hlen : (data.take off.toNat ++ bytes).length = (off + bytes.length).toNat := by
    simp only [List.length_append, List.length_take]
    omega
  rw [List.take_take]
  have hmin : min (off + bytes.length).toNat data.length = (off + bytes.length).toNat := by
    omega
  rw [hmin, ← hlen, List.take_left']
  rfl

theorem readAllDataDoWhile_zero (dev : Device σ) (cr : Crypto) (v : ReadVars) (s : σ) :
    (readAllDataDoWhile 0 v).run dev cr s = ⟨none, s, []⟩ := by
  rw [readAllDataDoWhile]
  rfl

/-- What one iteration of the `do ... while` loop of `readAllData` does: the read request, and
then a `return`, the end of the loop or the next iteration, with the keepalive write and its
flush in between when the chunk is full. -/
theorem readAllDataDoWhile_step (dev : Device σ) (cr : Crypto) (fuel : Nat) (v : ReadVars)
    (s : σ) :
    ∃ x s1, dev.read (MIN (v.data.length - v.readSoFar) (IO_MAX_CHUNK - v.chunkSoFar)) s
        = (x, s1) ∧
      ((x = none ∧ (readAllDataDoWhile (fuel + 1) v).run dev cr s
          = ⟨some (.returned (false, v.data)), s1,
              [Event.read (MIN (v.data.length - v.readSoFar) (IO_MAX_CHUNK - v.chunkSoFar))
                x]⟩) ∨
        ∃ bytes, x = some bytes ∧
          ((v.chunkSoFar + bytes.length = IO_MAX_CHUNK ∧ ∃ r fl s3,
              (∀ e ∈ fl, e.isFlushPoll = true) ∧
              (readAllDataDoWhile (fuel + 1) v).run dev cr s
                = ⟨some (.returned (false, store v.data v.readSoFar bytes)), dev.close s3,
                    Event.read (MIN (v.data.length - v.readSoFar)
                        (IO_MAX_CHUNK - v.chunkSoFar)) x ::
                      Event.write [0] 1 r :: (fl ++ [Event.close])⟩) ∨
            ∃ mid s2,
              ((v.chunkSoFar + bytes.length = IO_MAX_CHUNK ∧ ∃ r fl,
                  (∀ e ∈ fl, e.isFlushPoll = true) ∧ mid = Event.write [0] 1 r :: fl) ∨
                (v.chunkSoFar + bytes.length ≠ IO_MAX_CHUNK ∧ mid = [])) ∧
              (((0 : Int) < bytes.length ∧ v.readSoFar + bytes.length < v.data.length ∧
                  (readAllDataDoWhile (fuel + 1) v).run dev cr s
                    = ((readAllDataDoWhile fuel
                        ⟨v.readSoFar + bytes.length,
                          if v.chunkSoFar + bytes.length = IO_MAX_CHUNK then 0
                          else v.chunkSoFar + bytes.length,
                          store v.data v.readSoFar bytes⟩).run dev cr s2).prefixed
                        (Event.read (MIN (v.data.length - v.readSoFar)
                          (IO_MAX_CHUNK - v.chunkSoFar)) x :: mid)) ∨
                (¬ ((0 : Int) < bytes.length ∧ v.readSoFar + bytes.length < v.data.length) ∧
                  (readAllDataDoWhile (fuel + 1) v).run dev cr s
                    = ⟨some (.left ⟨v.readSoFar + bytes.length,
                          if v.chunkSoFar + bytes.length = IO_MAX_CHUNK then 0
                          else v.chunkSoFar + bytes.length,
                          store v.data v.readSoFar bytes⟩), s2,
                        Event.read (MIN (v.data.length - v.readSoFar)
                          (IO_MAX_CHUNK - v.chunkSoFar)) x :: mid⟩)))) := by
  rw [readAllDataDoWhile]
  simp only [run_bind_op, run_read, Outcome.seq]
  generalize MIN (v.data.length - v.readSoFar) (IO_MAX_CHUNK - v.chunkSoFar) = len
  generalize dev.read len s = rd
  rcases rd with ⟨x, s1⟩
  refine ⟨x, s1, rfl, ?_⟩
  simp only
  cases x with
  | none =>
    left
    simp
  | some bytes =>
    right
    refine ⟨bytes, rfl, ?_⟩
    have hneg : ¬ ((bytes.length : Int) < 0) := by omega
    simp only [hneg, if_false, Option.getD_some, store_length]
    by_cases h1 : v.chunkSoFar + bytes.length = IO_MAX_CHUNK
    · simp only [h1, if_true, run_bind_op, run_write, Outcome.seq]
      obtain ⟨⟨b, hb⟩, hfl⟩ := waitForBytesWritten_run dev cr 1000 (dev.write [0] 1 s1).2
      simp only [hb]
      cases b
      · left
        refine ⟨trivial, (dev.write [0] 1 s1).1, _,
          ((waitForBytesWritten 1000).run dev cr (dev.write [0] 1 s1).2).state, hfl, ?_⟩
        simp [Outcome.seq]
      · right
        refine ⟨Event.write [0] 1 (dev.write [0] 1 s1).1 ::
          ((waitForBytesWritten 1000).run dev cr (dev.write [0] 1 s1).2).trace,
          ((waitForBytesWritten 1000).run dev cr (dev.write [0] 1 s1).2).state,
          Or.inl ⟨trivial, _, _, hfl, rfl⟩, ?_⟩
        by_cases h2 : (0 : Int) < bytes.length ∧ v.readSoFar + bytes.length < v.data.length
        · left
          refine ⟨h2.1, h2.2, ?_⟩
          simp [h2, Outcome.prefixed]
        · right
          refine ⟨h2, ?_⟩
          have h2n : ¬ (0 < bytes.length ∧ v.readSoFar + bytes.length < v.data.length) :=
            fun hh => h2 ⟨by omega, hh.2⟩
          simp [h2n]
    · right
      refine ⟨[], s1, Or.inr ⟨h1, rfl⟩, ?_⟩
      simp only [h1, if_false]
      by_cases h2 : (0 : Int) < bytes.length ∧ v.readSoFar + bytes.length < v.data.length
      · left
        refine ⟨h2.1, h2.2, ?_⟩
        simp [h2, Outcome.prefixed]
      · right
        refine ⟨h2, ?_⟩
        have h2n : ¬ (0 < bytes.length ∧ v.readSoFar + bytes.length < v.data.length) :=
          fun hh => h2 ⟨by omega, hh.2⟩
        simp [h2n]

/-! ## What the `do ... while` loop of `readAllData` leaves behind -/

theorem receivedBytes_cons_read (maxLen : Int) (x : Option (List Byte)) (tr : List Event) :
    receivedBytes (Event.read maxLen x :: tr) = x.getD [] ++ receivedBytes tr := rfl

theorem receivedBytes_cons_write (buf : List Byte) (len r : Int) (tr : List Event) :
    receivedBytes (Event.write buf len r :: tr) = receivedBytes tr := rfl

theorem receivedBytes_nil : receivedBytes [] = [] := rfl

theorem receivedBytes_append (a b : List Event) :
    receivedBytes (a ++ b) = receivedBytes a ++ receivedBytes b := by
  induction a with
  | nil => rfl
  | cons e a ih => cases e <;> simp [receivedBytes, ih]

theorem receivedBytes_eq_nil (tr : List Event)
    (h : ∀ e ∈ tr, ∀ maxLen x, e ≠ Event.read maxLen x) : receivedBytes tr = [] := by
  induction tr with
  | nil => rfl
  | cons e tr ih =>
    have he := h e (List.mem_cons_self _ _)
    have := ih fun e' he' => h e' (List.mem_cons_of_mem _ he')
    cases e with
    | read maxLen x => exact absurd rfl (he maxLen x)
    | _ => simpa [receivedBytes] using this

theorem receivedBytes_flush (fl : List Event) (h : ∀ e ∈ fl, e.isFlushPoll = true) :
    receivedBytes fl = [] :=
  receivedBytes_eq_nil fl fun e he => (flush_neutral fl h e he).2

theorem receivedBytes_ready (rd : List Event) (h : ∀ e ∈ rd, e.isReadyEvent = true) :
    receivedBytes rd = [] :=
  receivedBytes_eq_nil rd fun e he => (ready_neutral rd h e he).2

theorem readMonitor_skip (size w c : Int) (pre tr : List Event)
    (h : ∀ e ∈ pre, (∀ buf len r, e ≠ Event.write buf len r) ∧
      ∀ maxLen x, e ≠ Event.read maxLen x) :
    readMonitor size w c (pre ++ tr) = readMonitor size w c tr := by
  induction pre with
  | nil => rfl
  | cons e pre ih =>
    have he := h e (List.mem_cons_self _ _)
    have := ih fun e' he' => h e' (List.mem_cons_of_mem _ he')
    cases e with
    | write buf len r => exact absurd rfl (he.1 buf len r)
    | read maxLen x => exact absurd rfl (he.2 maxLen x)
    | _ => simpa [readMonitor] using this

theorem readMonitor_read (size w c : Int) (maxLen : Int) (x : Option (List Byte))
    (tr : List Event) :
    readMonitor size w c (Event.read maxLen x :: tr)
      = (decide (0 ≤ c ∧ c < 100 ∧ 0 ≤ w ∧ w < size ∧
          maxLen = min (size - w) (100 - c) ∧ 1 ≤ maxLen ∧ maxLen ≤ 100) &&
        readMonitor size (w + (x.getD []).length) (c + (x.getD []).length) tr) := rfl

theorem readMonitor_write (size w c : Int) (buf : List Byte) (len r : Int) (tr : List Event) :
    readMonitor size w c (Event.write buf len r :: tr)
      = (decide (c = 100 ∧ buf = [0] ∧ len = 1) && readMonitor size w 0 tr) := rfl

theorem readMonitor_close (size w c : Int) (tr : List Event) :
    readMonitor size w c (Event.close :: tr) = readMonitor size w c tr := rfl

theorem readMonitor_nil (size w c : Int) :
    readMonitor size w c [] = decide (0 ≤ w ∧ w ≤ size) := rfl

/-- Under the loop invariant, a read from a channel that gives at most what is asked for stays
within the bytes that remain and within the chunk. -/
theorem read_result_bounds (dev : Device σ) (hdev : dev.ReadsBounded) (v : ReadVars)
    (bytes : List Byte) (s s1 : σ) (h : v.readSoFar < v.data.length) (hc : v.chunkSoFar < 100)
    (hrd : dev.read (MIN (v.data.length - v.readSoFar) (IO_MAX_CHUNK - v.chunkSoFar)) s
      = (some bytes, s1)) :
    (bytes.length : Int) ≤ v.data.length - v.readSoFar ∧ v.chunkSoFar + bytes.length ≤ 100 ∧
      1 ≤ MIN (v.data.length - v.readSoFar) (IO_MAX_CHUNK - v.chunkSoFar) ∧
      MIN (v.data.length - v.readSoFar) (IO_MAX_CHUNK - v.chunkSoFar) ≤ 100 - v.chunkSoFar := by
  have h0 : 1 ≤ MIN (v.data.length - v.readSoFar) (IO_MAX_CHUNK - v.chunkSoFar) := by
    unfold MIN IO_MAX_CHUNK; split <;> omega
  have := hdev (MIN (v.data.length - v.readSoFar) (IO_MAX_CHUNK - v.chunkSoFar)) s bytes
    (by rw [hrd])
  have h1 := MIN_le_left (v.data.length - v.readSoFar) (IO_MAX_CHUNK - v.chunkSoFar)
  have h2 : MIN (v.data.length - v.readSoFar) (IO_MAX_CHUNK - v.chunkSoFar)
      ≤ 100 - v.chunkSoFar := MIN_le_right _ _
  exact ⟨by omega, by omega, h0, h2⟩

/-- The `do ... while` loop of `readAllData`, entered with the loop invariant on a channel that
gives at most what is asked for. When the loop is left through its condition, the invariant
holds again, the buffer has its size, its first `readSoFar` bytes are the old ones followed by
the bytes read, one keepalive was written per full chunk, and the chunk cursor followed along
the trace arrives at the new loop variables. Otherwise the loop returned false or ran out of
fuel, and the cursor followed along the trace met every check. -/
theorem readAllDataDoWhile_summary (dev : Device σ) (cr : Crypto) (hdev : dev.ReadsBounded)
    (fuel : Nat) :
    ∀ (v : ReadVars) (s : σ), 0 ≤ v.readSoFar → v.readSoFar < v.data.length →
      0 ≤ v.chunkSoFar → v.chunkSoFar < 100 →
      (∀ v1, ((readAllDataDoWhile fuel v).run dev cr s).result = some (.left v1) →
        v1.data.length = v.data.length ∧ v.readSoFar ≤ v1.readSoFar ∧
        v1.readSoFar ≤ v.data.length ∧ 0 ≤ v1.chunkSoFar ∧ v1.chunkSoFar < 100 ∧
        v1.data.take v1.readSoFar.toNat = v.data.take v.readSoFar.toNat
          ++ receivedBytes ((readAllDataDoWhile fuel v).run dev cr s).trace ∧
        100 * (writeCalls ((readAllDataDoWhile fuel v).run dev cr s).trace : Int)
          + v1.chunkSoFar = v1.readSoFar - v.readSoFar + v.chunkSoFar ∧
        ∀ rest, readMonitor v.data.length v.readSoFar v.chunkSoFar
            (((readAllDataDoWhile fuel v).run dev cr s).trace ++ rest)
          = readMonitor v.data.length v1.readSoFar v1.chunkSoFar rest) ∧
      ((∀ v1, ((readAllDataDoWhile fuel v).run dev cr s).result ≠ some (.left v1)) →
        readMonitor v.data.length v.readSoFar v.chunkSoFar
          ((readAllDataDoWhile fuel v).run dev cr s).trace = true) ∧
      (∀ r, ((readAllDataDoWhile fuel v).run dev cr s).result = some (.returned r) →
        r.1 = false) := by
  induction fuel with
  | zero =>
    intro v s h0 h1 h2 h3
    rw [readAllDataDoWhile_zero]
    simp [readMonitor_nil]
    omega
  | succ fuel ih =>
    intro v s h0 h1 h2 h3
    obtain ⟨x, s1, hrd, hstep⟩ := readAllDataDoWhile_step dev cr fuel v s
    have hlen1 : 1 ≤ MIN (v.data.length - v.readSoFar) (IO_MAX_CHUNK - v.chunkSoFar) := by
      unfold MIN IO_MAX_CHUNK; split <;> omega
    have hlen2 : MIN (v.data.length - v.readSoFar) (IO_MAX_CHUNK - v.chunkSoFar) ≤ 100 := by
      have : MIN (v.data.length - v.readSoFar) (IO_MAX_CHUNK - v.chunkSoFar)
          ≤ 100 - v.chunkSoFar := MIN_le_right _ _
      omega
    have hreq : decide (0 ≤ v.chunkSoFar ∧ v.chunkSoFar < 100 ∧ 0 ≤ v.readSoFar ∧
        v.readSoFar < (v.data.length : Int) ∧
        MIN (v.data.length - v.readSoFar) (IO_MAX_CHUNK - v.chunkSoFar)
          = min ((v.data.length : Int) - v.readSoFar) (100 - v.chunkSoFar) ∧
        1 ≤ MIN (v.data.length - v.readSoFar) (IO_MAX_CHUNK - v.chunkSoFar) ∧
        MIN (v.data.length - v.readSoFar) (IO_MAX_CHUNK - v.chunkSoFar) ≤ 100) = true := by
      rw [decide_eq_true_eq]
      exact ⟨h2, h3, h0, h1, MIN_eq_min _ _, hlen1, hlen2⟩
    rcases hstep with ⟨hx, hrun⟩ | ⟨bytes, hx, hstep⟩
    · rw [hrun]
      subst hx
      refine ⟨by simp, fun _ => ?_, by simp⟩
      simp only [readMonitor_read, hreq, Bool.true_and, Option.getD_none, List.length_nil,
        Int.ofNat_zero, Nat.cast_zero, add_zero, readMonitor_nil, decide_eq_true_eq]
      omega
    · subst hx
      obtain ⟨hb1, hb2, _, _⟩ := read_result_bounds dev hdev v bytes s s1 h1 h3 hrd
      rcases hstep with ⟨hfull, r, fl, s3, hfl, hrun⟩ | ⟨mid, s2, hmid, hrun⟩
      · rw [hrun]
        refine ⟨by simp, fun _ => ?_, by simp⟩
        rw [IO_MAX_CHUNK_eq] at hfull
        simp only [readMonitor_read, hreq, Bool.true_and, Option.getD_some, readMonitor_write,
          hfull, decide_True, readMonitor_skip _ _ _ fl _ (flush_neutral fl hfl),
          readMonitor_close, readMonitor_nil, decide_eq_true_eq, and_self]
        omega
      · generalize hnc : (if v.chunkSoFar + (bytes.length : Int) = IO_MAX_CHUNK then 0
            else v.chunkSoFar + (bytes.length : Int)) = nc at hrun
        have hm : 0 ≤ nc ∧ nc < 100 ∧ receivedBytes mid = [] ∧
            100 * (writeCalls mid : Int) + nc = v.chunkSoFar + bytes.length ∧
            ∀ tr, readMonitor v.data.length (v.readSoFar + bytes.length)
                (v.chunkSoFar + bytes.length) (mid ++ tr)
              = readMonitor v.data.length (v.readSoFar + bytes.length) nc tr := by
          rcases hmid with ⟨hfull, r, fl, hfl, rfl⟩ | ⟨hne, rfl⟩
          · rw [if_pos hfull] at hnc
            subst hnc
            rw [IO_MAX_CHUNK_eq] at hfull
            refine ⟨le_refl 0, by decide, ?_, ?_, ?_⟩
            · rw [receivedBytes_cons_write, receivedBytes_flush fl hfl]
            · rw [writeCalls_cons_write, writeCalls_flush fl hfl]
              omega
            · intro tr
              simp only [List.cons_append, readMonitor_write, hfull, decide_True, and_self,
                Bool.true_and, readMonitor_skip _ _ _ fl _ (flush_neutral fl hfl)]
          · rw [if_neg hne] at hnc
            subst hnc
            rw [IO_MAX_CHUNK_eq] at hne
            refine ⟨by omega, by omega, rfl, ?_, fun tr => rfl⟩
            rw [writeCalls_nil]
            omega
        obtain ⟨hnc0, hnc1, hmr, hmw, hmm⟩ := hm
        have hst := store_take v.data v.readSoFar bytes h0 (by omega)
        rcases hrun with ⟨hpos, hlt, hrun⟩ | ⟨_, hrun⟩
        · rw [hrun]
          obtain ⟨ihA, ihB, ihC⟩ := ih ⟨v.readSoFar + bytes.length, nc,
            store v.data v.readSoFar bytes⟩ s2 (by simp only; omega)
            (by simp only [store_length]; omega) hnc0 hnc1
          simp only [store_length] at ihA ihB ihC
          simp only [prefixed_result, prefixed_trace]
          refine ⟨fun v1 hv1 => ?_, fun hno => ?_, ihC⟩
          · obtain ⟨a1, a2, a3, a4, a5, a6, a7, a8⟩ := ihA v1 hv1
            refine ⟨a1, by omega, a3, a4, a5, ?_, ?_, fun rest => ?_⟩
            · rw [a6, hst]
              simp only [List.cons_append, receivedBytes_cons_read, Option.getD_some,
                receivedBytes_append, hmr, List.nil_append, List.append_assoc]
            · simp only [List.cons_append, writeCalls_cons_read, writeCalls_append]
              push_cast
              omega
            · simp only [List.cons_append, List.append_assoc, readMonitor_read, hreq,
                Bool.true_and, Option.getD_some, hmm, a8]
          · simp only [List.cons_append, readMonitor_read, hreq, Bool.true_and,
              Option.getD_some, hmm]
            exact ihB hno
        · rw [hrun]
          refine ⟨fun v1 hv1 => ?_, fun hno => ?_, by simp⟩
          · simp only [Option.some.injEq, Flow.left.injEq] at hv1
            subst hv1
            simp only [store_length]
            refine ⟨trivial, by omega, by omega, hnc0, hnc1, ?_, ?_, fun rest => ?_⟩
            · rw [hst]
              simp only [receivedBytes_cons_read, Option.getD_some, hmr, List.append_nil]
            · simp only [writeCalls_cons_read]
              omega
            · simp only [List.cons_append, readMonitor_read, hreq, Bool.true_and,
                Option.getD_some, hmm]
          · exact absurd rfl (hno _)

/-! ## The `while` loop of `readAllData` -/

theorem readAllDataLoop_done (dev : Device σ) (cr : Crypto) (inner fuel : Nat) (v : ReadVars)
    (s : σ) (h : ¬ v.readSoFar < v.data.length) :
    (readAllDataLoop inner fuel v).run dev cr s = ⟨some (true, v.data), s, []⟩ := by
  unfold readAllDataLoop
  simp only [h, if_false, run_pure]

theorem readAllDataLoop_zero (dev : Device σ) (cr : Crypto) (inner : Nat) (v : ReadVars)
    (s : σ) (h : v.readSoFar < v.data.length) :
    (readAllDataLoop inner 0 v).run dev cr s = ⟨none, s, []⟩ := by
  unfold readAllDataLoop
  simp only [h, if_true, run_outOfFuel]

/-- What one iteration of the `while` loop of `readAllData` does after its `do ... while`
loop. -/
theorem readAllDataLoop_step (dev : Device σ) (cr : Crypto) (inner fuel : Nat) (v : ReadVars)
    (s : σ) (h : v.readSoFar < v.data.length) :
    (((readAllDataDoWhile inner v).run dev cr s).result = none ∧
        (readAllDataLoop inner (fuel + 1) v).run dev cr s
          = ⟨none, ((readAllDataDoWhile inner v).run dev cr s).state,
              ((readAllDataDoWhile inner v).run dev cr s).trace⟩) ∨
      (∃ r, ((readAllDataDoWhile inner v).run dev cr s).result = some (.returned r) ∧
        (readAllDataLoop inner (fuel + 1) v).run dev cr s
          = ⟨some r, ((readAllDataDoWhile inner v).run dev cr s).state,
              ((readAllDataDoWhile inner v).run dev cr s).trace⟩) ∨
      (∃ v1, ((readAllDataDoWhile inner v).run dev cr s).result = some (.left v1) ∧
        ((v1.readSoFar < v1.data.length ∧ ∃ polls s2, (∀ e ∈ polls, e.isReadyEvent = true) ∧
            Event.note (.waitForReadyRead 2500 false) ∈ polls ∧
            (readAllDataLoop inner (fuel + 1) v).run dev cr s
              = ⟨some (false, v1.data), dev.close s2,
                  ((readAllDataDoWhile inner v).run dev cr s).trace ++ polls
                    ++ [Event.close]⟩) ∨
          (v1.readSoFar < v1.data.length ∧ ∃ polls s2, (∀ e ∈ polls, e.isReadyEvent = true) ∧
            (readAllDataLoop inner (fuel + 1) v).run dev cr s
              = ((readAllDataLoop inner fuel v1).run dev cr s2).prefixed
                  (((readAllDataDoWhile inner v).run dev cr s).trace ++ polls)) ∨
          (¬ v1.readSoFar < v1.data.length ∧
            (readAllDataLoop inner (fuel + 1) v).run dev cr s
              = ((readAllDataLoop inner fuel v1).run dev cr
                  ((readAllDataDoWhile inner v).run dev cr s).state).prefixed
                  ((readAllDataDoWhile inner v).run dev cr s).trace))) := by
  rw [readAllDataLoop]
  simp only [h, if_true, run_bind_op, Outcome.seq]
  generalize (readAllDataDoWhile inner v).run dev cr s = o
  rcases o with ⟨_ | fl, t, tr⟩
  · left
    simp
  · right
    cases fl with
    | returned r =>
      left
      exact ⟨r, rfl, by simp⟩
    | left v1 =>
      right
      refine ⟨v1, rfl, ?_⟩
      simp only
      by_cases h1 : v1.readSoFar < v1.data.length
      · have hfp := (waitForReadyRead_only 2500).run dev cr t
        obtain ⟨b, polls, hb, htr, _⟩ := waitForReadyRead_run dev cr 2500 t
        simp only [h1, if_true, run_bind_op, Outcome.seq, hb]
        cases b
        · left
          refine ⟨trivial, _, ((waitForReadyRead 2500).run dev cr t).state, hfp, ?_, ?_⟩
          · rw [htr]; simp
          · simp [Outcome.seq]
        · right; left
          refine ⟨trivial, _, ((waitForReadyRead 2500).run dev cr t).state, hfp, ?_⟩
          simp [Outcome.prefixed]
      · right; right
        refine ⟨h1, ?_⟩
        simp [h1, Outcome.prefixed]

/-- The loop of `readAllData`, entered with the loop invariant on a channel that gives at most
what is asked for. If it returns true, the buffer is the old first `readSoFar` bytes followed
by the bytes read, and one keepalive was written per full chunk. In every case the chunk cursor
followed along the trace meets every check. -/
theorem readAllDataLoop_summary (dev : Device σ) (cr : Crypto) (hdev : dev.ReadsBounded)
    (inner fuel : Nat) :
    ∀ (v : ReadVars) (s : σ), 0 ≤ v.readSoFar → v.readSoFar ≤ v.data.length →
      0 ≤ v.chunkSoFar → v.chunkSoFar < 100 →
      (∀ buf, ((readAllDataLoop inner fuel v).run dev cr s).result = some (true, buf) →
        buf.length = v.data.length ∧
        buf = v.data.take v.readSoFar.toNat
          ++ receivedBytes ((readAllDataLoop inner fuel v).run dev cr s).trace ∧
        (writeCalls ((readAllDataLoop inner fuel v).run dev cr s).trace : Int)
          = (v.data.length - v.readSoFar + v.chunkSoFar) / 100) ∧
      readMonitor v.data.length v.readSoFar v.chunkSoFar
        ((readAllDataLoop inner fuel v).run dev cr s).trace = true := by
  have hdone : ∀ (fuel : Nat) (v : ReadVars) (s : σ), 0 ≤ v.readSoFar →
      v.readSoFar ≤ v.data.length → 0 ≤ v.chunkSoFar → v.chunkSoFar < 100 →
      ¬ v.readSoFar < v.data.length →
      (∀ buf, ((readAllDataLoop inner fuel v).run dev cr s).result = some (true, buf) →
        buf.length = v.data.length ∧
        buf = v.data.take v.readSoFar.toNat
          ++ receivedBytes ((readAllDataLoop inner fuel v).run dev cr s).trace ∧
        (writeCalls ((readAllDataLoop inner fuel v).run dev cr s).trace : Int)
          = (v.data.length - v.readSoFar + v.chunkSoFar) / 100) ∧
      readMonitor v.data.length v.readSoFar v.chunkSoFar
        ((readAllDataLoop inner fuel v).run dev cr s).trace = true := by
    intro fuel v s h0 h1 h2 h3 h
    rw [readAllDataLoop_done dev cr inner fuel v s h]
    refine ⟨fun buf hbuf => ?_, ?_⟩
    · simp only [Option.some.injEq, Prod.mk.injEq, true_and] at hbuf
      subst hbuf
      have : v.data.length ≤ v.readSoFar.toNat := by omega
      refine ⟨rfl, ?_, ?_⟩
      · rw [receivedBytes_nil, List.append_nil, List.take_of_length_le this]
      · rw [writeCalls_nil]
        omega
    · simp only [readMonitor_nil, decide_eq_true_eq]
      omega
  induction fuel with
  | zero =>
    intro v s h0 h1 h2 h3
    by_cases h : v.readSoFar < v.data.length
    · rw [readAllDataLoop_zero dev cr inner v s h]
      refine ⟨by simp, ?_⟩
      simp only [readMonitor_nil, decide_eq_true_eq]
      omega
    · exact hdone 0 v s h0 h1 h2 h3 h
  | succ fuel ih =>
    intro v s h0 h1 h2 h3
    by_cases h : v.readSoFar < v.data.length
    · obtain ⟨sA, sB, sC⟩ := readAllDataDoWhile_summary dev cr hdev inner v s h0 h h2 h3
      rcases readAllDataLoop_step dev cr inner fuel v s h with
        ⟨hres, hrun⟩ | ⟨r, hres, hrun⟩ | ⟨v1, hres, hcase⟩
      · rw [hrun]
        refine ⟨by simp, sB fun v1 hv1 => ?_⟩
        rw [hres] at hv1
        cases hv1
      · rw [hrun]
        refine ⟨fun buf hbuf => ?_, sB fun v1 hv1 => ?_⟩
        · have := sC r hres
          simp only [Option.some.injEq] at hbuf
          rw [hbuf] at this
          cases this
        · rw [hres] at hv1
          cases hv1
      · obtain ⟨a1, a2, a3, a4, a5, a6, a7, a8⟩ := sA v1 hres
        rcases hcase with ⟨_, polls, s2, hpolls, _, hrun⟩ | ⟨_, polls, s2, hpolls, hrun⟩ |
          ⟨_, hrun⟩
        · rw [hrun]
          refine ⟨by simp, ?_⟩
          rw [List.append_assoc, a8, readMonitor_skip _ _ _ polls _ (ready_neutral polls hpolls),
            readMonitor_close, readMonitor_nil, decide_eq_true_eq]
          omega
        · rw [hrun]
          obtain ⟨iA, iB⟩ := ih v1 s2 (by omega) (by omega) a4 a5
          rw [a1] at iA iB
          simp only [prefixed_result, prefixed_trace]
          refine ⟨fun buf hbuf => ?_, ?_⟩
          · obtain ⟨b1, b2, b3⟩ := iA buf hbuf
            refine ⟨b1, ?_, ?_⟩
            · rw [b2, a6]
              simp only [receivedBytes_append, receivedBytes_ready polls hpolls,
                List.append_nil, List.nil_append, List.append_assoc]
            · simp only [writeCalls_append, writeCalls_ready polls hpolls]
              push_cast
              omega
          · rw [List.append_assoc, a8,
              readMonitor_skip _ _ _ polls _ (ready_neutral polls hpolls)]
            exact iB
        · rw [hrun]
          obtain ⟨iA, iB⟩ := ih v1 ((readAllDataDoWhile inner v).run dev cr s).state
            (by omega) (by omega) a4 a5
          rw [a1] at iA iB
          simp only [prefixed_result, prefixed_trace]
          refine ⟨fun buf hbuf => ?_, ?_⟩
          · obtain ⟨b1, b2, b3⟩ := iA buf hbuf
            refine ⟨b1, ?_, ?_⟩
            · rw [b2, a6]
              simp only [receivedBytes_append, List.append_assoc]
            · simp only [writeCalls_append]
              push_cast
              omega
          · rw [a8]
            exact iB
    · exact hdone (fuel + 1) v s h0 h1 h2 h3 h


/-! ## `readAllData` as a whole -/

/-- The guard before the first read, then the loop. -/
theorem readAllData_run (dev : Device σ) (cr : Crypto) (fuel : Nat) (data : List Byte) (s : σ) :
    ∃ rd s1, (∀ e ∈ rd, e.isReadyEvent = true) ∧
      ((readAllData fuel data).run dev cr s = ⟨some (false, data), s1, rd⟩ ∨
        (readAllData fuel data).run dev cr s
          = ((readAllDataLoop fuel fuel ⟨0, 0, data⟩).run dev cr s1).prefixed rd) := by
  obtain ⟨b, hb, _⟩ := notAvailableNorReady_run dev cr 2500 s
  have hfp := (notAvailableNorReady_only 2500).run dev cr s
  refine ⟨_, ((notAvailableNorReady 2500).run dev cr s).state, hfp, ?_⟩
  unfold readAllData
  simp only [run_bind_op, Outcome.seq, hb]
  cases b
  · right
    simp [Outcome.prefixed]
  · left
    simp

theorem readMonitor_writes (size : Int) (tr : List Event) :
    ∀ (w c : Int), readMonitor size w c tr = true →
      ∀ buf len r, Event.write buf len r ∈ tr → buf = [(0 : Byte)] ∧ len = 1 := by
  induction tr with
  | nil => intro w c _ buf len r h; simp at h
  | cons e tr ih =>
    intro w c hm buf len r hmem
    cases e with
    | write b l x =>
      simp only [readMonitor_write, Bool.and_eq_true, decide_eq_true_eq] at hm
      rcases List.mem_cons.1 hmem with heq | hin
      · cases heq
        exact ⟨hm.1.2.1, hm.1.2.2⟩
      · exact ih _ _ hm.2 buf len r hin
    | read maxLen x =>
      simp only [readMonitor_read, Bool.and_eq_true] at hm
      rcases List.mem_cons.1 hmem with heq | hin
      · cases heq
      · exact ih _ _ hm.2 buf len r hin
    | _ =>
      rcases List.mem_cons.1 hmem with heq | hin
      · cases heq
      · exact ih _ _ hm buf len r hin

/-- C14: on every channel whose `read(buf, k)` returns at most `k` bytes, if `readAllData` on a
buffer of length `L` returns true, then the bytes taken from the channel by its calls of
`socket->read`, in call order, are exactly `L` bytes and the buffer holds them in that
order. -/
theorem readAllData_fills_buffer (dev : Device σ) (cr : Crypto) (fuel : Nat)
    (data buf : List Byte) (s : σ) (hdev : dev.ReadsBounded)
    (hres : ((readAllData fuel data).run dev cr s).result = some (true, buf)) :
    receivedBytes ((readAllData fuel data).run dev cr s).trace = buf ∧
      (receivedBytes ((readAllData fuel data).run dev cr s).trace).length = data.length ∧
      buf.length = data.length := by
  obtain ⟨rd, s1, hrd, hrun | hrun⟩ := readAllData_run dev cr fuel data s
  · rw [hrun] at hres
    simp at hres
  · rw [hrun] at hres ⊢
    simp only [prefixed_result, prefixed_trace] at hres ⊢
    obtain ⟨hA, _⟩ := readAllDataLoop_summary dev cr hdev fuel fuel ⟨0, 0, data⟩ s1
      (le_refl 0) (by simp) (le_refl 0) (by simp)
    obtain ⟨b1, b2, _⟩ := hA buf hres
    simp only [Int.toNat_zero, List.take_zero, List.nil_append] at b1 b2
    rw [receivedBytes_append, receivedBytes_ready rd hrd, List.nil_append, ← b2]
    exact ⟨rfl, b1, b1⟩

/-- C16: one keepalive byte per 100 bytes moved. A successful `writeAllData(data)` over a
channel that accepts every write, or more generally never more than it is offered, reads
exactly `floor(L / 100)` keepalive bytes from the peer (its only reads); a successful
`readAllData` on a buffer of `L` bytes from a channel that gives at most what is asked for
writes exactly `floor(L / 100)` times, each time the single byte 0. -/
theorem keepalive_per_hundred_bytes {τ : Type} (devW : Device σ) (devR : Device τ)
    (cr : Crypto) (fuel : Nat) (data buffer buf : List Byte) (sW : σ) (sR : τ)
    (hW : devW.WritesBounded) (hR : devR.ReadsBounded)
    (hwrite : ((writeAllData fuel data).run devW cr sW).result = some true)
    (hread : ((readAllData fuel buffer).run devR cr sR).result = some (true, buf)) :
    readCalls ((writeAllData fuel data).run devW cr sW).trace = data.length / 100 ∧
      writeCalls ((readAllData fuel buffer).run devR cr sR).trace = buffer.length / 100 ∧
      ∀ b len r, Event.write b len r ∈ ((readAllData fuel buffer).run devR cr sR).trace →
        b = [(0 : Byte)] ∧ len = 1 := by
  have h1 := writeAllDataLoop_keepalives devW cr data hW fuel 0 0 sW (le_refl 0) (by simp)
    (le_refl 0) (by decide) hwrite
  obtain ⟨rd, s1, hrd, hrun | hrun⟩ := readAllData_run devR cr fuel buffer sR
  · rw [hrun] at hread
    simp at hread
  · rw [hrun] at hread ⊢
    simp only [prefixed_result, prefixed_trace] at hread ⊢
    obtain ⟨hA, hB⟩ := readAllDataLoop_summary devR cr hR fuel fuel ⟨0, 0, buffer⟩ s1
      (le_refl 0) (by simp) (le_refl 0) (by simp)
    obtain ⟨_, _, b3⟩ := hA buf hread
    simp only [sub_zero, add_zero] at h1 b3
    refine ⟨by unfold writeAllData; omega, ?_, ?_⟩
    · rw [writeCalls_append, writeCalls_ready rd hrd]
      omega
    · intro b len r hmem
      rcases List.mem_append.1 hmem with hmem | hmem
      · exact absurd rfl ((ready_neutral rd hrd _ hmem).1 b len r)
      · exact readMonitor_writes _ _ _ _ hB b len r hmem

/-- C17: the chunk cursor. On a channel that never moves more bytes than requested, from every
state of the loop variables with `0 <= chunkSoFar < 100` and `0 <= moved <= size`, which
includes the initial one, the rest of the run of `writeAllData` and of `readAllData` keeps the
cursor in `0 .. 99` and the total in `0 .. size` at every request, every request for payload
asks for `min (remaining) (100 - chunkSoFar)` bytes, between 1 and 100, and the cursor goes
back to 0 exactly at 100, where the keepalive is exchanged: the monitors `writeMonitor` and
`readMonitor`, started at the loop variables, accept the trace. -/
theorem chunk_cursor_invariant {τ : Type} (devW : Device σ) (devR : Device τ) (cr : Crypto)
    (hW : devW.WritesBounded) (hR : devR.ReadsBounded) :
    (∀ (data : List Byte) (fuel : Nat) (w c : Int) (s : σ),
        0 ≤ w → w ≤ data.length → 0 ≤ c → c < 100 →
        writeMonitor data.length w c ((writeAllDataLoop data fuel w c).run devW cr s).trace
          = true) ∧
      (∀ (data : List Byte) (fuel : Nat) (s : σ),
        writeMonitor data.length 0 0 ((writeAllData fuel data).run devW cr s).trace = true) ∧
      (∀ (inner fuel : Nat) (v : ReadVars) (s : τ),
        0 ≤ v.readSoFar → v.readSoFar ≤ v.data.length → 0 ≤ v.chunkSoFar →
        v.chunkSoFar < 100 →
        readMonitor v.data.length v.readSoFar v.chunkSoFar
          ((readAllDataLoop inner fuel v).run devR cr s).trace = true) ∧
      (∀ (buffer : List Byte) (fuel : Nat) (s : τ),
        readMonitor buffer.length 0 0 ((readAllData fuel buffer).run devR cr s).trace
          = true) := by
  refine ⟨fun data fuel w c s => writeAllDataLoop_cursor devW cr data hW fuel w c s,
    fun data fuel s => writeAllDataLoop_cursor devW cr data hW fuel 0 0 s (le_refl 0)
      (by simp) (le_refl 0) (by decide),
    fun inner fuel v s h0 h1 h2 h3 =>
      (readAllDataLoop_summary devR cr hR inner fuel v s h0 h1 h2 h3).2, ?_⟩
  intro buffer fuel s
  obtain ⟨rd, s1, hrd, hrun | hrun⟩ := readAllData_run devR cr fuel buffer s
  · rw [hrun]
    have := readMonitor_skip buffer.length 0 0 rd [] (ready_neutral rd hrd)
    rw [List.append_nil] at this
    rw [this, readMonitor_nil]
    simp
  · rw [hrun, prefixed_trace, readMonitor_skip _ _ _ rd _ (ready_neutral rd hrd)]
    exact (readAllDataLoop_summary devR cr hR fuel fuel ⟨0, 0, buffer⟩ s1 (le_refl 0)
      (by simp) (le_refl 0) (by simp)).2

/-! ## Witnesses on the loopback device -/

theorem writeAllData_terminates_witness :
    (payload 100).length ≤ 100 ∧
      (∃ b, ((writeAllData 100 (payload 100)).run endA shiftCrypto Loopback.idle).result
        = some b) ∧
      writeCalls ((writeAllData 100 (payload 100)).run endA shiftCrypto Loopback.idle).trace
        ≤ (payload 100).length :=
  ⟨by decide, writeAllData_terminates endA shiftCrypto (payload 100) Loopback.idle 100
    (by decide)⟩

theorem writeAllData_nonpositive_write_closes_witness :
    (Event.write (payload 5) 5 (-1) ∈
        ((writeAllData 5 (payload 5)).run endA shiftCrypto
          { Loopback.idle with openA := false }).trace ∧ narrowToInt (-1) ≤ 0) ∧
      ((writeAllData 5 (payload 5)).run endA shiftCrypto
          { Loopback.idle with openA := false }).result = some false ∧
      (∃ pre, ((writeAllData 5 (payload 5)).run endA shiftCrypto
          { Loopback.idle with openA := false }).trace
        = pre ++ [Event.write (payload 5) 5 (-1), Event.close]) ∧
      (∃ s0, ((writeAllData 5 (payload 5)).run endA shiftCrypto
          { Loopback.idle with openA := false }).state = endA.close s0) ∧
      payload 5 ≠ [] :=
  ⟨⟨by decide, by decide⟩,
    writeAllData_nonpositive_write_closes endA shiftCrypto 5 (payload 5)
      { Loopback.idle with openA := false } (payload 5) 5 (-1) (by decide) (by decide)⟩

theorem writeAllData_sends_data_witness :
    (endA.WritesBounded ∧
        ((writeAllData 5 (payload 5)).run endA shiftCrypto Loopback.idle).result = some true) ∧
      acceptedBytes ((writeAllData 5 (payload 5)).run endA shiftCrypto Loopback.idle).trace
        = payload 5 ∧
      (acceptedBytes ((writeAllData 5 (payload 5)).run endA shiftCrypto
        Loopback.idle).trace).length = (payload 5).length :=
  ⟨⟨endA_writesBounded, by decide⟩,
    writeAllData_sends_data endA shiftCrypto 5 (payload 5) Loopback.idle endA_writesBounded
      (by decide)⟩

theorem readAllData_fills_buffer_witness :
    (endA.ReadsBounded ∧
        ((readAllData 10 (byteArray 5 0)).run endA shiftCrypto (inbox (payload 5))).result
          = some (true, payload 5)) ∧
      receivedBytes ((readAllData 10 (byteArray 5 0)).run endA shiftCrypto
        (inbox (payload 5))).trace = payload 5 ∧
      (receivedBytes ((readAllData 10 (byteArray 5 0)).run endA shiftCrypto
        (inbox (payload 5))).trace).length = (byteArray 5 0).length ∧
      (payload 5).length = (byteArray 5 0).length :=
  ⟨⟨endA_readsBounded, by decide⟩,
    readAllData_fills_buffer endA shiftCrypto 10 (byteArray 5 0) (payload 5) (inbox (payload 5))
      endA_readsBounded (by decide)⟩

set_option maxRecDepth 100000 in
theorem keepalive_per_hundred_bytes_witness :
    (endA.WritesBounded ∧ endA.ReadsBounded ∧
        ((writeAllData 200 (payload 200)).run endA shiftCrypto (inbox [0, 0])).result
          = some true ∧
        ((readAllData 200 (byteArray 200 0)).run endA shiftCrypto
          (inbox (payload 200))).result = some (true, payload 200)) ∧
      readCalls ((writeAllData 200 (payload 200)).run endA shiftCrypto (inbox [0, 0])).trace
        = (payload 200).length / 100 ∧
      writeCalls ((readAllData 200 (byteArray 200 0)).run endA shiftCrypto
        (inbox (payload 200))).trace = (byteArray 200 0).length / 100 ∧
      ∀ b len r, Event.write b len r ∈ ((readAllData 200 (byteArray 200 0)).run endA
          shiftCrypto (inbox (payload 200))).trace →
        b = [(0 : Byte)] ∧ len = 1 :=
  ⟨⟨endA_writesBounded, endA_readsBounded, by decide, by decide⟩,
    keepalive_per_hundred_bytes endA endA shiftCrypto 200 (payload 200) (byteArray 200 0)
      (payload 200) (inbox [0, 0]) (inbox (payload 200)) endA_writesBounded endA_readsBounded
      (by decide) (by decide)⟩

theorem chunk_cursor_invariant_witness :
    (endA.WritesBounded ∧ endA.ReadsBounded) ∧
      writeMonitor (payload 100).length 0 0
        ((writeAllData 100 (payload 100)).run endA shiftCrypto (inbox [0])).trace = true ∧
      readMonitor (byteArray 100 0).length 0 0
        ((readAllData 100 (byteArray 100 0)).run endA shiftCrypto
          (inbox (payload 100))).trace = true :=
  ⟨⟨endA_writesBounded, endA_readsBounded⟩,
    (chunk_cursor_invariant endA endA shiftCrypto endA_writesBounded endA_readsBounded).2.1
      (payload 100) 100 (inbox [0]),
    (chunk_cursor_invariant endA endA shiftCrypto endA_writesBounded endA_readsBounded).2.2.2
      (byteArray 100 0) 100 (inbox (payload 100))⟩

/-! ## The guard before `decryptBytes` -/

theorem readDataEncrypted_run (dev : Device σ) (cr : Crypto) (javaIntMaxVal : Int)
    (fuel : Nat) (sess : Session) (s : σ) (hbt : sess.socketIsBluetooth = false) :
    (readDataEncrypted javaIntMaxVal fuel sess).run dev cr s
      = ((readDataUnencrypted fuel).run dev cr s).seq fun d t =>
          if (d.length : Int) % 16 = 0 then
            ⟨some (cr.decryptBytes d sess.sessionPasswordHash
                (cr.makeHash16 (numberToUtf8 (nextIV javaIntMaxVal sess).sessionIV)),
              nextIV javaIntMaxVal sess), t,
              [Event.makeHash16 (numberToUtf8 (nextIV javaIntMaxVal sess).sessionIV)
                  (cr.makeHash16 (numberToUtf8 (nextIV javaIntMaxVal sess).sessionIV)),
                Event.decryptBytes d sess.sessionPasswordHash
                  (cr.makeHash16 (numberToUtf8 (nextIV javaIntMaxVal sess).sessionIV))
                  (cr.decryptBytes d sess.sessionPasswordHash
                    (cr.makeHash16 (numberToUtf8 (nextIV javaIntMaxVal sess).sessionIV)))]⟩
          else
            ⟨some ([], nextIV javaIntMaxVal sess), t,
              [Event.makeHash16 (numberToUtf8 (nextIV javaIntMaxVal sess).sessionIV)
                (cr.makeHash16 (numberToUtf8 (nextIV javaIntMaxVal sess).sessionIV))]⟩ := by
  unfold readDataEncrypted
  simp only [run_bind_op, hbt, Bool.false_eq_true, if_false, run_makeHash16, Outcome.seq]
  cases ((readDataUnencrypted fuel).run dev cr s).result with
  | none => rfl
  | some d =>
    simp only
    by_cases h : (d.length : Int) % 16 = 0
    · simp [h, Outcome.seq, nextIV]
    · simp [h, nextIV]

theorem filter_isDecrypt_plain (tr : List Event) (h : ∀ e ∈ tr, e.isCrypto = false) :
    tr.filter Event.isDecrypt = [] := by
  rw [List.filter_eq_nil_iff]
  intro e he
  have := h e he
  cases e <;> simp_all [Event.isCrypto, Event.isDecrypt]

/-- C12, amended: on a channel that is not link-encrypted, `readDataEncrypted` invokes the
cipher's decrypt exactly when the length of what the framed read returned is a multiple of 16,
zero included, once, on that payload, and returns what decrypt gives; when the length is not a
multiple of 16 it returns the empty result without calling decrypt. -/
theorem readDataEncrypted_decrypt_guard (dev : Device σ) (cr : Crypto) (javaIntMaxVal : Int)
    (fuel : Nat) (sess : Session) (s : σ) (d : List Byte)
    (hbt : sess.socketIsBluetooth = false)
    (hread : ((readDataUnencrypted fuel).run dev cr s).result = some d) :
    ((d.length : Int) % 16 = 0 →
        ((readDataEncrypted javaIntMaxVal fuel sess).run dev cr s).result
          = some (cr.decryptBytes d sess.sessionPasswordHash
              (cr.makeHash16 (numberToUtf8 (nextIV javaIntMaxVal sess).sessionIV)),
            nextIV javaIntMaxVal sess) ∧
        ((readDataEncrypted javaIntMaxVal fuel sess).run dev cr s).trace.filter Event.isDecrypt
          = [Event.decryptBytes d sess.sessionPasswordHash
              (cr.makeHash16 (numberToUtf8 (nextIV javaIntMaxVal sess).sessionIV))
              (cr.decryptBytes d sess.sessionPasswordHash
                (cr.makeHash16 (numberToUtf8 (nextIV javaIntMaxVal sess).sessionIV)))]) ∧
      ((d.length : Int) % 16 ≠ 0 →
        ((readDataEncrypted javaIntMaxVal fuel sess).run dev cr s).result
          = some ([], nextIV javaIntMaxVal sess) ∧
        ((readDataEncrypted javaIntMaxVal fuel sess).run dev cr s).trace.filter Event.isDecrypt
          = []) := by
  have hplain := filter_isDecrypt_plain _ ((readDataUnencrypted_only fuel).run dev cr s)
  rw [readDataEncrypted_run dev cr javaIntMaxVal fuel sess s hbt]
  simp only [Outcome.seq, hread]
  constructor
  · intro h
    simp [h, hplain, Event.isDecrypt]
  · intro h
    simp [h, hplain, Event.isDecrypt]

set_option maxRecDepth 100000 in
theorem readDataEncrypted_decrypt_guard_witness :
    (exampleSession.socketIsBluetooth = false ∧
        ((readDataUnencrypted 20).run endA shiftCrypto (inbox (frame (payload 16)))).result
          = some (payload 16) ∧ (((payload 16).length : Int) % 16 = 0)) ∧
      ((readDataEncrypted exampleIntMax 20 exampleSession).run endA shiftCrypto
          (inbox (frame (payload 16)))).result
        = some (shiftCrypto.decryptBytes (payload 16) exampleSession.sessionPasswordHash
            (shiftCrypto.makeHash16
              (numberToUtf8 (nextIV exampleIntMax exampleSession).sessionIV)),
          nextIV exampleIntMax exampleSession) :=
  ⟨⟨by decide, by decide, by decide⟩,
    ((readDataEncrypted_decrypt_guard endA shiftCrypto exampleIntMax 20 exampleSession
      (inbox (frame (payload 16))) (payload 16) (by decide) (by decide)).1 (by decide)).1⟩

set_option maxRecDepth 100000 in
/-- C12, the claim as stated fails: on an open connection on which nothing arrives the framed
read fails and yields the empty array, and `readDataEncrypted` still calls decrypt, on the empty
array; the same happens for a frame of length 0. -/
theorem readDataEncrypted_decrypts_failed_read :
    Event.note (.waitForReadyRead 2500 false) ∈
        ((readDataUnencrypted 20).run endA shiftCrypto Loopback.idle).trace ∧
      ((readDataUnencrypted 20).run endA shiftCrypto Loopback.idle).result = some [] ∧
      ((readDataEncrypted exampleIntMax 20 exampleSession).run endA shiftCrypto
          Loopback.idle).trace.filter Event.isDecrypt
        = [Event.decryptBytes [] exampleSession.sessionPasswordHash
            (shiftCrypto.makeHash16 (numberToUtf8 1)) []] ∧
      ((readDataEncrypted exampleIntMax 20 exampleSession).run endA shiftCrypto
          (inbox [0, 0, 0, 0])).trace.filter Event.isDecrypt
        = [Event.decryptBytes [] exampleSession.sessionPasswordHash
            (shiftCrypto.makeHash16 (numberToUtf8 1)) []] := by
  decide

/-! ## The IV counter -/

theorem frame_length (data : List Byte) : (frame data).length = data.length + 4 := by
  simp [frame, intToBytes]
  omega

theorem writeDataEncrypted_run (dev : Device σ) (cr : Crypto) (javaIntMaxVal : Int)
    (fill : Nat → Byte) (fuel : Nat) (sess : Session) (data : List Byte) (s : σ)
    (hbt : sess.socketIsBluetooth = false) :
    (writeDataEncrypted javaIntMaxVal fill fuel sess data).run dev cr s
      = (((writeDataUnencrypted fuel
            (cr.encryptBytes (padded data fill) sess.sessionPasswordHash
              (cr.makeHash16 (numberToUtf8 (nextIV javaIntMaxVal sess).sessionIV)))).run
            dev cr s).seq fun b t => ⟨some (b, nextIV javaIntMaxVal sess), t, []⟩).prefixed
          [Event.makeHash16 (numberToUtf8 (nextIV javaIntMaxVal sess).sessionIV)
              (cr.makeHash16 (numberToUtf8 (nextIV javaIntMaxVal sess).sessionIV)),
            Event.encryptBytes (padded data fill) sess.sessionPasswordHash
              (cr.makeHash16 (numberToUtf8 (nextIV javaIntMaxVal sess).sessionIV))
              (cr.encryptBytes (padded data fill) sess.sessionPasswordHash
                (cr.makeHash16 (numberToUtf8 (nextIV javaIntMaxVal sess).sessionIV)))] := by
  unfold writeDataEncrypted
  simp only [hbt, Bool.false_eq_true, if_false, run_bind_op, run_makeHash16, run_encryptBytes,
    Outcome.seq, Outcome.prefixed, run_pure, nextIV]
  generalize (writeDataUnencrypted fuel _).run dev cr s = o
  rcases o with ⟨_ | b, t, tr⟩ <;> simp

theorem seq_value_trace {γ : Type} (o : Outcome σ α) (f : α → γ) :
    (o.seq fun a t => ⟨some (f a), t, []⟩).trace = o.trace := by
  unfold Outcome.seq
  cases o.result <;> simp

/-- C6: on a channel that is not link-encrypted, `writeDataEncrypted` hands to the cipher, in
its one call of `encryptBytes`, the payload resized by the padding `16 - (n mod 16)`, and sends
what the cipher returns: the trace is the call of `makeHash16`, the call of `encryptBytes` on
the padded buffer, and then the calls of `writeDataUnencrypted` on the ciphertext, none of
which is a call into the cipher. The padding lies between 1 and 16, it is 16 when `n` is a
multiple of 16, the padded length `n + padding` is the smallest multiple of 16 that is at
least `n + 1`, and the padded buffer has that length and starts with the payload. -/
theorem padding_spec (dev : Device σ) (cr : Crypto) (javaIntMaxVal : Int) (fill : Nat → Byte)
    (fuel : Nat) (sess : Session) (data : List Byte) (s : σ)
    (hbt : sess.socketIsBluetooth = false) :
    ((writeDataEncrypted javaIntMaxVal fill fuel sess data).run dev cr s).trace
        = [Event.makeHash16 (numberToUtf8 (nextIV javaIntMaxVal sess).sessionIV)
              (cr.makeHash16 (numberToUtf8 (nextIV javaIntMaxVal sess).sessionIV)),
            Event.encryptBytes (padded data fill) sess.sessionPasswordHash
              (cr.makeHash16 (numberToUtf8 (nextIV javaIntMaxVal sess).sessionIV))
              (cr.encryptBytes (padded data fill) sess.sessionPasswordHash
                (cr.makeHash16 (numberToUtf8 (nextIV javaIntMaxVal sess).sessionIV)))]
          ++ ((writeDataUnencrypted fuel
              (cr.encryptBytes (padded data fill) sess.sessionPasswordHash
                (cr.makeHash16 (numberToUtf8 (nextIV javaIntMaxVal sess).sessionIV)))).run
              dev cr s).trace ∧
      (∀ e ∈ ((writeDataUnencrypted fuel
          (cr.encryptBytes (padded data fill) sess.sessionPasswordHash
            (cr.makeHash16 (numberToUtf8 (nextIV javaIntMaxVal sess).sessionIV)))).run
          dev cr s).trace, e.isCrypto = false) ∧
      ((padded data fill).length : Int) = data.length + padding data.length ∧
      padding data.length = 16 - (data.length : Int) % 16 ∧
      1 ≤ padding data.length ∧ padding data.length ≤ 16 ∧
      ((data.length : Int) % 16 = 0 → padding data.length = 16) ∧
      (16 : Int) ∣ data.length + padding data.length ∧
      (data.length : Int) + 1 ≤ data.length + padding data.length ∧
      (∀ m : Int, (16 : Int) ∣ m → (data.length : Int) + 1 ≤ m →
        data.length + padding data.length ≤ m) ∧
      (padded data fill).take data.length = data := by
  obtain ⟨h1, h2, h3, h4, h5, h6, h7, h8⟩ := padding_bounds data fill
  refine ⟨?_, (writeDataUnencrypted_only fuel _).run dev cr s, h7, rfl, h1, h2, h3, h4, h5,
    h6, h8⟩
  rw [writeDataEncrypted_run dev cr javaIntMaxVal fill fuel sess data s hbt, prefixed_trace,
    seq_value_trace]

set_option maxRecDepth 100000 in
theorem padding_spec_witness :
    exampleSession.socketIsBluetooth = false ∧
      ((writeDataEncrypted exampleIntMax (fun _ => 0) 40 exampleSession (payload 16)).run endA
          shiftCrypto Loopback.idle).trace
        = [Event.makeHash16 (numberToUtf8 (nextIV exampleIntMax exampleSession).sessionIV)
              (shiftCrypto.makeHash16
                (numberToUtf8 (nextIV exampleIntMax exampleSession).sessionIV)),
            Event.encryptBytes (padded (payload 16) fun _ => 0)
              exampleSession.sessionPasswordHash
              (shiftCrypto.makeHash16
                (numberToUtf8 (nextIV exampleIntMax exampleSession).sessionIV))
              (shiftCrypto.encryptBytes (padded (payload 16) fun _ => 0)
                exampleSession.sessionPasswordHash
                (shiftCrypto.makeHash16
                  (numberToUtf8 (nextIV exampleIntMax exampleSession).sessionIV)))]
          ++ ((writeDataUnencrypted 40
              (shiftCrypto.encryptBytes (padded (payload 16) fun _ => 0)
                exampleSession.sessionPasswordHash
                (shiftCrypto.makeHash16
                  (numberToUtf8 (nextIV exampleIntMax exampleSession).sessionIV)))).run
              endA shiftCrypto Loopback.idle).trace ∧
      (∀ e ∈ ((writeDataUnencrypted 40
          (shiftCrypto.encryptBytes (padded (payload 16) fun _ => 0)
            exampleSession.sessionPasswordHash
            (shiftCrypto.makeHash16
              (numberToUtf8 (nextIV exampleIntMax exampleSession).sessionIV)))).run
          endA shiftCrypto Loopback.idle).trace, e.isCrypto = false) ∧
      ((padded (payload 16) fun _ => 0).length : Int)
        = (payload 16).length + padding (payload 16).length ∧
      padding (payload 16).length = 16 - ((payload 16).length : Int) % 16 ∧
      1 ≤ padding (payload 16).length ∧ padding (payload 16).length ≤ 16 ∧
      (((payload 16).length : Int) % 16 = 0 → padding (payload 16).length = 16) ∧
      (16 : Int) ∣ (payload 16).length + padding (payload 16).length ∧
      ((payload 16).length : Int) + 1 ≤ (payload 16).length + padding (payload 16).length ∧
      (∀ m : Int, (16 : Int) ∣ m → ((payload 16).length : Int) + 1 ≤ m →
        (payload 16).length + padding (payload 16).length ≤ m) ∧
      (padded (payload 16) fun _ => 0).take (payload 16).length = payload 16 :=
  ⟨rfl, padding_spec endA shiftCrypto exampleIntMax (fun _ => 0) 40 exampleSession (payload 16)
    Loopback.idle rfl⟩

/-- Whenever `writeDataEncrypted` returns on a channel that is not link-encrypted, the session
it leaves is `nextIV` of the one it found. -/
theorem writeDataEncrypted_session (dev : Device σ) (cr : Crypto) (javaIntMaxVal : Int)
    (fill : Nat → Byte) (fuel : Nat) (sess : Session) (data : List Byte) (s : σ)
    (hbt : sess.socketIsBluetooth = false) (r : Bool × Session)
    (h : ((writeDataEncrypted javaIntMaxVal fill fuel sess data).run dev cr s).result = some r) :
    r.2 = nextIV javaIntMaxVal sess := by
  rw [writeDataEncrypted_run dev cr javaIntMaxVal fill fuel sess data s hbt] at h
  simp only [prefixed_result, Outcome.seq] at h
  split at h
  · simp at h
  · simp only [Option.some.injEq] at h
    rw [← h]

/-- Whenever `readDataEncrypted` returns on a channel that is not link-encrypted, the session
it leaves is `nextIV` of the one it found. -/
theorem readDataEncrypted_session (dev : Device σ) (cr : Crypto) (javaIntMaxVal : Int)
    (fuel : Nat) (sess : Session) (s : σ) (hbt : sess.socketIsBluetooth = false)
    (r : List Byte × Session)
    (h : ((readDataEncrypted javaIntMaxVal fuel sess).run dev cr s).result = some r) :
    r.2 = nextIV javaIntMaxVal sess := by
  rw [readDataEncrypted_run dev cr javaIntMaxVal fuel sess s hbt] at h
  simp only [Outcome.seq] at h
  split at h
  · simp at h
  · split at h
    · simp only [Option.some.injEq] at h
      rw [← h]
    · simp only [Option.some.injEq] at h
      rw [← h]

theorem nextIV_bluetooth (javaIntMaxVal : Int) (sess : Session) :
    (nextIV javaIntMaxVal sess).socketIsBluetooth = sess.socketIsBluetooth := rfl

theorem iterate_nextIV_bluetooth (javaIntMaxVal : Int) (k : Nat) :
    ∀ sess : Session, ((nextIV javaIntMaxVal)^[k] sess).socketIsBluetooth
      = sess.socketIsBluetooth := by
  induction k with
  | zero => intro sess; rfl
  | succ k ih => intro sess; rw [Function.iterate_succ_apply, ih, nextIV_bluetooth]

theorem iterate_nextIV_counter (javaIntMaxVal : Int) (k : Nat) :
    ∀ a b : Session, a.sessionIV = b.sessionIV →
      ((nextIV javaIntMaxVal)^[k] a).sessionIV = ((nextIV javaIntMaxVal)^[k] b).sessionIV := by
  induction k with
  | zero => intro a b h; exact h
  | succ k ih =>
    intro a b h
    rw [Function.iterate_succ_apply, Function.iterate_succ_apply]
    apply ih
    simp [nextIV, h]

theorem sendAll_session (dev : Device σ) (cr : Crypto) (javaIntMaxVal : Int)
    (fill : Nat → Byte) (fuel : Nat) (payloads : List (List Byte)) :
    ∀ (sess : Session) (s : σ) (out : Session), sess.socketIsBluetooth = false →
      ((sendAll javaIntMaxVal fill fuel sess payloads).run dev cr s).result = some out →
      out = (nextIV javaIntMaxVal)^[payloads.length] sess := by
  induction payloads with
  | nil =>
    intro sess s out _ h
    simp only [sendAll, run_pure, Option.some.injEq] at h
    rw [← h]
    rfl
  | cons data rest ih =>
    intro sess s out hbt h
    simp only [sendAll, run_bind_op, Outcome.seq] at h
    have hs := writeDataEncrypted_session dev cr javaIntMaxVal fill fuel sess data s hbt
    generalize (writeDataEncrypted javaIntMaxVal fill fuel sess data).run dev cr s = o at h hs
    rcases o with ⟨_ | r, t, tr⟩
    · simp at h
    · have := hs r rfl
      simp only at h
      rw [List.length_cons, Function.iterate_succ_apply, ← this]
      exact ih r.2 t out (by rw [this]; exact hbt) h

theorem recvAll_session (dev : Device σ) (cr : Crypto) (javaIntMaxVal : Int)
    (fuel : Nat) (k : Nat) :
    ∀ (sess : Session) (s : σ) (out : Session), sess.socketIsBluetooth = false →
      ((recvAll javaIntMaxVal fuel sess k).run dev cr s).result = some out →
      out = (nextIV javaIntMaxVal)^[k] sess := by
  induction k with
  | zero =>
    intro sess s out _ h
    simp only [recvAll, run_pure, Option.some.injEq] at h
    rw [← h]
    rfl
  | succ k ih =>
    intro sess s out hbt h
    simp only [recvAll, run_bind_op, Outcome.seq] at h
    have hs := readDataEncrypted_session dev cr javaIntMaxVal fuel sess s hbt
    generalize (readDataEncrypted javaIntMaxVal fuel sess).run dev cr s = o at h hs
    rcases o with ⟨_ | r, t, tr⟩
    · simp at h
    · have := hs r rfl
      simp only at h
      rw [Function.iterate_succ_apply, ← this]
      exact ih r.2 t out (by rw [this]; exact hbt) h

theorem writeDataEncrypted_returns (dev : Device σ) (cr : Crypto) (javaIntMaxVal : Int)
    (fill : Nat → Byte) (fuel : Nat) (sess : Session) (data : List Byte) (s : σ)
    (hbt : sess.socketIsBluetooth = false)
    (hfuel : ∀ key iv, (cr.encryptBytes (padded data fill) key iv).length + 4 ≤ fuel) :
    ∃ b, ((writeDataEncrypted javaIntMaxVal fill fuel sess data).run dev cr s).result
      = some (b, nextIV javaIntMaxVal sess) := by
  rw [writeDataEncrypted_run dev cr javaIntMaxVal fill fuel sess data s hbt]
  simp only [prefixed_result, Outcome.seq]
  have h := (writeAllDataLoop_terminates dev cr
    (frame (cr.encryptBytes (padded data fill) sess.sessionPasswordHash
      (cr.makeHash16 (numberToUtf8 (nextIV javaIntMaxVal sess).sessionIV)))) fuel 0 0 s).2
    (by
      have := hfuel sess.sessionPasswordHash
        (cr.makeHash16 (numberToUtf8 (nextIV javaIntMaxVal sess).sessionIV))
      simp only [frame_length, sub_zero, Int.toNat_ofNat]
      exact this)
  unfold writeDataUnencrypted writeAllData
  generalize (writeAllDataLoop _ fuel 0 0).run dev cr s = o at h
  rcases o with ⟨_ | b, t, tr⟩
  · exact absurd rfl h
  · exact ⟨b, rfl⟩

theorem sendAll_returns (dev : Device σ) (cr : Crypto) (javaIntMaxVal : Int)
    (fill : Nat → Byte) (fuel : Nat) (payloads : List (List Byte)) :
    ∀ (sess : Session) (s : σ), sess.socketIsBluetooth = false →
      (∀ data ∈ payloads, ∀ key iv,
        (cr.encryptBytes (padded data fill) key iv).length + 4 ≤ fuel) →
      ((sendAll javaIntMaxVal fill fuel sess payloads).run dev cr s).result
        = some ((nextIV javaIntMaxVal)^[payloads.length] sess) := by
  induction payloads with
  | nil =>
    intro sess s _ _
    rfl
  | cons data rest ih =>
    intro sess s hbt hfuel
    obtain ⟨b, hb⟩ := writeDataEncrypted_returns dev cr javaIntMaxVal fill fuel sess data s hbt
      (hfuel data (List.mem_cons_self _ _))
    simp only [sendAll, run_bind_op, Outcome.seq]
    generalize (writeDataEncrypted javaIntMaxVal fill fuel sess data).run dev cr s = o at hb
    rcases o with ⟨r, t, tr⟩
    simp only at hb
    subst hb
    simp only [List.length_cons, Function.iterate_succ_apply]
    rw [ih (nextIV javaIntMaxVal sess) t hbt
      (fun d hd => hfuel d (List.mem_cons_of_mem _ hd))]

theorem readDataEncrypted_result_session (dev : Device σ) (cr : Crypto) (javaIntMaxVal : Int)
    (fuel : Nat) (sess : Session) (s : σ) (hbt : sess.socketIsBluetooth = false) :
    ((readDataEncrypted javaIntMaxVal fuel sess).run dev cr s).result.map Prod.snd
      = ((readDataUnencrypted fuel).run dev cr s).result.map
          fun _ => nextIV javaIntMaxVal sess := by
  rw [readDataEncrypted_run dev cr javaIntMaxVal fuel sess s hbt]
  simp only [Outcome.seq]
  generalize (readDataUnencrypted fuel).run dev cr s = o
  rcases o with ⟨_ | d, t, tr⟩
  · rfl
  · simp only
    split <;> rfl

theorem nextIV_counter (javaIntMaxVal : Int) (sess : Session) (hM : 0 < javaIntMaxVal)
    (hc : 0 ≤ sess.sessionIV) :
    (nextIV javaIntMaxVal sess).sessionIV = (sess.sessionIV + 1) % javaIntMaxVal := by
  simp only [nextIV]
  have h1 : 0 ≤ sess.sessionIV + 1 := by omega
  exact Int.tmod_eq_emod h1 (Int.le_of_lt hM)

theorem nextIV_range (javaIntMaxVal : Int) (sess : Session) (hM : 0 < javaIntMaxVal)
    (hc : 0 ≤ sess.sessionIV) :
    0 ≤ (nextIV javaIntMaxVal sess).sessionIV ∧
      (nextIV javaIntMaxVal sess).sessionIV < javaIntMaxVal := by
  rw [nextIV_counter javaIntMaxVal sess hM hc]
  exact ⟨Int.emod_nonneg _ (by omega), Int.emod_lt_of_pos _ hM⟩

theorem iterate_nextIV_range (javaIntMaxVal : Int) (hM : 0 < javaIntMaxVal) (k : Nat) :
    ∀ sess : Session, 0 ≤ sess.sessionIV →
      0 ≤ ((nextIV javaIntMaxVal)^[k] sess).sessionIV ∧
        (sess.sessionIV < javaIntMaxVal ∨ 0 < k →
          ((nextIV javaIntMaxVal)^[k] sess).sessionIV < javaIntMaxVal) := by
  induction k with
  | zero =>
    intro sess hc
    refine ⟨hc, fun h => ?_⟩
    rcases h with h | h
    · exact h
    · exact absurd h (by decide)
  | succ k ih =>
    intro sess hc
    have hr := nextIV_range javaIntMaxVal sess hM hc
    have := ih (nextIV javaIntMaxVal sess) hr.1
    rw [Function.iterate_succ_apply]
    exact ⟨this.1, fun _ => this.2 (Or.inl hr.2)⟩

theorem iterate_nextIV_hash (javaIntMaxVal : Int) (k : Nat) :
    ∀ sess : Session, ((nextIV javaIntMaxVal)^[k] sess).sessionPasswordHash
      = sess.sessionPasswordHash := by
  induction k with
  | zero => intro sess; rfl
  | succ k ih => intro sess; rw [Function.iterate_succ_apply, ih]; rfl

/-- The remainder of C++ for a dividend that is not positive and a positive divisor. -/
theorem tmod_of_nonpos (a b : Int) (ha : a ≤ 0) (hb : 0 < b) : a.tmod b = -((-a) % b) := by
  obtain ⟨n, rfl⟩ := Int.exists_eq_neg_ofNat ha
  obtain ⟨k, rfl⟩ := Int.eq_ofNat_of_zero_le (Int.le_of_lt hb)
  cases n with
  | zero => simp
  | succ m =>
    rw [neg_neg]
    show Int.tmod (Int.negSucc m) (k : Int) = _
    simp only [Int.tmod]
    norm_cast

theorem nextIV_negative (javaIntMaxVal : Int) (sess : Session) (hM : 0 < javaIntMaxVal)
    (hc : sess.sessionIV + 1 ≤ 0) :
    (nextIV javaIntMaxVal sess).sessionIV = -((-(sess.sessionIV + 1)) % javaIntMaxVal) ∧
      -javaIntMaxVal < (nextIV javaIntMaxVal sess).sessionIV ∧
      (nextIV javaIntMaxVal sess).sessionIV ≤ 0 := by
  have h2 : (nextIV javaIntMaxVal sess).sessionIV
      = -((-(sess.sessionIV + 1)) % javaIntMaxVal) := by
    simp only [nextIV]
    exact tmod_of_nonpos _ _ hc hM
  have h3 := Int.emod_nonneg (-(sess.sessionIV + 1)) (by omega : javaIntMaxVal ≠ 0)
  have h4 := Int.emod_lt_of_pos (-(sess.sessionIV + 1)) hM
  rw [h2]
  exact ⟨rfl, by omega, by omega⟩

/-- C11: on a channel that is not link-encrypted, for every value `c` of the IV counter: a call
of `writeDataEncrypted` returns (the fuel covering the frame) and leaves the session `nextIV` of
the one it found, whatever the transfer's result `b`; a call of `readDataEncrypted` returns
exactly when its framed read returns, and then leaves the session `nextIV` of the one it found,
whatever was read. In that session the counter is `(c + 1) % JAVA_INT_MAX_VAL` with the `%` of
C++, and the password hash is the old one. With `JAVA_INT_MAX_VAL` positive: for `c >= 0` this
is `(c + 1) mod JAVA_INT_MAX_VAL`, within `[0, JAVA_INT_MAX_VAL)`, and after `k` calls the
counter is not negative and is below `JAVA_INT_MAX_VAL` (for `k = 0` when it started there); for
`c + 1 <= 0` it is `-((-(c + 1)) mod JAVA_INT_MAX_VAL)`, within `(-JAVA_INT_MAX_VAL, 0]`. After
`k` calls in a row the sender holds the `k`-fold `nextIV` of its session, with the password
hash it started with, and a peer that started from the same counter and made `k` calls of
`readDataEncrypted` holds the same counter as the sender. The functions `writeAllData`,
`readAllData`, `writeDataUnencrypted` and `readDataUnencrypted` neither receive nor return the
session. -/
theorem iv_counter_advances {τ : Type} (dev : Device σ) (devB : Device τ) (cr : Crypto)
    (javaIntMaxVal : Int) (fill : Nat → Byte) (fuel : Nat) (sess peer out : Session)
    (data : List Byte) (payloads : List (List Byte)) (s : σ) (t : τ)
    (hbt : sess.socketIsBluetooth = false)
    (hfuel : ∀ d ∈ data :: payloads, ∀ key iv,
      (cr.encryptBytes (padded d fill) key iv).length + 4 ≤ fuel)
    (hpeer : peer.socketIsBluetooth = false) (hsame : peer.sessionIV = sess.sessionIV)
    (hrecv : ((recvAll javaIntMaxVal fuel peer payloads.length).run devB cr t).result
      = some out) :
    (∃ b, ((writeDataEncrypted javaIntMaxVal fill fuel sess data).run dev cr s).result
        = some (b, nextIV javaIntMaxVal sess)) ∧
      ((readDataEncrypted javaIntMaxVal fuel sess).run dev cr s).result.map Prod.snd
        = ((readDataUnencrypted fuel).run dev cr s).result.map
            (fun _ => nextIV javaIntMaxVal sess) ∧
      (nextIV javaIntMaxVal sess).sessionIV = (sess.sessionIV + 1).tmod javaIntMaxVal ∧
      (nextIV javaIntMaxVal sess).sessionPasswordHash = sess.sessionPasswordHash ∧
      (0 < javaIntMaxVal → 0 ≤ sess.sessionIV →
        (nextIV javaIntMaxVal sess).sessionIV = (sess.sessionIV + 1) % javaIntMaxVal ∧
        0 ≤ (nextIV javaIntMaxVal sess).sessionIV ∧
        (nextIV javaIntMaxVal sess).sessionIV < javaIntMaxVal ∧
        ∀ k, 0 ≤ ((nextIV javaIntMaxVal)^[k] sess).sessionIV ∧
          (sess.sessionIV < javaIntMaxVal ∨ 0 < k →
            ((nextIV javaIntMaxVal)^[k] sess).sessionIV < javaIntMaxVal)) ∧
      (0 < javaIntMaxVal → sess.sessionIV + 1 ≤ 0 →
        (nextIV javaIntMaxVal sess).sessionIV = -((-(sess.sessionIV + 1)) % javaIntMaxVal) ∧
        -javaIntMaxVal < (nextIV javaIntMaxVal sess).sessionIV ∧
        (nextIV javaIntMaxVal sess).sessionIV ≤ 0) ∧
      (∀ k, ((nextIV javaIntMaxVal)^[k] sess).sessionPasswordHash
        = sess.sessionPasswordHash) ∧
      ((sendAll javaIntMaxVal fill fuel sess payloads).run dev cr s).result
        = some ((nextIV javaIntMaxVal)^[payloads.length] sess) ∧
      out = (nextIV javaIntMaxVal)^[payloads.length] peer ∧
      out.sessionIV = ((nextIV javaIntMaxVal)^[payloads.length] sess).sessionIV := by
  have hout := recvAll_session devB cr javaIntMaxVal fuel payloads.length peer t out hpeer hrecv
  refine ⟨?_, ?_, rfl, rfl, ?_, nextIV_negative javaIntMaxVal sess,
    fun k => iterate_nextIV_hash javaIntMaxVal k sess, ?_, hout, ?_⟩
  · exact writeDataEncrypted_returns dev cr javaIntMaxVal fill fuel sess data s hbt
      (hfuel data (List.mem_cons_self _ _))
  · exact readDataEncrypted_result_session dev cr javaIntMaxVal fuel sess s hbt
  · intro hM hc
    have hr := nextIV_range javaIntMaxVal sess hM hc
    exact ⟨nextIV_counter javaIntMaxVal sess hM hc, hr.1, hr.2,
      fun k => iterate_nextIV_range javaIntMaxVal hM k sess hc⟩
  · exact sendAll_returns dev cr javaIntMaxVal fill fuel payloads sess s hbt
      (fun d hd => hfuel d (List.mem_cons_of_mem _ hd))
  · rw [hout]
    exact iterate_nextIV_counter javaIntMaxVal payloads.length peer sess hsame

/-- A negative counter: from -5 the next counter is -4. -/
theorem nextIV_from_minus_five :
    (nextIV exampleIntMax { exampleSession with sessionIV := -5 }).sessionIV = -4 := by
  decide

set_option maxRecDepth 100000 in
theorem iv_counter_advances_witness :
    ((recvAll exampleIntMax 40 exampleSession [hello, payload 16].length).run endA shiftCrypto
        (inbox (frame (payload 16) ++ frame (payload 32)))).result
        = some ⟨false, 2, List.replicate 16 0⟩ ∧
      (∃ b, ((writeDataEncrypted exampleIntMax (fun _ => 0) 40 exampleSession hello).run endA
          shiftCrypto Loopback.idle).result = some (b, nextIV exampleIntMax exampleSession)) ∧
      ((readDataEncrypted exampleIntMax 40 exampleSession).run endA shiftCrypto
          Loopback.idle).result.map Prod.snd
        = ((readDataUnencrypted 40).run endA shiftCrypto Loopback.idle).result.map
            (fun _ => nextIV exampleIntMax exampleSession) ∧
      (nextIV exampleIntMax exampleSession).sessionIV
        = (exampleSession.sessionIV + 1).tmod exampleIntMax ∧
      (nextIV exampleIntMax exampleSession).sessionPasswordHash
        = exampleSession.sessionPasswordHash ∧
      (0 < exampleIntMax → 0 ≤ exampleSession.sessionIV →
        (nextIV exampleIntMax exampleSession).sessionIV
          = (exampleSession.sessionIV + 1) % exampleIntMax ∧
        0 ≤ (nextIV exampleIntMax exampleSession).sessionIV ∧
        (nextIV exampleIntMax exampleSession).sessionIV < exampleIntMax ∧
        ∀ k, 0 ≤ ((nextIV exampleIntMax)^[k] exampleSession).sessionIV ∧
          (exampleSession.sessionIV < exampleIntMax ∨ 0 < k →
            ((nextIV exampleIntMax)^[k] exampleSession).sessionIV < exampleIntMax)) ∧
      (0 < exampleIntMax → exampleSession.sessionIV + 1 ≤ 0 →
        (nextIV exampleIntMax exampleSession).sessionIV
          = -((-(exampleSession.sessionIV + 1)) % exampleIntMax) ∧
        -exampleIntMax < (nextIV exampleIntMax exampleSession).sessionIV ∧
        (nextIV exampleIntMax exampleSession).sessionIV ≤ 0) ∧
      (∀ k, ((nextIV exampleIntMax)^[k] exampleSession).sessionPasswordHash
        = exampleSession.sessionPasswordHash) ∧
      ((sendAll exampleIntMax (fun _ => 0) 40 exampleSession [hello, payload 16]).run endA
          shiftCrypto Loopback.idle).result
        = some ((nextIV exampleIntMax)^[[hello, payload 16].length] exampleSession) ∧
      (⟨false, 2, List.replicate 16 0⟩ : Session)
        = (nextIV exampleIntMax)^[[hello, payload 16].length] exampleSession ∧
      (⟨false, 2, List.replicate 16 0⟩ : Session).sessionIV
        = ((nextIV exampleIntMax)^[[hello, payload 16].length] exampleSession).sessionIV :=
  have hrecv : ((recvAll exampleIntMax 40 exampleSession [hello, payload 16].length).run endA
      shiftCrypto (inbox (frame (payload 16) ++ frame (payload 32)))).result
      = some ⟨false, 2, List.replicate 16 0⟩ := by decide
  ⟨hrecv, iv_counter_advances endA endA shiftCrypto exampleIntMax (fun _ => 0) 40 exampleSession
    exampleSession ⟨false, 2, List.replicate 16 0⟩ hello [hello, payload 16] Loopback.idle
    (inbox (frame (payload 16) ++ frame (payload 32))) rfl
    (by
      intro d hd key iv
      have hlen : (padded d fun _ => 0).length ≤ 36 := by
        simp only [List.mem_cons, List.mem_singleton, List.not_mem_nil, or_false] at hd
        rcases hd with rfl | rfl | rfl <;> decide
      simp only [shiftCrypto, List.length_map]
      omega)
    rfl rfl hrecv⟩

end SocketUtils
